import Mathlib

/-!
Verification development for the mind-map core of the `web-mind` repository.

The TypeScript sources are shallowly embedded as Lean definitions:

* `src/core/models/mindmap.ts`      → `createNode`, `createInitialMindMap`, `findNodeById`,
                                      `flattenNodes`, `rebuildTree`
* `src/core/operations/node-operations.ts`
                                    → `addChildNode`, `addSiblingNodeFunc`, `deleteNodeFunc`,
                                      `updateNodeContentFunc`, `updateNodeStyleFunc`,
                                      `toggleNodeExpandedFunc`
* `src/core/utils/drag-utils.ts`    → `calculateDistanceSq`, `findClosestNode`,
                                      `updateNodeRelationshipF` and its helpers
* the two-pass layout module (`calcBounds` / `setPositions`)
                                    → `calcBounds`, `setPositions`, `calculateMindMapLayout`
* `src/store/index.ts`              → `StoreState`, `executeWithHistory`, the `store*`
                                      operation wrappers, `storeUndo`, `storeRedo`

Modelling conventions, used consistently below:

* JavaScript objects mutated in place are rendered as pure value transformations.
  `find`-then-mutate patterns become "update the first matching occurrence" functions
  whose traversal order mirrors the corresponding JS search exactly.
* `uuidv4()` is modelled by an explicit identifier argument; freshness is a hypothesis
  where a statement needs it.
* JavaScript numbers are modelled as exact rationals (`ℚ`).  `Math.sqrt` never occurs in
  a stored value, only in comparisons `sqrt(d) < t`, which are rendered sqrt-free as
  `0 < t ∧ d < t*t` (equivalent for the nonnegative squared distance `d`).
* Recursions of the source that follow id links through the flat node array (and hence
  can diverge in JS on cyclic link structures, crashing with a stack overflow) are
  rendered as fuel-indexed functions returning `Option`; `none` models the recursion
  exceeding every finite budget, i.e. JS nontermination.
* Opaque payload fields never read by the core logic (`note`, `icon`, `image`, `refId`,
  `isReference`, `meta`, and the style attributes beyond the ones listed) are omitted
  from the record; they ride along unchanged in every modelled operation.
-/

namespace WebMind

/-- Direction flag of a node: which side of the root its branch renders on. -/
inductive Dir : Type where
  | left : Dir
  | right : Dir
deriving DecidableEq

/-- Node style (the optional visual attributes of `NodeStyle` in `types/mindmap.d.ts`
that the core reads: layout reads `width`/`height`; the rest are opaque and represented
here by the colour and font fields). -/
structure NodeStyle where
  backgroundColor : Option String := none
  borderColor : Option String := none
  borderWidth : Option ℚ := none
  fontSize : Option ℚ := none
  fontWeight : Option String := none
  width : Option ℚ := none
  height : Option ℚ := none
deriving DecidableEq

/-- A 2-D position, `NodePosition` in `types/mindmap.d.ts`. -/
structure NodePosition where
  x : ℚ
  y : ℚ
deriving DecidableEq

/-- Connection style of a relationship line (opaque to the core). -/
structure ConnectionStyle where
  lineColor : Option String := none
  lineWidth : Option ℚ := none
deriving DecidableEq

/-- A labelled non-hierarchical edge between two node ids
(`Relationship` in `types/mindmap.d.ts`). -/
structure Relationship where
  id : String
  sourceId : String
  targetId : String
  label : String
  style : ConnectionStyle
deriving DecidableEq

/-- The scalar fields of a mind-map node (everything except `children`). -/
structure NodeData where
  id : String
  content : String
  parent : Option String
  style : NodeStyle
  position : Option NodePosition
  expanded : Bool
  level : Int
  direction : Option Dir
deriving DecidableEq

/-- A mind-map node: scalar data plus the ordered, exclusively owned list of children
(`MindNode` in `types/mindmap.d.ts`). -/
inductive MindNode : Type where
  | mk (data : NodeData) (children : List MindNode)

namespace MindNode

def data : MindNode → NodeData
  | mk d _ => d

def children : MindNode → List MindNode
  | mk _ c => c

def id (t : MindNode) : String := t.data.id

def content (t : MindNode) : String := t.data.content

def parent (t : MindNode) : Option String := t.data.parent

def style (t : MindNode) : NodeStyle := t.data.style

def position (t : MindNode) : Option NodePosition := t.data.position

def expanded (t : MindNode) : Bool := t.data.expanded

def level (t : MindNode) : Int := t.data.level

def direction (t : MindNode) : Option Dir := t.data.direction

/-- Rebuild a node from updated scalar data, keeping the children. -/
def modData (t : MindNode) (f : NodeData → NodeData) : MindNode :=
  mk (f t.data) t.children

/-- Rebuild a node from updated children, keeping the scalar data. -/
def modChildren (t : MindNode) (f : List MindNode → List MindNode) : MindNode :=
  mk t.data (f t.children)

mutual

def decEqT : (a b : MindNode) → Decidable (a = b)
  | mk d cs, mk d' cs' =>
    if h1 : d = d' then
      match decEqListT cs cs' with
      | isTrue h2 => isTrue (by rw [h1, h2])
      | isFalse h2 => isFalse (by intro h; injection h; contradiction)
    else isFalse (by intro h; injection h; contradiction)

def decEqListT : (a b : List MindNode) → Decidable (a = b)
  | [], [] => isTrue rfl
  | [], _ :: _ => isFalse (by intro h; injection h)
  | _ :: _, [] => isFalse (by intro h; injection h)
  | c :: cs, c' :: cs' =>
    match decEqT c c', decEqListT cs cs' with
    | isTrue h1, isTrue h2 => isTrue (by rw [h1, h2])
    | isFalse h1, _ => isFalse (by intro h; injection h; contradiction)
    | isTrue _, isFalse h2 => isFalse (by intro h; injection h; contradiction)

end

instance instDecEq : DecidableEq MindNode := decEqT

end MindNode

/-! ### `src/core/models/mindmap.ts` -/

/-- Default style of a freshly created non-root node (`DEFAULT_NODE_STYLE`). -/
def DEFAULT_NODE_STYLE : NodeStyle :=
  { backgroundColor := some "#ffffff", borderColor := some "#cccccc",
    borderWidth := some 1, fontSize := some 14, fontWeight := some "normal" }

/-- Default style of the root node (`ROOT_NODE_STYLE`). -/
def ROOT_NODE_STYLE : NodeStyle :=
  { DEFAULT_NODE_STYLE with
    backgroundColor := some "#e6f7ff"
    borderColor := some "#1890ff"
    borderWidth := some 2
    fontSize := some 16
    fontWeight := some "bold" }

/-- Translation of `createNode`.  The source draws a fresh uuid for `id`; here the
identifier is an explicit argument `newId`.  The `direction` parameter defaults to
`'right'` in the source, so it is a plain `Dir` here and the created node always
carries `some direction`. -/
def createNode (content : String) (newId : String) (parentId : Option String)
    (level : Int) (direction : Dir) : MindNode :=
  .mk { id := newId, content := content, parent := parentId,
        style := if level = 0 then ROOT_NODE_STYLE else DEFAULT_NODE_STYLE,
        position := none, expanded := true, level := level,
        direction := some direction } []

mutual

/-- Translation of `findNodeById`: scan the list in order; at each node first test its
id, then search its entire subtree, then move on to the rest of the list. -/
def findNodeById : List MindNode → String → Option MindNode
  | [], _ => none
  | t :: rest, i =>
    match findNodeTree t i with
    | some r => some r
    | none => findNodeById rest i

/-- Search a single subtree: the node itself first, then its children in order. -/
def findNodeTree : MindNode → String → Option MindNode
  | .mk d cs, i => if d.id = i then some (.mk d cs) else findNodeById cs i

end

mutual

/-- Translation of `flattenNodes`: the root followed by the preorder traversal of its
children.  Every element of the result is the full subtree rooted at that node (the
source pushes object references; here each entry is the corresponding subtree value). -/
def flattenNodes : MindNode → List MindNode
  | .mk d cs => .mk d cs :: flattenList cs

/-- Preorder traversal of a forest, as performed by the `traverse` closure inside
`flattenNodes`. -/
def flattenList : List MindNode → List MindNode
  | [] => []
  | c :: cs => flattenNodes c ++ flattenList cs

end

/-- Ids of all nodes of a tree, in preorder. -/
def treeIds (t : MindNode) : List String := (flattenNodes t).map MindNode.id

/-- Ids of all nodes of a forest, in preorder. -/
def forestIds (l : List MindNode) : List String := (flattenList l).map MindNode.id

/-! ### `src/core/operations/node-operations.ts`

Each exported operation copies the array (`[...nodes]`), locates a node with
`findNodeById` — whose result in JS is an alias into the shared tree structure — and
mutates the located node in place.  The pure rendering updates the first node in
`findNodeById`'s traversal order whose id matches, and leaves everything else
untouched.  `updateFirstNode` captures this find-then-mutate pattern once; the
operation bodies below instantiate it with the respective field mutation. -/

mutual

/-- Apply `f` to the first node (in `findNodeById`'s traversal order) whose id is `i`.
If no node matches, the forest is returned unchanged. -/
def updateFirstNode : List MindNode → String → (MindNode → MindNode) → List MindNode
  | [], _, _ => []
  | t :: rest, i, f =>
    if (findNodeTree t i).isSome then updateFirstTree t i f :: rest
    else t :: updateFirstNode rest i f

/-- Apply `f` to the first node of a subtree whose id is `i` (the subtree root first,
then the children in order). -/
def updateFirstTree : MindNode → String → (MindNode → MindNode) → MindNode
  | .mk d cs, i, f =>
    if d.id = i then f (.mk d cs) else .mk d (updateFirstNode cs i f)

end

/-- Translation of `addChildNode`: find the parent; append a fresh node with
`level = parent.level + 1`, the parent's direction (defaulting right), and force
`parent.expanded = true`.  No-op when the parent is not found. -/
def addChildNode (nodes : List MindNode) (parentId : String) (content : String)
    (newId : String) : List MindNode :=
  updateFirstNode nodes parentId (fun p =>
    let newNode := createNode content newId (some parentId) (p.level + 1)
      (p.direction.getD .right)
    .mk { p.data with expanded := true } (p.children ++ [newNode]))

/-- Insert `x` at index `n` of the list, appending when `n` exceeds the length:
`splice(n, 0, x)`. -/
def spliceAt (n : ℕ) (x : α) : List α → List α
  | [] => [x]
  | y :: ys => match n with
    | 0 => x :: y :: ys
    | m + 1 => y :: spliceAt m x ys

/-- Translation of `addSiblingNodeFunc`: find the sibling, then its parent; insert a
fresh node with the sibling's level and direction immediately after the sibling in the
parent's children (appending when the sibling is missing from that list).  No-op when
the sibling is not found or has no parent. -/
def addSiblingNodeFunc (nodes : List MindNode) (siblingId : String) (content : String)
    (newId : String) : List MindNode :=
  match findNodeById nodes siblingId with
  | none => nodes
  | some s =>
    match s.parent with
    | none => nodes
    | some pid =>
      updateFirstNode nodes pid (fun p =>
        let newNode := createNode content newId (some p.id) s.level
          (s.direction.getD .right)
        match p.children.findIdx? (fun c => c.id = siblingId) with
        | some i => .mk p.data (spliceAt (i + 1) newNode p.children)
        | none => .mk p.data (p.children ++ [newNode]))

mutual

/-- Translation of `deleteNodeRecursive`: scan in order; remove the first node whose id
matches (with its whole subtree, which hangs below it) and report whether a removal
happened. -/
def deleteNodeRecursive : List MindNode → String → List MindNode × Bool
  | [], _ => ([], false)
  | t :: rest, i =>
    if t.id = i then (rest, true)
    else
      match deleteNodeTree t i with
      | (t', true) => (t' :: rest, true)
      | (_, false) =>
        let r := deleteNodeRecursive rest i
        (t :: r.1, r.2)

/-- Remove the first node with the given id from inside a subtree (below its root). -/
def deleteNodeTree : MindNode → String → MindNode × Bool
  | .mk d cs, i =>
    let r := deleteNodeRecursive cs i
    (.mk d r.1, r.2)

end

/-- Translation of `deleteNodeFunc`: refuse to delete the node whose id matches the
first node of level `0` (the root); otherwise remove the first matching node and its
subtree. -/
def deleteNodeFunc (nodes : List MindNode) (nodeId : String) : List MindNode :=
  match nodes.find? (fun n => n.level = 0) with
  | some r => if r.id = nodeId then nodes else (deleteNodeRecursive nodes nodeId).1
  | none => (deleteNodeRecursive nodes nodeId).1

/-- Translation of `updateNodeContentFunc`. -/
def updateNodeContentFunc (nodes : List MindNode) (nodeId : String) (content : String) :
    List MindNode :=
  updateFirstNode nodes nodeId (fun n => n.modData (fun d => { d with content := content }))

/-- Shallow merge `{...base, ...upd}` of two styles: a field of the partial update wins
when present.  (A JS update that explicitly sets a key to `undefined` is not
distinguishable from an absent key in this rendering; no caller does that.) -/
def mergeStyle (base upd : NodeStyle) : NodeStyle :=
  { backgroundColor := upd.backgroundColor.orElse (fun _ => base.backgroundColor),
    borderColor := upd.borderColor.orElse (fun _ => base.borderColor),
    borderWidth := upd.borderWidth.orElse (fun _ => base.borderWidth),
    fontSize := upd.fontSize.orElse (fun _ => base.fontSize),
    fontWeight := upd.fontWeight.orElse (fun _ => base.fontWeight),
    width := upd.width.orElse (fun _ => base.width),
    height := upd.height.orElse (fun _ => base.height) }

/-- Translation of `updateNodeStyleFunc`. -/
def updateNodeStyleFunc (nodes : List MindNode) (nodeId : String) (st : NodeStyle) :
    List MindNode :=
  updateFirstNode nodes nodeId (fun n =>
    n.modData (fun d => { d with style := mergeStyle d.style st }))

/-- Translation of `toggleNodeExpandedFunc`. -/
def toggleNodeExpandedFunc (nodes : List MindNode) (nodeId : String) : List MindNode :=
  updateFirstNode nodes nodeId (fun n => n.modData (fun d => { d with expanded := !d.expanded }))

/-! ### `src/core/utils/drag-utils.ts` -/

/-- Squared Euclidean distance.  `calculateDistance` returns
`sqrt((ax-bx)^2 + (ay-by)^2)`; positions and thresholds are only ever compared, and
`sqrt d < t ↔ 0 < t ∧ d < t*t` for `d ≥ 0`, so the model works with the square
throughout (see `sqrtLtB`). -/
def calculateDistanceSq (a b : NodePosition) : ℚ :=
  (a.x - b.x) * (a.x - b.x) + (a.y - b.y) * (a.y - b.y)

/-- Decide `sqrt dsq < t` given the square `dsq ≥ 0` of the distance: true exactly when
`t` is positive and `dsq < t²`. -/
def sqrtLtB (dsq t : ℚ) : Bool := 0 < t && dsq < t * t

/-- Translation of the `collectExcludeIds` closure of `findClosestNode`: starting from
the dragged node's id, repeatedly add the id and enqueue the child ids of the first
array element carrying it.  The source recursion is rendered with an explicit worklist
(same depth-first visit) and a fuel bound; on well-formed states the canonical fuel
`(flattenList nodes).length + 1` is never exhausted, while on cyclic id structures the
JS original would recurse without bound. -/
def collectExcludeIds : ℕ → List MindNode → List String → List String → List String
  | 0, _, _, acc => acc
  | _ + 1, _, [], acc => acc
  | fuel + 1, nodes, x :: stack, acc =>
    let acc' := acc ++ [x]
    match nodes.find? (fun n => n.id = x) with
    | none => collectExcludeIds fuel nodes stack acc'
    | some n => collectExcludeIds fuel nodes (n.children.map MindNode.id ++ stack) acc'

/-- The exclusion set used by `findClosestNode` for a given dragged id. -/
def excludeIdsOf (nodes : List MindNode) (currentNodeId : String) : List String :=
  collectExcludeIds ((flattenList nodes).length + 1) nodes [currentNodeId] []

/-- Insertion into a sorted list, ascending by the given measure. -/
def insertByDist (x : MindNode × ℚ) : List (MindNode × ℚ) → List (MindNode × ℚ)
  | [] => [x]
  | y :: ys => if x.2 ≤ y.2 then x :: y :: ys else y :: insertByDist x ys

/-- Stable ascending sort by distance, modelling
`sort((a, b) => a.distance - b.distance)`. -/
def sortByDist : List (MindNode × ℚ) → List (MindNode × ℚ)
  | [] => []
  | x :: xs => insertByDist x (sortByDist xs)

/-- The final loop of `findClosestNode`: return the first entry closer than the
threshold.  (The source keeps a running `minDistance` initialised to the threshold and
breaks on the first success, which on the sorted list is the same thing.) -/
def firstWithinThreshold (threshold : ℚ) : List (MindNode × ℚ) → Option (MindNode × ℚ)
  | [] => none
  | (n, dsq) :: rest =>
    if sqrtLtB dsq threshold then some (n, dsq) else firstWithinThreshold threshold rest

/-- Translation of `findClosestNode`: exclude the dragged node and its walk-descendants
as well as every node without a position, sort the remaining top-level entries by their
distance to the pointer, and return the first one strictly closer than the threshold
(paired with its squared distance). -/
def findClosestNode (nodes : List MindNode) (currentNodeId : String)
    (position : NodePosition) (threshold : ℚ) : Option (MindNode × ℚ) :=
  let excludeIds := excludeIdsOf nodes currentNodeId
  let validNodes := nodes.filter (fun n => ¬ excludeIds.contains n.id ∧ n.position.isSome)
  let nodeDistances := validNodes.map (fun n =>
    (n, calculateDistanceSq position (n.position.getD ⟨0, 0⟩)))
  firstWithinThreshold threshold (sortByDist nodeDistances)

/-- Translation of the `isChildOfDragged` closure of `updateNodeRelationship`: walk the
id-resolved subtree below `start` looking for the dragged id.  Rendered with an
explicit worklist; `none` models the JS recursion overrunning every finite budget
(`some false` is only produced once the whole walk has completed). -/
def isChildOfDraggedW (draggedNodeId : String) (nodes : List MindNode) :
    ℕ → List String → Option Bool
  | 0, _ => none
  | _ + 1, [] => some false
  | fuel + 1, x :: stack =>
    match nodes.find? (fun n => n.id = x) with
    | none => isChildOfDraggedW draggedNodeId nodes fuel stack
    | some n =>
      if n.id = draggedNodeId then some true
      else isChildOfDraggedW draggedNodeId nodes fuel (n.children.map MindNode.id ++ stack)

/-- Set the level of every top-level entry whose parent field is `pid` to `lvl`. -/
def setLevelOfChildren (nodes : List MindNode) (pid : String) (lvl : Int) : List MindNode :=
  nodes.map (fun n =>
    if n.parent = some pid then n.modData (fun d => { d with level := lvl }) else n)

/-- Translation of the `updateChildLevels` closure of `updateNodeRelationship`: starting
from the dragged node, set `level := parentLevel + 1` on every top-level entry whose
parent field matches, and recurse through the parent-field links depth first.  The
worklist holds pending `(parentId, parentLevel)` jobs; `none` models the JS recursion
never terminating (which happens exactly when the parent-link graph reachable from the
start contains a cycle, see `updateChildLevels_cycle`). -/
def updateChildLevelsW : ℕ → List (String × Int) → List MindNode → Option (List MindNode)
  | 0, _, _ => none
  | _ + 1, [], nodes => some nodes
  | fuel + 1, (pid, plvl) :: stack, nodes =>
    let cids := ((nodes.filter (fun n => n.parent = some pid)).map MindNode.id)
    let nodes' := setLevelOfChildren nodes pid (plvl + 1)
    updateChildLevelsW fuel (cids.map (fun c => (c, plvl + 1)) ++ stack) nodes'

/-- Apply `f` to the first top-level entry whose id is `i` (the pure rendering of
`nodes.find(n => n.id === i)` followed by in-place mutation of the found entry). -/
def updateFirstEntry : List MindNode → String → (MindNode → MindNode) → List MindNode
  | [], _, _ => []
  | n :: rest, i, f =>
    if n.id = i then f n :: rest else n :: updateFirstEntry rest i f

/-- Translation of `updateNodeRelationship`.  The source first takes a deep JSON copy of
the flat array, making every top-level entry an independent tree — exactly the value
semantics used here.  It then: returns the input unchanged if dragged or target is
missing, if the target already is the dragged node's parent, or if the cycle guard
`isChildOfDragged(targetNodeId)` fires; otherwise it (1) removes the dragged id from
the old parent entry's children, (2) redirects the dragged entry's parent, level, and
direction, (3) appends the dragged entry to the target entry's children (unless already
present) and forces the target expanded, and (4) recomputes levels through parent links
from the dragged id.  `none` models the JS call never returning (stack overflow in
step 4 or in the guard). -/
def updateNodeRelationshipF (fuel : ℕ) (nodes : List MindNode)
    (draggedNodeId targetNodeId : String) : Option (List MindNode) :=
  match nodes.find? (fun n => n.id = draggedNodeId),
        nodes.find? (fun n => n.id = targetNodeId) with
  | none, _ => some nodes
  | some _, none => some nodes
  | some draggedNode, some targetNode =>
    if draggedNode.parent = some targetNodeId then some nodes
    else
      match isChildOfDraggedW draggedNodeId nodes fuel [targetNodeId] with
      | none => none
      | some true => some nodes
      | some false =>
        let ns1 := match draggedNode.parent with
          | some oldPid =>
            updateFirstEntry nodes oldPid (fun p =>
              p.modChildren (fun cs => cs.filter (fun c => c.id ≠ draggedNodeId)))
          | none => nodes
        let ns2 := updateFirstEntry ns1 draggedNodeId (fun dcur =>
          dcur.modData (fun d =>
            { d with parent := some targetNodeId, level := targetNode.level + 1,
                     direction := if targetNode.direction.isSome then targetNode.direction
                                  else d.direction }))
        let draggedNow := (ns2.find? (fun n => n.id = draggedNodeId)).getD draggedNode
        let ns3 := updateFirstEntry ns2 targetNodeId (fun tcur =>
          .mk { tcur.data with expanded := true }
            (if tcur.children.any (fun c => c.id = draggedNodeId) then tcur.children
             else tcur.children ++ [draggedNow]))
        updateChildLevelsW fuel [(draggedNodeId, targetNode.level + 1)] ns3

/-! ### The two-pass layout module (`calcBounds` / `setPositions`)

Translation of the bottom-up layout (`核心 layout` file exporting
`calculateMindMapLayout` with helpers `getNodeSize`, `calcBounds`, `setPositions`).
The bounds map is an association list where later `set`s shadow earlier ones, matching
`Map.set` / `Map.get`.  The non-null assertion `boundsMap.get(child.id)!` is rendered
with a zero default; on every run the key has been set by the first pass. -/

/-- Layout constraint configuration (`LayoutConfig`). -/
structure LayoutConfig where
  horizontalSpacing : ℚ
  verticalSpacing : ℚ
  defaultNodeWidth : ℚ
  defaultNodeHeight : ℚ
deriving DecidableEq

/-- Translation of `DEFAULT_LAYOUT_CONFIG`. -/
def DEFAULT_LAYOUT_CONFIG : LayoutConfig :=
  { horizontalSpacing := 80, verticalSpacing := 40,
    defaultNodeWidth := 120, defaultNodeHeight := 40 }

/-- JavaScript `a || b` for an optional number: the default applies when the field is
absent or `0` (both falsy). -/
def qOrDefault (a : Option ℚ) (b : ℚ) : ℚ :=
  match a with
  | some x => if x = 0 then b else x
  | none => b

/-- Width and height drawn from a node's scalar data (shared by the value and the heap
rendering of `getNodeSize`). -/
def getNodeSizeData (d : NodeData) (cfg : LayoutConfig) : ℚ × ℚ :=
  (qOrDefault d.style.width cfg.defaultNodeWidth,
   qOrDefault d.style.height cfg.defaultNodeHeight)

/-- Translation of `getNodeSize`: styled width/height, or the configured defaults. -/
def getNodeSize (n : MindNode) (cfg : LayoutConfig) : ℚ × ℚ :=
  getNodeSizeData n.data cfg

/-- Vertical bounds of a subtree, as stored in the bounds map. -/
structure Bounds where
  top : ℚ
  bottom : ℚ
  height : ℚ
deriving DecidableEq

/-- The bounds map: association list, later entries shadow earlier ones. -/
def BMap : Type := List (String × Bounds)

/-- `Map.set` (the new binding shadows any previous one). -/
def bset (m : BMap) (k : String) (v : Bounds) : BMap := (k, v) :: m

/-- `Map.get(k)!` with the zero bounds standing in for the non-null assertion. -/
def bget (m : BMap) (k : String) : Bounds :=
  match List.find? (fun p => p.1 = k) m with
  | some p => p.2
  | none => ⟨0, 0, 0⟩

/-- Does a child belong to the left group (`direction === 'left'`)? -/
def isLeftChild (c : MindNode) : Bool := c.direction = some Dir.left

/-- The side selected for layout at a node: the left group when it is nonempty,
otherwise the right group.  `true` means left. -/
def useLeftGroup (cs : List MindNode) : Bool := cs.any isLeftChild

mutual

/-- First pass (`calcBounds`): post-order computation of each subtree's vertical
bounds.  A collapsed node or leaf spans its own height around `y`; otherwise only the
selected child group (left priority) is measured, the node is centred on the group, and
the recorded extent is the union of box and group. -/
def calcBounds (cfg : LayoutConfig) : MindNode → ℚ → BMap → Bounds × BMap
  | .mk d cs, y, m =>
    let node : MindNode := .mk d cs
    let size := getNodeSize node cfg
    if !d.expanded || cs.isEmpty then
      let b : Bounds := ⟨y - size.2 / 2, y + size.2 / 2, size.2⟩
      (b, bset m node.id b)
    else
      let res := calcBoundsList cfg (useLeftGroup cs) cs m
      let cbs := res.1
      let groupTop := match cbs.head? with
        | some b => b.top
        | none => 0
      let groupBottom := match cbs.getLast? with
        | some b => b.bottom
        | none => 0
      let centerY := (groupTop + groupBottom) / 2
      let top := centerY - size.2 / 2
      let bottom := centerY + size.2 / 2
      let treeTop := min top groupTop
      let treeBottom := max bottom groupBottom
      let b : Bounds := ⟨treeTop, treeBottom, treeBottom - treeTop⟩
      (b, bset res.2 node.id b)

/-- Bounds of the children on the selected side, in order, threading the map.
Children of the other side are skipped, exactly as the source's filtered recursion. -/
def calcBoundsList (cfg : LayoutConfig) (useLeft : Bool) :
    List MindNode → BMap → List Bounds × BMap
  | [], m => ([], m)
  | c :: cs, m =>
    if (if useLeft then isLeftChild c else !isLeftChild c) then
      let r1 := calcBounds cfg c 0 m
      let r2 := calcBoundsList cfg useLeft cs r1.2
      (r1.1 :: r2.1, r2.2)
    else calcBoundsList cfg useLeft cs m

end

/-- Total stacked height of the selected child group, with vertical spacing between
consecutive members (the `totalHeight` computation of `setPositions`). -/
def groupTotalHeight (cfg : LayoutConfig) (m : BMap) (useLeft : Bool)
    (cs : List MindNode) : ℚ :=
  let hs := (cs.filter (fun c => if useLeft then isLeftChild c else !isLeftChild c)).map
    (fun c => (bget m c.id).bottom - (bget m c.id).top)
  match hs with
  | [] => 0
  | h :: rest => rest.foldl (fun acc x => acc + cfg.verticalSpacing + x) h

mutual

/-- Second pass (`setPositions`): place the node at `(x, y)`; below it, only the
selected child group (left priority) is placed, stacked from
`y - totalHeight / 2`, horizontally offset by half the node's width plus the
horizontal spacing, signed by the selected direction.  Children of the other side are
left untouched (they keep whatever position they already carried). -/
def setPositions (cfg : LayoutConfig) (m : BMap) : MindNode → ℚ → ℚ → MindNode
  | .mk d cs, x, y =>
    let node : MindNode := .mk d cs
    let size := getNodeSize node cfg
    let d' := { d with position := some ⟨x, y⟩ }
    if !d.expanded || cs.isEmpty then .mk d' cs
    else
      let useLeft := useLeftGroup cs
      let totalHeight := groupTotalHeight cfg m useLeft cs
      let startY := y - totalHeight / 2
      let offsetX := if useLeft then x - (size.1 / 2 + cfg.horizontalSpacing)
                     else x + (size.1 / 2 + cfg.horizontalSpacing)
      .mk d' (setPositionsList cfg m useLeft offsetX cs startY)

/-- Place the children of the selected side in order, advancing the running `startY`
by each child's recorded extent plus the vertical spacing. -/
def setPositionsList (cfg : LayoutConfig) (m : BMap) (useLeft : Bool) (offsetX : ℚ) :
    List MindNode → ℚ → List MindNode
  | [], _ => []
  | c :: cs, startY =>
    if (if useLeft then isLeftChild c else !isLeftChild c) then
      let b := bget m c.id
      let childHeight := b.bottom - b.top
      setPositions cfg m c offsetX (startY + childHeight / 2) ::
        setPositionsList cfg m useLeft offsetX cs (startY + childHeight + cfg.verticalSpacing)
    else c :: setPositionsList cfg m useLeft offsetX cs startY

end

/-- Translation of `calculateMindMapLayout` (two-pass version): compute all bounds,
then assign positions from the root placed at the origin. -/
def calculateMindMapLayout (rootNode : MindNode)
    (cfg : LayoutConfig := DEFAULT_LAYOUT_CONFIG) : MindNode :=
  let res := calcBounds cfg rootNode 0 []
  setPositions cfg res.2 rootNode 0 0

/-! ### `rebuildTree` (from `src/core/models/mindmap.ts`)

The source builds a `Map` from id to a children-stripped copy of each node (later
`set`s win), then pushes every node whose parent id is in the map into that parent's
children array, in list order, and returns the map entry of the first level-0 node.
Because the pushes link the mutable map entries themselves, the returned object is the
root of the graph obtained by resolving children through the map; the resolution is
rendered below with a depth fuel (`nodes.length + 1` covers every acyclic parent
graph, and a cyclic one would make the JS result an unobservable cyclic object). -/

/-- The children-stripped copy `{...node, children: []}`. -/
def stripChildren (n : MindNode) : MindNode := .mk n.data []

/-- Lookup in the id map built by the first `forEach` (the last occurrence wins). -/
def nodeMapGet (nodes : List MindNode) (i : String) : Option MindNode :=
  ((nodes.filter (fun n => n.id = i)).getLast?).map stripChildren

/-- Ids pushed into the children of `p` by the second `forEach`, in list order. -/
def childIdsOf (nodes : List MindNode) (p : String) : List String :=
  (nodes.filter (fun n => n.parent = some p)).map MindNode.id

/-- Resolve the tree hanging at id `i` through the rebuilt map, to the given depth. -/
def resolveNode : ℕ → List MindNode → String → Option MindNode
  | 0, _, _ => none
  | fuel + 1, nodes, i =>
    match nodeMapGet nodes i with
    | none => none
    | some base =>
      (List.mapM (resolveNode fuel nodes) (childIdsOf nodes i)).map
        (fun cs => .mk base.data cs)

/-- Translation of `rebuildTree`. -/
def rebuildTree (nodes : List MindNode) : Option MindNode :=
  if nodes.isEmpty then none
  else
    match nodes.find? (fun n => n.level = 0) with
    | none => none
    | some rootNode => resolveNode (nodes.length + 1) nodes rootNode.id

/-- Translation of `createInitialMindMap`, with the eight drawn uuids as arguments. -/
def createInitialMindMap (rId rc1 rc2 lc1 lc2 g1 g2 g3 : String) : MindNode :=
  let rightChild1 := ((createNode "右侧主题 1" rc1 (some rId) 1 .right).modChildren (fun _ =>
    [createNode "子主题 1.1" g1 (some rc1) 2 .right,
     createNode "子主题 1.2" g2 (some rc1) 2 .right]))
  let rightChild2 := createNode "右侧主题 2" rc2 (some rId) 1 .right
  let leftChild1 := ((createNode "左侧主题 1" lc1 (some rId) 1 .left).modChildren (fun _ =>
    [createNode "子主题 1.1" g3 (some lc1) 2 .left]))
  let leftChild2 := createNode "左侧主题 2" lc2 (some rId) 1 .left
  (createNode "中心主题" rId none 0 .right).modChildren (fun _ =>
    [rightChild1, rightChild2, leftChild1, leftChild2])

/-! ### `src/store/index.ts`

The store state and the operation wrappers.  `executeWithHistory` pushes the current
`(nodes, relationships)` pair onto the undo stack, runs the operation, clears the redo
stack, and then re-derives the flat node list from the first level-0 entry: it looks
that entry up with `findNodeById`, recomputes the layout, and flattens the result.
In the value semantics used here the pushed snapshot is an immutable value; the
reference semantics of the JS original, where the snapshot shares the mutated node
objects, is modelled separately in the heap section below and is the subject of the
history claims. -/

/-- Translation of `DEFAULT_CONNECTION_STYLE`. -/
def DEFAULT_CONNECTION_STYLE : ConnectionStyle :=
  { lineColor := some "#c0c0c0", lineWidth := some (3 / 2) }

/-- The store state: flat node list, relationship list, and the two history stacks of
`(nodes, relationships)` snapshots. -/
structure StoreState where
  nodes : List MindNode
  relationships : List Relationship
  undoStack : List (List MindNode × List Relationship)
  redoStack : List (List MindNode × List Relationship)
deriving DecidableEq

/-- The relayout step at the end of `executeWithHistory` (and the body of
`calculateAndUpdateLayout`): find the id of the first level-0 entry (empty string when
there is none), look the node up, and replace the flat list by the flattened layout of
that tree; keep the list as is when the lookup fails. -/
def reflatten (nodes : List MindNode) : List MindNode :=
  let rootId := ((nodes.find? (fun n => n.level = 0)).map MindNode.id).getD ""
  match findNodeById nodes rootId with
  | none => nodes
  | some r => flattenNodes (calculateMindMapLayout r)

/-- Translation of `executeWithHistory`. -/
def executeWithHistory (s : StoreState)
    (op : List MindNode × List Relationship → List MindNode × List Relationship) :
    StoreState :=
  let newState := op (s.nodes, s.relationships)
  { nodes := reflatten newState.1,
    relationships := newState.2,
    undoStack := s.undoStack ++ [(s.nodes, s.relationships)],
    redoStack := [] }

/-- Store `addChildNode`. -/
def storeAddChildNode (s : StoreState) (parentId content newId : String) : StoreState :=
  executeWithHistory s (fun p => (addChildNode p.1 parentId content newId, p.2))

/-- Store `addSiblingNode`. -/
def storeAddSiblingNode (s : StoreState) (siblingId content newId : String) : StoreState :=
  executeWithHistory s (fun p => (addSiblingNodeFunc p.1 siblingId content newId, p.2))

/-- Store `deleteNode`: drop every relationship whose source or target is the deleted
id, and remove the node through `deleteNodeFunc`. -/
def storeDeleteNode (s : StoreState) (nodeId : String) : StoreState :=
  executeWithHistory s (fun p =>
    (deleteNodeFunc p.1 nodeId,
     p.2.filter (fun r => r.sourceId ≠ nodeId ∧ r.targetId ≠ nodeId)))

/-- Store `updateNodeContent`. -/
def storeUpdateNodeContent (s : StoreState) (nodeId content : String) : StoreState :=
  executeWithHistory s (fun p => (updateNodeContentFunc p.1 nodeId content, p.2))

/-- Store `updateNodeStyle`. -/
def storeUpdateNodeStyle (s : StoreState) (nodeId : String) (st : NodeStyle) : StoreState :=
  executeWithHistory s (fun p => (updateNodeStyleFunc p.1 nodeId st, p.2))

/-- Store `toggleNodeExpanded`. -/
def storeToggleNodeExpanded (s : StoreState) (nodeId : String) : StoreState :=
  executeWithHistory s (fun p => (toggleNodeExpandedFunc p.1 nodeId, p.2))

/-- Store `addRelationship`: no-op when a relationship with the same source and target
already exists; otherwise append a fresh one with the default connection style. -/
def storeAddRelationship (s : StoreState) (sourceId targetId label newId : String) :
    StoreState :=
  executeWithHistory s (fun p =>
    if (p.2.find? (fun r => r.sourceId = sourceId ∧ r.targetId = targetId)).isSome then p
    else (p.1, p.2 ++ [{ id := newId, sourceId := sourceId, targetId := targetId,
                         label := label, style := DEFAULT_CONNECTION_STYLE }]))

/-- A partial relationship update (`Partial<Relationship>`). -/
structure RelationshipPatch where
  sourceId : Option String := none
  targetId : Option String := none
  label : Option String := none
  style : Option ConnectionStyle := none
deriving DecidableEq

/-- Shallow merge `{...relationship, ...updates}`. -/
def applyRelationshipPatch (r : Relationship) (u : RelationshipPatch) : Relationship :=
  { r with sourceId := u.sourceId.getD r.sourceId,
           targetId := u.targetId.getD r.targetId,
           label := u.label.getD r.label,
           style := u.style.getD r.style }

/-- Store `updateRelationship`. -/
def storeUpdateRelationship (s : StoreState) (relationshipId : String)
    (u : RelationshipPatch) : StoreState :=
  executeWithHistory s (fun p =>
    (p.1, p.2.map (fun r => if r.id = relationshipId then applyRelationshipPatch r u else r)))

/-- Store `deleteRelationship`. -/
def storeDeleteRelationship (s : StoreState) (relationshipId : String) : StoreState :=
  executeWithHistory s (fun p => (p.1, p.2.filter (fun r => r.id ≠ relationshipId)))

/-- Translation of the store `undo`: no-op on an empty stack; otherwise pop the last
snapshot, push the current pair onto the redo stack, and restore the snapshot (no
relayout happens here). -/
def storeUndo (s : StoreState) : StoreState :=
  match s.undoStack.getLast? with
  | none => s
  | some prev =>
    { nodes := prev.1, relationships := prev.2,
      undoStack := s.undoStack.dropLast,
      redoStack := s.redoStack ++ [(s.nodes, s.relationships)] }

/-- Translation of the store `redo`, symmetric to `undo`. -/
def storeRedo (s : StoreState) : StoreState :=
  match s.redoStack.getLast? with
  | none => s
  | some next =>
    { nodes := next.1, relationships := next.2,
      undoStack := s.undoStack ++ [(s.nodes, s.relationships)],
      redoStack := s.redoStack.dropLast }

/-- Set the position of the first entry with the given id, replacing the entry by a
copy with the new position (`updatedNodes[nodeIndex] = {...node, position}`). -/
def setEntryPosition (nodes : List MindNode) (nodeId : String) (pos : NodePosition) :
    List MindNode :=
  updateFirstEntry nodes nodeId (fun n => n.modData (fun d => { d with position := some pos }))

/-- Translation of `saveNodePositionOnly` (a drag released away from any snap target):
a history-tracked position update of the dragged entry. -/
def storeSavePosition (s : StoreState) (nodeId : String) (pos : NodePosition) : StoreState :=
  executeWithHistory s (fun p => (setEntryPosition p.1 nodeId pos, p.2))

/-- Translation of `updateNodeVisualPosition` (pointer movement while dragging): the
entry's position is replaced directly through `setNodes`, with no history entry and no
relayout. -/
def updateNodeVisualPosition (s : StoreState) (nodeId : String) (pos : NodePosition) :
    StoreState :=
  { s with nodes := setEntryPosition s.nodes nodeId pos }

/-- Translation of the snap-commit operation run by `animateSnap` on animation
completion: inside `executeWithHistory`, move the dragged entry to the target position
and rewire the tree through `updateNodeRelationship`.  Defined only for runs of
`updateNodeRelationship` that terminate (result `some`); the caller supplies the
witnessing output. -/
def storeDragCommit (s : StoreState) (out : List MindNode)
    (rels : List Relationship := s.relationships) : StoreState :=
  { nodes := reflatten out,
    relationships := rels,
    undoStack := s.undoStack ++ [(s.nodes, s.relationships)],
    redoStack := [] }

/-- Translation of `initialize`: layout and flatten the initial mind map; empty
relationships and (per the initial store value) empty history stacks. -/
def initialStoreState (rId rc1 rc2 lc1 lc2 g1 g2 g3 : String) : StoreState :=
  { nodes := flattenNodes (calculateMindMapLayout
      (createInitialMindMap rId rc1 rc2 lc1 lc2 g1 g2 g3)),
    relationships := [], undoStack := [], redoStack := [] }

/-! ### Reachable states and structural invariants

The transition relation `Step` collects the public commands of the store (§6 of the
design: `addChild`, `addSibling`, `delete`, `updateContent`, `updateStyle`,
`toggleExpanded`, the drag protocol, `undo`, `redo`) together with the relationship
commands.  Fresh uuids appear as explicit identifiers constrained to be fresh.  The
drag commit only steps when `updateNodeRelationship` terminates (`some`), mirroring
that a JS run that overflows the stack never reaches the store update. -/

mutual

/-- The structural view of a tree: id, level and parent field of every node together
with the child structure; everything else — position (pure layout output), content,
style, expansion flag, direction — is cleared.  The structural invariants below are
stated up to this view. -/
def eraseP : MindNode → MindNode
  | .mk d cs =>
    .mk { d with
          position := none
          content := ""
          style := {}
          expanded := true
          direction := none } (erasePList cs)

/-- List form of `eraseP`. -/
def erasePList : List MindNode → List MindNode
  | [] => []
  | c :: cs => eraseP c :: erasePList cs

end

/-- The identification skeleton of a node: id, level, and parent field. -/
def skel (n : MindNode) : String × Int × Option String := (n.id, n.level, n.parent)

/-- Structural consistency of a node with its own children: each child sits one level
deeper and points back at the node. -/
def nodeChildOK (u : MindNode) : Prop :=
  ∀ c ∈ u.children, c.level = u.level + 1 ∧ c.parent = some u.id

/-- Well-formedness of a tree: the root has level `0` and no parent, ids are globally
distinct, and every node is consistent with its children. -/
def TreeWF (t : MindNode) : Prop :=
  t.level = 0 ∧ t.parent = none ∧ (treeIds t).Nodup ∧ ∀ u ∈ flattenNodes t, nodeChildOK u

/-- A flat node list is canonical (up to positions) when it is the flattening of a
well-formed tree. -/
def Canon (nodes : List MindNode) : Prop :=
  ∃ tr, TreeWF tr ∧ nodes.map eraseP = (flattenNodes tr).map eraseP

/-- The store invariant: the current list and every stacked snapshot are canonical. -/
def InvS (s : StoreState) : Prop :=
  Canon s.nodes ∧ (∀ p ∈ s.undoStack, Canon p.1) ∧ (∀ p ∈ s.redoStack, Canon p.1)

/-- The level/parent property asserted by the design: exactly one node of level `0`,
that node has no parent, and every other node's level is its parent's level plus one
(the parent being resolved by id in the same list). -/
def LevelInv (nodes : List MindNode) : Prop :=
  (nodes.filter (fun n => n.level = 0)).length = 1 ∧
  (∀ n ∈ nodes, n.level = 0 → n.parent = none) ∧
  (∀ n ∈ nodes, n.level ≠ 0 → ∃ p ∈ nodes, n.parent = some p.id ∧ n.level = p.level + 1)

instance instDecNodeChildOK (u : MindNode) : Decidable (nodeChildOK u) := by
  unfold nodeChildOK
  infer_instance

instance instDecTreeWF (t : MindNode) : Decidable (TreeWF t) := by
  unfold TreeWF
  infer_instance

instance instDecLevelInv (ns : List MindNode) : Decidable (LevelInv ns) := by
  unfold LevelInv
  infer_instance

/-- The parent-field edge relation between ids of a flat list: `a` steps to `b` when
some entry with id `b` carries parent field `a`.  `updateChildLevels` walks exactly
this relation. -/
def parentEdge (ns : List MindNode) (a b : String) : Prop :=
  ∃ n ∈ ns, n.id = b ∧ n.parent = some a

instance instDecParentEdge (ns : List MindNode) (a b : String) :
    Decidable (parentEdge ns a b) := by
  unfold parentEdge
  infer_instance

/-- The id-resolved child edge of a flat list: `a` steps to `b` when the first entry
with id `a` lists `b` among its children ids.  The `isChildOfDragged` guard walks
exactly this relation. -/
def childEdge (ns : List MindNode) (a b : String) : Prop :=
  ∃ n, ns.find? (fun m => m.id = a) = some n ∧ b ∈ n.children.map MindNode.id

/-- Shape of a find-and-mutate rewrite `g` at a node carrying the searched id `i`: the
node keeps its id, level and parent, and its children are the old ones except for
occurrences of one fresh leaf child that is correctly linked to the node (this is the
common shape of `addChildNode` and `addSiblingNodeFunc`). -/
def InsOK (i newId : String) (g : MindNode → MindNode) (q : MindNode) : Prop :=
  (g q).id = q.id ∧ (g q).level = q.level ∧ (g q).parent = q.parent ∧
  (∀ c ∈ (g q).children, c ∈ q.children ∨
    (c.children = [] ∧ c.level = q.level + 1 ∧ c.parent = some q.id ∧ c.id = newId)) ∧
  List.Subperm (forestIds (g q).children) (newId :: forestIds q.children)

/-- One public command of the store. -/
inductive Step : StoreState → StoreState → Prop where
  | addChild (s : StoreState) (pid content newId : String)
      (hfresh : newId ∉ forestIds s.nodes) :
      Step s (storeAddChildNode s pid content newId)
  | addSibling (s : StoreState) (sid content newId : String)
      (hfresh : newId ∉ forestIds s.nodes) :
      Step s (storeAddSiblingNode s sid content newId)
  | deleteNode (s : StoreState) (nodeId : String) : Step s (storeDeleteNode s nodeId)
  | updateContent (s : StoreState) (nodeId content : String) :
      Step s (storeUpdateNodeContent s nodeId content)
  | updateStyle (s : StoreState) (nodeId : String) (st : NodeStyle) :
      Step s (storeUpdateNodeStyle s nodeId st)
  | toggleExpanded (s : StoreState) (nodeId : String) :
      Step s (storeToggleNodeExpanded s nodeId)
  | savePosition (s : StoreState) (nodeId : String) (pos : NodePosition) :
      Step s (storeSavePosition s nodeId pos)
  | visualMove (s : StoreState) (nodeId : String) (pos : NodePosition) :
      Step s (updateNodeVisualPosition s nodeId pos)
  | dragCommit (s : StoreState) (d t : String) (tpos : NodePosition) (fuel : ℕ)
      (out : List MindNode)
      (hrun : updateNodeRelationshipF fuel (setEntryPosition s.nodes d tpos) d t = some out) :
      Step s (storeDragCommit s out)
  | addRelationship (s : StoreState) (sourceId targetId label newId : String) :
      Step s (storeAddRelationship s sourceId targetId label newId)
  | updateRelationship (s : StoreState) (rid : String) (u : RelationshipPatch) :
      Step s (storeUpdateRelationship s rid u)
  | deleteRelationship (s : StoreState) (rid : String) :
      Step s (storeDeleteRelationship s rid)
  | undoStep (s : StoreState) : Step s (storeUndo s)
  | redoStep (s : StoreState) : Step s (storeRedo s)

/-- Reachability by any sequence of public commands. -/
def Reachable : StoreState → StoreState → Prop := Relation.ReflTransGen Step

/-! ### Reference-semantics (heap) model of the store

`executeWithHistory` snapshots the state with `[...nodes]` — a copy of the array of
object references, not of the node objects.  The operations then mutate the located
node objects in place, so the snapshot shares them.  To reason about this aliasing the
store is modelled once more, with an explicit heap: nodes live at numeric references,
the flat list is a list of references, and history snapshots are reference lists.
Every function below is the direct heap transcription of the same source lines as its
value-semantics counterpart. -/

/-- A heap node: scalar data plus the references of its children. -/
structure HNode where
  data : NodeData
  children : List ℕ
deriving DecidableEq

/-- The heap: an association list from references to node objects. -/
abbrev Heap : Type := List (ℕ × HNode)

/-- Read a reference. -/
def hget (h : Heap) (r : ℕ) : Option HNode :=
  (List.find? (fun p => p.1 = r) h).map (fun p => p.2)

/-- Mutate the object at a reference in place. -/
def hmod (h : Heap) (r : ℕ) (f : HNode → HNode) : Heap :=
  h.map (fun p => if p.1 = r then (p.1, f p.2) else p)

/-- Depth-first search for an id through references, starting from the given worklist
(the heap rendering of `findNodeById`).  `none` covers both "not found" and an
exhausted budget; the canonical budget `h.length * h.length + 1` is never exhausted on
the acyclic heaps that occur. -/
def findNodeByIdH (h : Heap) : ℕ → List ℕ → String → Option ℕ
  | 0, _, _ => none
  | _ + 1, [], _ => none
  | fuel + 1, r :: stack, i =>
    match hget h r with
    | none => findNodeByIdH h fuel stack i
    | some n =>
      if n.data.id = i then some r
      else findNodeByIdH h fuel (n.children ++ stack) i

/-- Heap rendering of `updateNodeContentFunc`: copy the reference array, locate the
node, and mutate its content in place. -/
def updateNodeContentFuncH (fuel : ℕ) (h : Heap) (nodes : List ℕ) (nodeId content : String) :
    Heap × List ℕ :=
  match findNodeByIdH h fuel nodes nodeId with
  | none => (h, nodes)
  | some r => (hmod h r (fun n => { n with data := { n.data with content := content } }), nodes)

mutual

/-- Heap rendering of the first layout pass `calcBounds`. -/
def calcBoundsH (cfg : LayoutConfig) (h : Heap) : ℕ → ℕ → ℚ → BMap → Option (Bounds × BMap)
  | 0, _, _, _ => none
  | fuel + 1, r, y, m =>
    match hget h r with
    | none => none
    | some n =>
      let size := getNodeSizeData n.data cfg
      if !n.data.expanded || n.children.isEmpty then
        let b : Bounds := ⟨y - size.2 / 2, y + size.2 / 2, size.2⟩
        some (b, bset m n.data.id b)
      else
        let useLeft := n.children.any (fun cr =>
          match hget h cr with
          | some cn => cn.data.direction = some Dir.left
          | none => false)
        match calcBoundsListH cfg h fuel useLeft n.children m with
        | none => none
        | some res =>
          let groupTop := match res.1.head? with
            | some b => b.top
            | none => 0
          let groupBottom := match res.1.getLast? with
            | some b => b.bottom
            | none => 0
          let centerY := (groupTop + groupBottom) / 2
          let treeTop := min (centerY - size.2 / 2) groupTop
          let treeBottom := max (centerY + size.2 / 2) groupBottom
          let b : Bounds := ⟨treeTop, treeBottom, treeBottom - treeTop⟩
          some (b, bset res.2 n.data.id b)

/-- Heap rendering of the selected-side fold of the first pass. -/
def calcBoundsListH (cfg : LayoutConfig) (h : Heap) :
    ℕ → Bool → List ℕ → BMap → Option (List Bounds × BMap)
  | 0, _, _, _ => none
  | _ + 1, _, [], m => some ([], m)
  | fuel + 1, useLeft, cr :: crs, m =>
    let isL := match hget h cr with
      | some cn => isLeftChild (.mk cn.data [])
      | none => false
    if (if useLeft then isL else !isL) then
      match calcBoundsH cfg h fuel cr 0 m with
      | none => none
      | some r1 =>
        match calcBoundsListH cfg h fuel useLeft crs r1.2 with
        | none => none
        | some r2 => some (r1.1 :: r2.1, r2.2)
    else calcBoundsListH cfg h fuel useLeft crs m

end

/-- Heap form of `groupTotalHeight`. -/
def groupTotalHeightH (cfg : LayoutConfig) (h : Heap) (m : BMap) (useLeft : Bool)
    (crs : List ℕ) : ℚ :=
  let sel := crs.filter (fun cr =>
    let isL := match hget h cr with
      | some cn => isLeftChild (.mk cn.data [])
      | none => false
    if useLeft then isL else !isL)
  let hs := sel.map (fun cr =>
    let key := match hget h cr with
      | some cn => cn.data.id
      | none => ""
    (bget m key).bottom - (bget m key).top)
  match hs with
  | [] => 0
  | hd :: rest => rest.foldl (fun acc x => acc + cfg.verticalSpacing + x) hd

mutual

/-- Heap rendering of the second layout pass `setPositions` (mutates positions). -/
def setPositionsH (cfg : LayoutConfig) (m : BMap) : ℕ → Heap → ℕ → ℚ → ℚ → Option Heap
  | 0, _, _, _, _ => none
  | fuel + 1, h, r, x, y =>
    match hget h r with
    | none => none
    | some n =>
      let size := getNodeSizeData n.data cfg
      let h1 := hmod h r (fun nn =>
        { nn with data := { nn.data with position := some ⟨x, y⟩ } })
      if !n.data.expanded || n.children.isEmpty then some h1
      else
        let useLeft := n.children.any (fun cr =>
          match hget h1 cr with
          | some cn => cn.data.direction = some Dir.left
          | none => false)
        let totalHeight := groupTotalHeightH cfg h1 m useLeft n.children
        let startY := y - totalHeight / 2
        let offsetX := if useLeft then x - (size.1 / 2 + cfg.horizontalSpacing)
                       else x + (size.1 / 2 + cfg.horizontalSpacing)
        setPositionsListH cfg m fuel useLeft offsetX h1 n.children startY

/-- Heap rendering of the selected-side placement fold. -/
def setPositionsListH (cfg : LayoutConfig) (m : BMap) :
    ℕ → Bool → ℚ → Heap → List ℕ → ℚ → Option Heap
  | 0, _, _, _, _, _ => none
  | _ + 1, _, _, h, [], _ => some h
  | fuel + 1, useLeft, offsetX, h, cr :: crs, startY =>
    let isL := match hget h cr with
      | some cn => isLeftChild (.mk cn.data [])
      | none => false
    if (if useLeft then isL else !isL) then
      let key := match hget h cr with
        | some cn => cn.data.id
        | none => ""
      let b := bget m key
      let childHeight := b.bottom - b.top
      match setPositionsH cfg m fuel h cr offsetX (startY + childHeight / 2) with
      | none => none
      | some h' =>
        setPositionsListH cfg m fuel useLeft offsetX h' crs
          (startY + childHeight + cfg.verticalSpacing)
    else setPositionsListH cfg m fuel useLeft offsetX h crs startY

end

/-- Heap rendering of `calculateMindMapLayout`. -/
def calculateMindMapLayoutH (fuel : ℕ) (cfg : LayoutConfig) (h : Heap) (r : ℕ) :
    Option Heap :=
  match calcBoundsH cfg h fuel r 0 [] with
  | none => none
  | some res => setPositionsH cfg res.2 fuel h r 0 0

/-- Heap rendering of `flattenNodes` (preorder reference list). -/
def flattenNodesH (h : Heap) : ℕ → List ℕ → Option (List ℕ)
  | 0, _ => none
  | _ + 1, [] => some []
  | fuel + 1, r :: stack =>
    match hget h r with
    | none => none
    | some n =>
      match flattenNodesH h fuel (n.children ++ stack) with
      | none => none
      | some rest => some (r :: rest)

/-- The heap store: heap, reference list, relationships, and snapshot stacks holding
reference lists (`[...nodes]` copies the array of references only). -/
structure HStore where
  heap : Heap
  nodes : List ℕ
  relationships : List Relationship
  undoStack : List (List ℕ × List Relationship)
  redoStack : List (List ℕ × List Relationship)
deriving DecidableEq

/-- Heap rendering of `executeWithHistory`: push the reference-list snapshot, run the
mutating operation, clear the redo stack, and relayout from the first level-0 entry.
`none` models a run that does not complete. -/
def executeWithHistoryH (fuel : ℕ) (s : HStore)
    (op : Heap → List ℕ → Heap × List ℕ) : Option HStore :=
  let snapshot := (s.nodes, s.relationships)
  let res := op s.heap s.nodes
  let h' := res.1
  let n' := res.2
  let rootId := match n'.find? (fun r =>
      match hget h' r with
      | some n => n.data.level = 0
      | none => false) with
    | some r => match hget h' r with
      | some n => n.data.id
      | none => ""
    | none => ""
  match findNodeByIdH h' fuel n' rootId with
  | none =>
    some { s with
           heap := h'
           nodes := n'
           undoStack := s.undoStack ++ [snapshot]
           redoStack := [] }
  | some rref =>
    match calculateMindMapLayoutH fuel DEFAULT_LAYOUT_CONFIG h' rref with
    | none => none
    | some h'' =>
      match flattenNodesH h'' fuel [rref] with
      | none => none
      | some flat =>
        some { s with
               heap := h''
               nodes := flat
               undoStack := s.undoStack ++ [snapshot]
               redoStack := [] }

/-- Heap rendering of the store `updateNodeContent`. -/
def storeUpdateNodeContentH (fuel : ℕ) (s : HStore) (nodeId content : String) :
    Option HStore :=
  executeWithHistoryH fuel s (fun h n => updateNodeContentFuncH fuel h n nodeId content)

/-- Heap rendering of the store `undo`: restore the popped reference list; the heap —
and with it every mutation the snapshot shares — stays as it is. -/
def storeUndoH (s : HStore) : HStore :=
  match s.undoStack.getLast? with
  | none => s
  | some prev =>
    { s with
      nodes := prev.1
      relationships := prev.2
      undoStack := s.undoStack.dropLast
      redoStack := s.redoStack ++ [(s.nodes, s.relationships)] }

/-- Dereference a heap tree into a value tree (deep read of what a renderer or a
deep-equality comparison would observe at a reference). -/
def readList (h : Heap) : ℕ → List ℕ → Option (List MindNode)
  | 0, _ => none
  | _ + 1, [] => some []
  | fuel + 1, r :: rs =>
    match hget h r with
    | none => none
    | some n =>
      match readList h fuel n.children with
      | none => none
      | some cs =>
        match readList h fuel rs with
        | none => none
        | some ts => some (.mk n.data cs :: ts)

/-- Dereference a single heap tree. -/
def readNode (h : Heap) (fuel : ℕ) (r : ℕ) : Option MindNode :=
  match readList h fuel [r] with
  | some [t] => some t
  | _ => none

/-! ### Concrete fixtures used by counterexamples and witnesses -/

/-- A bare node: given id/content, parent, level, direction; empty default style, no
position, expanded. -/
def mkN (i : String) (p : Option String) (lvl : Int) (dir : Option Dir)
    (cs : List MindNode) : MindNode :=
  .mk { id := i, content := i, parent := p, style := {}, position := none,
        expanded := true, level := lvl, direction := dir } cs

/-- The chain tree `R → A → B`. -/
def fxChainT : MindNode := mkN "R" none 0 (some .right)
  [mkN "A" (some "R") 1 (some .right) [mkN "B" (some "A") 2 (some .right) []]]

/-- The chain state's flat node list (canonical flattening). -/
def fxChainN : List MindNode := flattenNodes fxChainT

/-- A relationship whose source is the grandchild `B` and whose target is the root. -/
def fxRel : Relationship :=
  { id := "e1", sourceId := "B", targetId := "R", label := "", style := {} }

/-- Store state holding the chain and the relationship `fxRel`. -/
def fxChainS : StoreState :=
  { nodes := fxChainN, relationships := [fxRel], undoStack := [], redoStack := [] }

/-- Scenario A input: a root with two right children `A`, `B` and one left child `C`. -/
def fxScenarioA : MindNode := mkN "R" none 0 (some .right)
  [mkN "A" (some "R") 1 (some .right) [],
   mkN "B" (some "R") 1 (some .right) [],
   mkN "C" (some "R") 1 (some .left) []]

/-- A root with only right children `A`, `B` (no left group). -/
def fxRightPair : MindNode := mkN "R" none 0 (some .right)
  [mkN "A" (some "R") 1 (some .right) [],
   mkN "B" (some "R") 1 (some .right) []]

/-- Position of the node with the given id after flattening `t`. -/
def posOf (t : MindNode) (i : String) : Option NodePosition :=
  ((flattenNodes t).find? (fun n => n.id = i)).bind MindNode.position

/-- The single-node heap store for the history counterexample: one root object at
reference `0`, content `"A"`, already laid out at the origin. -/
def fxRootH : HNode :=
  { data := { id := "root", content := "A", parent := none, style := {},
              position := some ⟨0, 0⟩, expanded := true, level := 0,
              direction := some .right },
    children := [] }

/-- The heap store state before the failing operation. -/
def fxS0H : HStore := { heap := [(0, fxRootH)], nodes := [0], relationships := [],
                        undoStack := [], redoStack := [] }

/-- The heap store state after `updateNodeContent(root, "B")`. -/
def fxS1H : HStore := (storeUpdateNodeContentH 30 fxS0H "root" "B").getD fxS0H

mutual

/-- Height of a tree (`1` for a leaf): the recursion depth that resolving the tree
through the rebuilt id map takes. -/
def height : MindNode → ℕ
  | .mk _ cs => heightList cs + 1

/-- Largest height over a forest (`0` when empty). -/
def heightList : List MindNode → ℕ
  | [] => 0
  | c :: cs => max (height c) (heightList cs)

end

/-! ## Theorems -/

mutual

/-- Strong induction for the nested tree type: to prove a property of every node it
suffices to prove it for a node assuming it for each of its children. -/
theorem MindNode.strongInd (motive : MindNode → Prop)
    (h : ∀ d cs, (∀ c ∈ cs, motive c) → motive (.mk d cs)) : ∀ t, motive t
  | .mk d cs => h d cs (MindNode.strongIndList motive h cs)

/-- List form of `MindNode.strongInd`. -/
theorem MindNode.strongIndList (motive : MindNode → Prop)
    (h : ∀ d cs, (∀ c ∈ cs, motive c) → motive (.mk d cs)) :
    ∀ l : List MindNode, ∀ c ∈ l, motive c
  | [] => by intro c hc; exact absurd hc (List.not_mem_nil c)
  | c :: cs => by
    intro x hx
    rcases List.mem_cons.1 hx with h1 | h2
    · subst h1
      exact MindNode.strongInd motive h x
    · exact MindNode.strongIndList motive h cs x h2

end

/-! ### Claim C10 — soundness of `findClosestNode` -/

theorem firstWithinThreshold_eq_some {t : ℚ} :
    ∀ {l : List (MindNode × ℚ)} {r}, firstWithinThreshold t l = some r →
      r ∈ l ∧ sqrtLtB r.2 t = true := by
  intro l
  induction l with
  | nil => intro r h; simp [firstWithinThreshold] at h
  | cons x xs ih =>
    intro r h
    obtain ⟨n, dsq⟩ := x
    by_cases hx : sqrtLtB dsq t
    · rw [firstWithinThreshold, if_pos hx] at h
      cases h
      exact ⟨List.mem_cons_self _ _, hx⟩
    · rw [firstWithinThreshold, if_neg hx] at h
      obtain ⟨hm, hs⟩ := ih h
      exact ⟨List.mem_cons_of_mem _ hm, hs⟩

theorem mem_insertByDist {x y : MindNode × ℚ} :
    ∀ {l}, x ∈ insertByDist y l → x = y ∨ x ∈ l := by
  intro l
  induction l with
  | nil => intro h; simp [insertByDist] at h; exact Or.inl h
  | cons z zs ih =>
    intro h
    rw [insertByDist] at h
    split at h
    · rcases List.mem_cons.1 h with h1 | h1
      · exact Or.inl h1
      · exact Or.inr h1
    · rcases List.mem_cons.1 h with h1 | h1
      · exact Or.inr (h1 ▸ List.mem_cons_self _ _)
      · rcases ih h1 with h2 | h2
        · exact Or.inl h2
        · exact Or.inr (List.mem_cons_of_mem _ h2)

theorem mem_sortByDist {x : MindNode × ℚ} :
    ∀ {l}, x ∈ sortByDist l → x ∈ l := by
  intro l
  induction l with
  | nil => intro h; simp [sortByDist] at h
  | cons z zs ih =>
    intro h
    rw [sortByDist] at h
    rcases mem_insertByDist h with h1 | h1
    · exact h1 ▸ List.mem_cons_self _ _
    · exact List.mem_cons_of_mem _ (ih h1)

theorem collectExcludeIds_acc_sub :
    ∀ (fuel : ℕ) (nodes : List MindNode) (stack acc : List String),
      acc ⊆ collectExcludeIds fuel nodes stack acc := by
  intro fuel
  induction fuel with
  | zero => intro nodes stack acc; rw [collectExcludeIds]; exact fun _ h => h
  | succ n ih =>
    intro nodes stack acc
    match stack with
    | [] => rw [collectExcludeIds]; exact fun _ h => h
    | x :: stack =>
      rw [collectExcludeIds]
      have hsub : acc ⊆ acc ++ [x] := List.subset_append_left _ _
      cases h : nodes.find? (fun n => n.id = x) with
      | none => exact hsub.trans (ih nodes stack (acc ++ [x]))
      | some n => exact hsub.trans (ih nodes _ (acc ++ [x]))

theorem mem_excludeIdsOf_self (nodes : List MindNode) (cur : String) :
    cur ∈ excludeIdsOf nodes cur := by
  rw [excludeIdsOf, collectExcludeIds]
  have hx : cur ∈ ([] : List String) ++ [cur] := by simp
  cases h : nodes.find? (fun n => n.id = cur) with
  | none => exact collectExcludeIds_acc_sub _ nodes _ _ hx
  | some n => exact collectExcludeIds_acc_sub _ nodes _ _ hx

/-- Claim C10: for every node list, dragged id, pointer position and threshold,
`findClosestNode` returns `null` or a pair whose node is a top-level entry that is
neither the dragged node nor in its exclusion walk (the dragged node together with its
id-resolved descendants), has a defined position, and lies strictly within the
threshold — stated on squared distances, `dist < t ↔ 0 < t ∧ dist² < t²`.  Nodes
without a computed position can never become snap targets. -/
theorem c10_findClosestNode_sound (nodes : List MindNode) (cur : String)
    (pos : NodePosition) (t : ℚ) :
    match findClosestNode nodes cur pos t with
    | none => True
    | some r =>
      r.1 ∈ nodes ∧ r.1.id ∉ excludeIdsOf nodes cur ∧ r.1.id ≠ cur ∧
      r.1.position.isSome = true ∧ 0 < t ∧
      r.2 = calculateDistanceSq pos (r.1.position.getD ⟨0, 0⟩) ∧ r.2 < t * t := by
  cases hres : findClosestNode nodes cur pos t with
  | none => trivial
  | some r =>
    rw [findClosestNode] at hres
    obtain ⟨hmem, hlt⟩ := firstWithinThreshold_eq_some hres
    have hmem2 := mem_sortByDist hmem
    rw [List.mem_map] at hmem2
    obtain ⟨n, hn, hr⟩ := hmem2
    rw [List.mem_filter] at hn
    obtain ⟨hnodes, hfilt⟩ := hn
    simp only [decide_eq_true_eq, List.elem_iff] at hfilt
    obtain ⟨hnotex, hpos⟩ := hfilt
    rw [sqrtLtB, Bool.and_eq_true, decide_eq_true_eq, decide_eq_true_eq] at hlt
    subst hr
    refine ⟨hnodes, hnotex, ?_, hpos, hlt.1, rfl, hlt.2⟩
    intro hid
    exact hnotex (hid ▸ mem_excludeIdsOf_self nodes cur)

/-! ### Claim C3 — the top-down placement pass -/

theorem setPositions_root_position (cfg : LayoutConfig) (m : BMap) :
    ∀ (t : MindNode) (x y : ℚ), (setPositions cfg m t x y).position = some ⟨x, y⟩ := by
  intro t x y
  obtain ⟨d, cs⟩ := t
  rw [setPositions]
  split
  · rfl
  · rfl

/-- Claim C3, counterexample: on the Scenario-A tree (root with right children `A`, `B`
and left child `C`) the top-down pass positions only the left group: `A` is assigned no
position at all, so in particular it does not end with `x > 0` as claimed. -/
theorem c3_counterexample :
    posOf (calculateMindMapLayout fxScenarioA) "A" = none ∧
    ¬ (∃ p : NodePosition, posOf (calculateMindMapLayout fxScenarioA) "A" = some p ∧ 0 < p.x) ∧
    posOf (calculateMindMapLayout fxScenarioA) "B" = none := by
  have hA : posOf (calculateMindMapLayout fxScenarioA) "A" = none := by
    norm_num +decide [posOf, calculateMindMapLayout, calcBounds, calcBoundsList,
      setPositions, setPositionsList, fxScenarioA, mkN, useLeftGroup, isLeftChild,
      getNodeSize, getNodeSizeData, qOrDefault, DEFAULT_LAYOUT_CONFIG, groupTotalHeight,
      bget, bset, flattenNodes, flattenList, MindNode.id, MindNode.data, MindNode.children,
      MindNode.position, MindNode.style, MindNode.direction]
  have hB : posOf (calculateMindMapLayout fxScenarioA) "B" = none := by
    norm_num +decide [posOf, calculateMindMapLayout, calcBounds, calcBoundsList,
      setPositions, setPositionsList, fxScenarioA, mkN, useLeftGroup, isLeftChild,
      getNodeSize, getNodeSizeData, qOrDefault, DEFAULT_LAYOUT_CONFIG, groupTotalHeight,
      bget, bset, flattenNodes, flattenList, MindNode.id, MindNode.data, MindNode.children,
      MindNode.position, MindNode.style, MindNode.direction]
  refine ⟨hA, ?_, hB⟩
  rintro ⟨p, hp, _⟩
  rw [hA] at hp
  exact Option.noConfusion hp

/-- Claim C3, amended: in the top-down placement pass the root is placed at `(0, 0)`,
and at every node — the root included — only one child group is laid out: the left
group when it is nonempty (left priority), otherwise the right group; the chosen group
is stacked vertically, centred on the node's y, and offset horizontally by half the
node's width plus the horizontal-spacing constant, signed by the direction.  On the
Scenario-A input the left child `C` is placed at `x = -140 < 0` while the right
children `A`, `B` receive no position; on a root with only right children the group is
stacked on the right with the vertical-spacing gap between the boxes. -/
theorem c3_amended :
    (∀ (t : MindNode) (cfg : LayoutConfig),
        (calculateMindMapLayout t cfg).position = some ⟨0, 0⟩) ∧
    posOf (calculateMindMapLayout fxScenarioA) "R" = some ⟨0, 0⟩ ∧
    posOf (calculateMindMapLayout fxScenarioA) "C" = some ⟨-140, 0⟩ ∧
    (-140 : ℚ) < 0 ∧
    posOf (calculateMindMapLayout fxScenarioA) "A" = none ∧
    posOf (calculateMindMapLayout fxScenarioA) "B" = none ∧
    posOf (calculateMindMapLayout fxRightPair) "A" = some ⟨140, -40⟩ ∧
    posOf (calculateMindMapLayout fxRightPair) "B" = some ⟨140, 40⟩ := by
  constructor
  · intro t cfg
    rw [calculateMindMapLayout]
    exact setPositions_root_position cfg _ t 0 0
  · norm_num +decide [posOf, calculateMindMapLayout, calcBounds, calcBoundsList,
      setPositions, setPositionsList, fxScenarioA, fxRightPair, mkN, useLeftGroup,
      isLeftChild, getNodeSize, getNodeSizeData, qOrDefault, DEFAULT_LAYOUT_CONFIG,
      groupTotalHeight, bget, bset, flattenNodes, flattenList, MindNode.id, MindNode.data,
      MindNode.children, MindNode.position, MindNode.style, MindNode.direction]

/-! ### Claims C5, C6, C8 — the drag commit

The commit-time cycle guard of `updateNodeRelationship` walks the subtree below the
TARGET looking for the dragged id, i.e. it tests "dragged ∈ subtree(target)" — target
is an ancestor — although its comment says it checks whether the target is a child of
the dragged node.  Consequently: a reparent onto the dragged node's own descendant is
not rejected, and the level-recomputation `updateChildLevels` then follows the
parent-field cycle dragged → … → target → dragged forever (JS: stack overflow); while
a reparent onto any ancestor (for example the grandparent) is silently rejected. -/

theorem parentEdge_setLevelOfChildren (ns : List MindNode) (pid : String) (lvl : Int)
    (a b : String) :
    parentEdge (setLevelOfChildren ns pid lvl) a b ↔ parentEdge ns a b := by
  constructor
  · rintro ⟨n, hn, hid, hpar⟩
    rw [setLevelOfChildren, List.mem_map] at hn
    obtain ⟨n0, hn0, heq⟩ := hn
    refine ⟨n0, hn0, ?_, ?_⟩
    · by_cases hc : n0.parent = some pid
      · rw [if_pos hc] at heq
        subst heq
        simpa [MindNode.modData, MindNode.id, MindNode.data] using hid
      · rw [if_neg hc] at heq
        exact heq ▸ hid
    · by_cases hc : n0.parent = some pid
      · rw [if_pos hc] at heq
        subst heq
        simp only [MindNode.modData, MindNode.parent, MindNode.data] at hpar
        simpa [MindNode.parent] using hpar
      · rw [if_neg hc] at heq
        exact heq ▸ hpar
  · rintro ⟨n, hn, hid, hpar⟩
    by_cases hc : n.parent = some pid
    · refine ⟨n.modData (fun d => { d with level := lvl }), ?_, ?_, ?_⟩
      · rw [setLevelOfChildren, List.mem_map]
        exact ⟨n, hn, by rw [if_pos hc]⟩
      · obtain ⟨d, cs⟩ := n
        simpa [MindNode.modData, MindNode.id, MindNode.data] using hid
      · obtain ⟨d, cs⟩ := n
        simp only [MindNode.parent, MindNode.data] at hpar
        simpa [MindNode.modData, MindNode.parent, MindNode.data] using hpar
    · refine ⟨n, ?_, hid, hpar⟩
      rw [setLevelOfChildren, List.mem_map]
      exact ⟨n, hn, by rw [if_neg hc]⟩

theorem updateChildLevels_cycle :
    ∀ (fuel : ℕ) (stack : List (String × Int)) (ns : List MindNode),
      (∃ pl ∈ stack, Relation.TransGen (parentEdge ns) pl.1 pl.1) →
      updateChildLevelsW fuel stack ns = none := by
  intro fuel
  induction fuel with
  | zero => intro stack ns _; rw [updateChildLevelsW]
  | succ n ih =>
    rintro stack ns ⟨pl, hmem, hcyc⟩
    match stack, hmem with
    | (pid, plvl) :: rest, hmem =>
      rw [updateChildLevelsW]
      apply ih
      rcases List.mem_cons.1 hmem with hhd | htl
      · -- the popped job itself lies on a cycle: its successor on the cycle is pushed
        have hpid : Relation.TransGen (parentEdge ns) pid pid := by
          have : pl.1 = pid := by rw [hhd]
          exact this ▸ hcyc
        obtain ⟨c, hstep, hrt⟩ := Relation.TransGen.head'_iff.1 hpid
        -- the cycle's successor c is among the pushed jobs, and the cycle rotates to c
        refine ⟨(c, plvl + 1), ?_, ?_⟩
        · apply List.mem_append_left
          rw [List.mem_map]
          obtain ⟨e, he, heid, hepar⟩ := hstep
          refine ⟨c, ?_, rfl⟩
          rw [List.mem_map]
          exact ⟨e, List.mem_filter.2 ⟨he, by simp [hepar, heid]⟩, heid⟩
        · exact Relation.TransGen.mono
            (fun a b hab => (parentEdge_setLevelOfChildren ns pid (plvl + 1) a b).2 hab)
            (Relation.TransGen.tail' hrt hstep)
      · exact ⟨pl, List.mem_append_right _ htl,
          Relation.TransGen.mono
            (fun a b hab => (parentEdge_setLevelOfChildren ns pid (plvl + 1) a b).2 hab)
            hcyc⟩

/-- Claim C6, failing evaluation: dragging the grandchild `B` onto the root `R` of the
chain `R → A → B` satisfies the claim's side conditions (`R` is not inside `B`'s
subtree and is not `B`'s parent), yet `updateNodeRelationship` returns the node list
unchanged — its guard `isChildOfDragged` fires on every ancestor target because it
searches the target's subtree for the dragged id. -/
theorem c6_counterexample :
    updateNodeRelationshipF 50 fxChainN "B" "R" = some fxChainN ∧
    "R" ∉ excludeIdsOf fxChainN "B" ∧
    (fxChainN.find? (fun n => n.id = "B")).map MindNode.parent = some (some "A") ∧
    isChildOfDraggedW "B" fxChainN 50 ["R"] = some true := by
  refine ⟨by decide, by decide, by decide, by decide⟩

theorem chain_guard_ne_true (fuel : ℕ) :
    isChildOfDraggedW "A" fxChainN fuel ["B"] ≠ some true := by
  match fuel with
  | 0 => rw [isChildOfDraggedW]; exact fun h => Option.noConfusion h
  | fuel + 1 =>
    rw [isChildOfDraggedW]
    rw [show fxChainN.find? (fun n => n.id = "B")
        = some (mkN "B" (some "A") 2 (some .right) []) from by decide]
    simp only [mkN, MindNode.id, MindNode.data, MindNode.children]
    rw [if_neg (by decide)]
    simp only [List.map_nil, List.nil_append]
    match fuel with
    | 0 => rw [isChildOfDraggedW]; exact fun h => Option.noConfusion h
    | m + 1 => rw [isChildOfDraggedW]; exact fun h => Bool.noConfusion (Option.some.inj h)

theorem chain_dragCommit_diverges (fuel : ℕ) :
    updateNodeRelationshipF fuel fxChainN "A" "B" = none := by
  rw [updateNodeRelationshipF]
  rw [show fxChainN.find? (fun n => n.id = "A") = some (mkN "A" (some "R") 1 (some .right)
      [mkN "B" (some "A") 2 (some .right) []]) from by decide]
  rw [show fxChainN.find? (fun n => n.id = "B")
      = some (mkN "B" (some "A") 2 (some .right) []) from by decide]
  simp only [mkN, MindNode.parent, MindNode.data, MindNode.level, MindNode.direction]
  rw [if_neg (by decide)]
  cases hg : isChildOfDraggedW "A" fxChainN fuel ["B"] with
  | none => rfl
  | some b =>
    cases b with
    | true => exact absurd hg (chain_guard_ne_true fuel)
    | false =>
      simp +decide [fxChainN, fxChainT, flattenNodes, flattenList, mkN,
        updateFirstEntry, MindNode.id, MindNode.data, MindNode.children, MindNode.parent,
        MindNode.modData, MindNode.modChildren]
      apply updateChildLevels_cycle
      refine ⟨("A", (2 : Int) + 1), by decide, ?_⟩
      exact Relation.TransGen.head (b := "B") (by decide)
        (Relation.TransGen.single (by decide))

/-- Claim C5, failing evaluation: in the chain `R → A → B`, the target `B` lies inside
the dragged node `A`'s subtree (it is in `A`'s exclusion walk), so per the claim the
commit must reject and leave the tree unchanged.  Instead the commit-time guard
evaluates to `false` (it tests the reverse direction) and the commit never completes:
for every budget, `updateNodeRelationship` — whose level-recomputation chases the
freshly created parent-link cycle `A → B → A` — returns no result, modelling the JS
stack overflow. -/
theorem c5_counterexample :
    "B" ∈ excludeIdsOf fxChainN "A" ∧
    isChildOfDraggedW "A" fxChainN 50 ["B"] = some false ∧
    (∀ fuel, updateNodeRelationshipF fuel fxChainN "A" "B" = none) := by
  exact ⟨by decide, by decide, chain_dragCommit_diverges⟩

/-- Claim C8, failing evaluation: a reparent that would create a cycle does not degrade
to a silent no-op — `updateNodeRelationship` never returns on it (JS: a stack-overflow
exception escapes instead).  Moreover `delete` aimed at the root does not leave the
state unchanged: the store still removes every relationship touching the root id even
though the node deletion is refused. -/
theorem c8_counterexample :
    (∀ fuel, updateNodeRelationshipF fuel fxChainN "A" "B" = none) ∧
    fxChainS.relationships = [fxRel] ∧
    (storeDeleteNode fxChainS "R").relationships = [] := by
  refine ⟨chain_dragCommit_diverges, rfl, ?_⟩
  decide

/-! ### Claim C2 — delete

Supporting lemmas about `findNodeById` and `deleteNodeRecursive`, proved by the same
structural recursion as the functions themselves. -/

theorem flattenNodes_eq (d : NodeData) (cs : List MindNode) :
    flattenNodes (.mk d cs) = .mk d cs :: flattenList cs := by
  rw [flattenNodes]

theorem forestIds_nil : forestIds [] = [] := rfl

theorem forestIds_cons (t : MindNode) (rest : List MindNode) :
    forestIds (t :: rest) = treeIds t ++ forestIds rest := by
  rw [forestIds, flattenList, List.map_append]
  rfl

theorem treeIds_eq (d : NodeData) (cs : List MindNode) :
    treeIds (.mk d cs) = d.id :: forestIds cs := by
  rw [treeIds, flattenNodes_eq, List.map_cons]
  rfl

mutual

theorem findNodeById_eq_none : ∀ (l : List MindNode) (i : String),
    i ∉ forestIds l → findNodeById l i = none
  | [], i => fun _ => rfl
  | t :: rest, i => fun h => by
    rw [forestIds_cons] at h
    rw [findNodeById, findNodeTree_eq_none t i (fun hm => h (List.mem_append_left _ hm)),
      findNodeById_eq_none rest i (fun hm => h (List.mem_append_right _ hm))]

theorem findNodeTree_eq_none : ∀ (t : MindNode) (i : String),
    i ∉ treeIds t → findNodeTree t i = none
  | .mk d cs, i => fun h => by
    rw [treeIds_eq] at h
    rw [findNodeTree, if_neg (fun he : d.id = i => h (he ▸ List.mem_cons_self _ _)),
      findNodeById_eq_none cs i (fun hm => h (List.mem_cons_of_mem _ hm))]

end

mutual

theorem findNodeById_mem_flatten : ∀ (l : List MindNode) (i : String) (sub : MindNode),
    findNodeById l i = some sub →
      sub.id = i ∧ sub ∈ flattenList l ∧ ∀ x ∈ flattenNodes sub, x ∈ flattenList l
  | [], i, sub => fun h => Option.noConfusion h
  | t :: rest, i, sub => fun h => by
    rw [findNodeById] at h
    cases hft : findNodeTree t i with
    | some r =>
      rw [hft] at h
      cases h
      obtain ⟨h1, h2, h3⟩ := findNodeTree_mem_flatten t i sub hft
      refine ⟨h1, ?_, fun x hx => ?_⟩
      · rw [flattenList]
        exact List.mem_append_left _ h2
      · rw [flattenList]
        exact List.mem_append_left _ (h3 x hx)
    | none =>
      rw [hft] at h
      obtain ⟨h1, h2, h3⟩ := findNodeById_mem_flatten rest i sub h
      refine ⟨h1, ?_, fun x hx => ?_⟩
      · rw [flattenList]
        exact List.mem_append_right _ h2
      · rw [flattenList]
        exact List.mem_append_right _ (h3 x hx)

theorem findNodeTree_mem_flatten : ∀ (t : MindNode) (i : String) (sub : MindNode),
    findNodeTree t i = some sub →
      sub.id = i ∧ sub ∈ flattenNodes t ∧ ∀ x ∈ flattenNodes sub, x ∈ flattenNodes t
  | .mk d cs, i, sub => fun h => by
    rw [findNodeTree] at h
    split at h
    · cases h
      rename_i hid
      refine ⟨hid, ?_, fun x hx => hx⟩
      rw [flattenNodes_eq]
      exact List.mem_cons_self _ _
    · obtain ⟨h1, h2, h3⟩ := findNodeById_mem_flatten cs i sub h
      refine ⟨h1, ?_, fun x hx => ?_⟩
      · rw [flattenNodes_eq]
        exact List.mem_cons_of_mem _ h2
      · rw [flattenNodes_eq]
        exact List.mem_cons_of_mem _ (h3 x hx)

end

mutual

theorem deleteNodeRecursive_not_found : ∀ (l : List MindNode) (i : String),
    i ∉ forestIds l → deleteNodeRecursive l i = (l, false)
  | [], i => fun _ => rfl
  | t :: rest, i => fun h => by
    rw [forestIds_cons] at h
    have hid : t.id ≠ i := by
      intro he
      exact h (List.mem_append_left _ (he ▸ by
        obtain ⟨d, cs⟩ := t
        rw [treeIds_eq]
        exact List.mem_cons_self _ _))
    rw [deleteNodeRecursive, if_neg hid,
      deleteNodeTree_not_found t i (fun hm => h (List.mem_append_left _ hm)),
      deleteNodeRecursive_not_found rest i (fun hm => h (List.mem_append_right _ hm))]

theorem deleteNodeTree_not_found : ∀ (t : MindNode) (i : String),
    i ∉ treeIds t → deleteNodeTree t i = (t, false)
  | .mk d cs, i => fun h => by
    rw [treeIds_eq] at h
    rw [deleteNodeTree,
      deleteNodeRecursive_not_found cs i (fun hm => h (List.mem_cons_of_mem _ hm))]

end

mutual

/-- Deleting an id that occurs in a duplicate-free forest removes exactly the ids of
the subtree hanging at its first occurrence (the one `findNodeById` returns), in
order. -/
theorem deleteNodeRecursive_found : ∀ (l : List MindNode) (i : String),
    (forestIds l).Nodup → i ∈ forestIds l →
      ∃ sub, findNodeById l i = some sub ∧ (deleteNodeRecursive l i).2 = true ∧
        forestIds (deleteNodeRecursive l i).1 =
          (forestIds l).filter (fun x => ¬ x ∈ treeIds sub)
  | [], i => by intro _ hmem; exact absurd hmem (by rw [forestIds_nil]; exact List.not_mem_nil i)
  | t :: rest, i => by
    intro hnd hmem
    obtain ⟨d, cs⟩ := t
    rw [forestIds_cons] at hnd hmem
    by_cases hid : d.id = i
    · -- the head itself is removed, together with its whole flatten
      refine ⟨.mk d cs, ?_, ?_, ?_⟩
      · rw [findNodeById, findNodeTree, if_pos hid]
      · rw [deleteNodeRecursive, if_pos (show (MindNode.mk d cs).id = i from hid)]
      · rw [deleteNodeRecursive, if_pos (show (MindNode.mk d cs).id = i from hid)]
        have hdis := (List.nodup_append.1 hnd).2.2
        show forestIds rest = _
        rw [forestIds_cons, List.filter_append]
        rw [List.filter_eq_nil_iff.2 (fun x hx => by simp [hx]),
          List.nil_append]
        symm
        apply List.filter_eq_self.2
        intro x hx
        simp only [decide_eq_true_eq, decide_not, Bool.not_eq_true', decide_eq_false_iff_not]
        intro hxin
        exact hdis hxin hx
    · rw [deleteNodeRecursive, if_neg (show ¬ (MindNode.mk d cs).id = i from hid)]
      rcases List.mem_append.1 hmem with hin | hin
      · -- found inside the head's subtree
        rw [treeIds_eq] at hin
        have hincs : i ∈ forestIds cs := by
          rcases List.mem_cons.1 hin with h1 | h1
          · exact absurd h1.symm hid
          · exact h1
        have hndcs : (forestIds cs).Nodup :=
          ((List.nodup_cons.1 ((treeIds_eq d cs ▸ (List.nodup_append.1 hnd).1))).2)
        obtain ⟨sub, hfind, hdel, hids⟩ := deleteNodeRecursive_found cs i hndcs hincs
        refine ⟨sub, ?_, ?_, ?_⟩
        · rw [findNodeById, findNodeTree, if_neg hid, hfind]
        · rw [deleteNodeTree]
          cases hr : deleteNodeRecursive cs i with
          | mk cs' b =>
            rw [hr] at hdel
            simp only at hdel
            subst hdel
            simp
        · rw [deleteNodeTree]
          cases hr : deleteNodeRecursive cs i with
          | mk cs' b =>
            rw [hr] at hdel hids
            simp only at hdel hids
            subst hdel
            simp only
            rw [forestIds_cons, treeIds_eq, hids, forestIds_cons, List.filter_append]
            congr 1
            · rw [treeIds_eq, List.filter_cons]
              have hsubids : ∀ x ∈ treeIds sub, x ∈ forestIds cs := by
                intro x hx
                obtain ⟨-, -, h3⟩ := findNodeById_mem_flatten cs i sub hfind
                rw [treeIds] at hx
                rw [List.mem_map] at hx
                obtain ⟨y, hy, hxy⟩ := hx
                rw [forestIds]
                rw [List.mem_map]
                exact ⟨y, h3 y hy, hxy⟩
              have hdni : ¬ d.id ∈ treeIds sub := by
                intro hd
                have := hsubids _ hd
                have hnc : d.id ∉ forestIds cs :=
                  (List.nodup_cons.1 (treeIds_eq d cs ▸ (List.nodup_append.1 hnd).1)).1
                exact hnc this
              simp [hdni]
            · symm
              apply List.filter_eq_self.2
              intro x hx
              simp only [decide_eq_true_eq, decide_not, Bool.not_eq_true',
                decide_eq_false_iff_not]
              intro hxin
              have hdis := (List.nodup_append.1 hnd).2.2
              have hsubids : ∀ y ∈ treeIds sub, y ∈ forestIds cs := by
                intro y hy
                obtain ⟨-, -, h3⟩ := findNodeById_mem_flatten cs i sub hfind
                rw [treeIds] at hy
                rw [List.mem_map] at hy
                obtain ⟨z, hz, hyz⟩ := hy
                rw [forestIds]
                rw [List.mem_map]
                exact ⟨z, h3 z hz, hyz⟩
              have : x ∈ treeIds (.mk d cs) := by
                rw [treeIds_eq]
                exact List.mem_cons_of_mem _ (hsubids x hxin)
              exact hdis this hx
      · -- found further right in the forest
        have hnt : i ∉ treeIds (.mk d cs) := by
          intro hc
          exact (List.disjoint_of_nodup_append hnd) hc hin
        have hncs : i ∉ forestIds cs := fun hc =>
          hnt (by rw [treeIds_eq]; exact List.mem_cons_of_mem _ hc)
        rw [deleteNodeTree, deleteNodeRecursive_not_found cs i hncs]
        obtain ⟨sub, hfind, hdel, hids⟩ := deleteNodeRecursive_found rest i
          (List.nodup_append.1 hnd).2.1 hin
        refine ⟨sub, ?_, ?_, ?_⟩
        · rw [findNodeById, findNodeTree, if_neg hid, findNodeById_eq_none cs i hncs, hfind]
        · simpa using hdel
        · show forestIds (MindNode.mk d cs :: (deleteNodeRecursive rest i).1) = _
          rw [forestIds_cons, hids, forestIds_cons, List.filter_append]
          congr 1
          symm
          apply List.filter_eq_self.2
          intro x hx
          simp only [decide_eq_true_eq, decide_not, Bool.not_eq_true',
            decide_eq_false_iff_not]
          intro hxin
          have hsubrest : ∀ y ∈ treeIds sub, y ∈ forestIds rest := by
            intro y hy
            obtain ⟨-, -, h3⟩ := findNodeById_mem_flatten rest i sub hfind
            rw [treeIds] at hy
            rw [List.mem_map] at hy
            obtain ⟨z, hz, hyz⟩ := hy
            rw [forestIds]
            rw [List.mem_map]
            exact ⟨z, h3 z hz, hyz⟩
          exact (List.disjoint_of_nodup_append hnd) hx (hsubrest x hxin)

end

/-- Claim C2, counterexample: in the store state holding the chain `R → A → B` and a
relationship whose source is the grandchild `B`, deleting `A` removes `A` and `B` from
the tree yet keeps the relationship referencing the deleted `B`; and deleting the root
id leaves the nodes but still strips the relationships touching the root. -/
theorem c2_counterexample :
    ((storeDeleteNode fxChainS "A").nodes.map MindNode.id) = ["R"] ∧
    (storeDeleteNode fxChainS "A").relationships = [fxRel] ∧
    fxRel.sourceId = "B" ∧
    (storeDeleteNode fxChainS "R").relationships = [] := by
  refine ⟨?_, by decide, rfl, by decide⟩
  norm_num +decide [storeDeleteNode, executeWithHistory, reflatten, calculateMindMapLayout,
    calcBounds, calcBoundsList, setPositions, setPositionsList, fxChainS, fxChainN, fxChainT,
    mkN, useLeftGroup, isLeftChild, getNodeSize, getNodeSizeData, qOrDefault,
    DEFAULT_LAYOUT_CONFIG, groupTotalHeight, bget, bset, flattenNodes, flattenList,
    findNodeById, findNodeTree, deleteNodeFunc, deleteNodeRecursive, deleteNodeTree,
    MindNode.id, MindNode.data, MindNode.children, MindNode.position, MindNode.style,
    MindNode.direction, MindNode.parent, MindNode.level, MindNode.expanded]

/-- Claim C2, amended: `delete(nodeId)` removes exactly the relationships whose source
or target equals `nodeId` itself (relationships referencing proper descendants of the
deleted node are kept, and the filtering happens even when `nodeId` is the root); the
node removal is a no-op when `nodeId` matches the first level-0 node; and for a
well-formed tree and a non-root `nodeId` occurring in it, the deletion removes exactly
the ids of the subtree hanging at that node, in order. -/
theorem c2_amended :
    (∀ (s : StoreState) (nodeId : String),
      (storeDeleteNode s nodeId).relationships =
        s.relationships.filter (fun r => r.sourceId ≠ nodeId ∧ r.targetId ≠ nodeId)) ∧
    (∀ (nodes : List MindNode) (nodeId : String) (r : MindNode),
      nodes.find? (fun n => n.level = 0) = some r → r.id = nodeId →
        deleteNodeFunc nodes nodeId = nodes) ∧
    (∀ (t : MindNode) (i : String), TreeWF t → i ≠ t.id → i ∈ treeIds t →
      ∃ sub, findNodeById [t] i = some sub ∧ sub.id = i ∧
        forestIds (deleteNodeFunc [t] i) =
          (treeIds t).filter (fun x => ¬ x ∈ treeIds sub)) := by
  refine ⟨fun s nodeId => rfl, fun nodes nodeId r hfind hid => ?_, fun t i hwf hne hmem => ?_⟩
  · rw [deleteNodeFunc, hfind]
    show (if r.id = nodeId then nodes else (deleteNodeRecursive nodes nodeId).1) = nodes
    rw [if_pos hid]
  · obtain ⟨hlvl, -, hnd, -⟩ := hwf
    have hfind0 : [t].find? (fun n => n.level = 0) = some t := by
      rw [List.find?]
      simp [hlvl]
    have hforest : forestIds [t] = treeIds t := by
      rw [forestIds_cons, forestIds_nil, List.append_nil]
    obtain ⟨sub, hfindsub, hdel, hids⟩ := deleteNodeRecursive_found [t] i
      (by rw [hforest]; exact hnd) (by rw [hforest]; exact hmem)
    obtain ⟨hsubid, -, -⟩ := findNodeById_mem_flatten [t] i sub hfindsub
    refine ⟨sub, hfindsub, hsubid, ?_⟩
    rw [deleteNodeFunc, hfind0]
    show forestIds (if t.id = i then [t] else (deleteNodeRecursive [t] i).1) = _
    rw [if_neg (fun h => hne h.symm), hids, hforest]

/-- Witness for `c2_amended`: its three parts applied at the chain fixture. -/
theorem c2_amended_witness :
    ((storeDeleteNode fxChainS "A").relationships =
      fxChainS.relationships.filter (fun r => r.sourceId ≠ "A" ∧ r.targetId ≠ "A")) ∧
    deleteNodeFunc fxChainN "R" = fxChainN ∧
    (∃ sub, findNodeById [fxChainT] "A" = some sub ∧ sub.id = "A" ∧
      forestIds (deleteNodeFunc [fxChainT] "A") =
        (treeIds fxChainT).filter (fun x => ¬ x ∈ treeIds sub)) :=
  ⟨c2_amended.1 fxChainS "A",
   c2_amended.2.1 fxChainN "R" fxChainT (by decide) (by decide),
   c2_amended.2.2 fxChainT "A" (by decide) (by decide) (by decide)⟩

/-! ### Claim C7 — addSibling -/

/-- A subtree whose root carries the searched id is found immediately. -/
theorem findNodeTree_self (q : MindNode) (i : String) (h : q.id = i) :
    findNodeTree q i = some q := by
  obtain ⟨d, cs⟩ := q
  rw [findNodeTree, if_pos (show d.id = i from h)]

mutual

/-- Updating the first occurrence of `i` with an id-preserving `f` makes the first
occurrence of `i` read back as the updated node. -/
theorem findNodeById_updateFirstNode :
    ∀ (l : List MindNode) (i : String) (f : MindNode → MindNode) (p : MindNode),
      findNodeById l i = some p → (f p).id = p.id →
      findNodeById (updateFirstNode l i f) i = some (f p)
  | [], i, f, p => fun h _ => Option.noConfusion h
  | t :: rest, i, f, p => fun h hid => by
    rw [findNodeById] at h
    rw [updateFirstNode]
    cases hft : findNodeTree t i with
    | some r =>
      rw [hft] at h
      obtain rfl : r = p := Option.some.inj h
      rw [if_pos (show (some r).isSome = true from rfl), findNodeById,
        findNodeTree_updateFirstTree t i f r hft hid]
    | none =>
      rw [hft] at h
      rw [if_neg (fun hc => Bool.noConfusion hc), findNodeById, hft]
      exact findNodeById_updateFirstNode rest i f p h hid

/-- Tree form of `findNodeById_updateFirstNode`. -/
theorem findNodeTree_updateFirstTree :
    ∀ (t : MindNode) (i : String) (f : MindNode → MindNode) (p : MindNode),
      findNodeTree t i = some p → (f p).id = p.id →
      findNodeTree (updateFirstTree t i f) i = some (f p)
  | .mk d cs, i, f, p => fun h hid => by
    rw [findNodeTree] at h
    rw [updateFirstTree]
    by_cases hd : d.id = i
    · rw [if_pos hd] at h
      obtain rfl : MindNode.mk d cs = p := Option.some.inj h
      rw [if_pos hd]
      exact findNodeTree_self (f (.mk d cs)) i (by rw [hid]; exact hd)
    · rw [if_neg hd] at h
      rw [if_neg hd, findNodeTree, if_neg hd]
      exact findNodeById_updateFirstNode cs i f p h hid

end

/-- `splice(n, 0, x)` puts `x` at index `n` when `n` is within bounds. -/
theorem spliceAt_get :
    ∀ (l : List α) (n : ℕ) (x : α), n ≤ l.length → (spliceAt n x l)[n]? = some x := by
  intro l
  induction l with
  | nil =>
    intro n x h
    have hn : n = 0 := Nat.le_zero.1 (by simpa using h)
    subst hn
    rfl
  | cons y ys ih =>
    intro n x h
    match n with
    | 0 => rfl
    | m + 1 =>
      rw [spliceAt]
      simpa using ih m x (by simpa using h)

/-- `splice(n, 0, x)` leaves the entries before index `n` in place. -/
theorem spliceAt_get_lt (x : α) :
    ∀ (l : List α) (n m : ℕ), m < n → n ≤ l.length → (spliceAt n x l)[m]? = l[m]? := by
  intro l
  induction l with
  | nil =>
    intro n m hm hn
    simp only [List.length_nil] at hn
    omega
  | cons y ys ih =>
    intro n m hm hn
    match n with
    | nn + 1 =>
      rw [spliceAt]
      match m with
      | 0 => simp
      | mm + 1 =>
        simp only [List.getElem?_cons_succ]
        exact ih nn mm (by omega) (by simpa using hn)

/-- Claim C7: `addSibling(siblingId, content)` leaves the forest unchanged when the
sibling is not found or has no parent (the root); otherwise, with the sibling `s`
found, its parent `p` found, and `s` sitting at index `k` of `p.children`, the new
node is inserted at index `k + 1` — immediately after the sibling — and carries the
sibling's level, the sibling's direction, and the parent's id as its parent. -/
theorem c7_addSibling :
    (∀ (nodes : List MindNode) (sid content newId : String),
      findNodeById nodes sid = none → addSiblingNodeFunc nodes sid content newId = nodes) ∧
    (∀ (nodes : List MindNode) (sid content newId : String) (s : MindNode),
      findNodeById nodes sid = some s → s.parent = none →
      addSiblingNodeFunc nodes sid content newId = nodes) ∧
    (∀ (nodes : List MindNode) (sid content newId pid : String) (s p : MindNode) (k : ℕ),
      findNodeById nodes sid = some s → s.parent = some pid →
      findNodeById nodes pid = some p →
      p.children.findIdx? (fun c => c.id = sid) = some k →
      ∃ p' newN,
        newN = createNode content newId (some p.id) s.level (s.direction.getD .right) ∧
        findNodeById (addSiblingNodeFunc nodes sid content newId) pid = some p' ∧
        p'.children = spliceAt (k + 1) newN p.children ∧
        p'.children[k + 1]? = some newN ∧
        (p'.children[k]?).map MindNode.id = some sid ∧
        newN.level = s.level ∧
        (∀ dir, s.direction = some dir → newN.direction = some dir) ∧
        newN.parent = some p.id) := by
  refine ⟨fun nodes sid content newId h => ?_, fun nodes sid content newId s h hp => ?_,
    fun nodes sid content newId pid s p k hs hp hpp hk => ?_⟩
  · rw [addSiblingNodeFunc, h]
  · rw [addSiblingNodeFunc, h]
    show (match s.parent with
      | none => nodes
      | some pid => updateFirstNode nodes pid _) = nodes
    rw [hp]
  · obtain ⟨hklt, hkp, -⟩ := List.findIdx?_eq_some_iff_getElem.1 hk
    set newN := createNode content newId (some p.id) s.level (s.direction.getD .right)
      with hnewN
    set f : MindNode → MindNode := fun q =>
      match q.children.findIdx? (fun c => c.id = sid) with
      | some i => .mk q.data (spliceAt (i + 1)
          (createNode content newId (some q.id) s.level (s.direction.getD .right)) q.children)
      | none => .mk q.data (q.children ++
          [createNode content newId (some q.id) s.level (s.direction.getD .right)])
      with hf
    have hres : addSiblingNodeFunc nodes sid content newId = updateFirstNode nodes pid f := by
      rw [addSiblingNodeFunc, hs]
      show (match s.parent with
        | none => nodes
        | some pid => updateFirstNode nodes pid _) = _
      rw [hp]
    have hfp : f p = MindNode.mk p.data (spliceAt (k + 1) newN p.children) := by
      rw [hf]
      simp only [hk]
    have hfid : (f p).id = p.id := by
      simp [hfp, MindNode.id, MindNode.data]
    have hfind := findNodeById_updateFirstNode nodes pid f p hpp hfid
    refine ⟨f p, newN, rfl, by rw [hres]; exact hfind, ?_, ?_, ?_, rfl, ?_, rfl⟩
    · rw [hfp, MindNode.children]
    · rw [hfp, MindNode.children]
      exact spliceAt_get p.children (k + 1) newN (by omega)
    · rw [hfp, MindNode.children,
        spliceAt_get_lt newN p.children (k + 1) k (by omega) (by omega),
        List.getElem?_eq_getElem hklt]
      rw [decide_eq_true_eq] at hkp
      simp [hkp]
    · intro dir hdir
      rw [hnewN]
      show some (s.direction.getD Dir.right) = some dir
      rw [hdir]
      rfl

/-- Witness for `c7_addSibling`: all three parts at concrete inputs — a missing id, the
root as sibling, and inserting after `A` (index `0`) under `R` in the chain. -/
theorem c7_addSibling_witness :
    addSiblingNodeFunc fxChainN "zzz" "c" "N" = fxChainN ∧
    addSiblingNodeFunc fxChainN "R" "c" "N" = fxChainN ∧
    (∃ p' newN,
      newN = createNode "c" "N" (some "R") 1 Dir.right ∧
      findNodeById (addSiblingNodeFunc fxChainN "A" "c" "N") "R" = some p' ∧
      p'.children = spliceAt 1 newN
        ((mkN "R" none 0 (some .right)
          [mkN "A" (some "R") 1 (some .right)
            [mkN "B" (some "A") 2 (some .right) []]]).children) ∧
      p'.children[1]? = some newN ∧
      (p'.children[0]?).map MindNode.id = some "A" ∧
      newN.level = 1 ∧
      (∀ dir, (some Dir.right : Option Dir) = some dir → newN.direction = some dir) ∧
      newN.parent = some "R") := by
  refine ⟨c7_addSibling.1 fxChainN "zzz" "c" "N" (by decide),
    c7_addSibling.2.1 fxChainN "R" "c" "N" fxChainT (by decide) (by decide), ?_⟩
  have h := c7_addSibling.2.2 fxChainN "A" "c" "N" "R"
    (mkN "A" (some "R") 1 (some .right) [mkN "B" (some "A") 2 (some .right) []])
    (mkN "R" none 0 (some .right)
      [mkN "A" (some "R") 1 (some .right) [mkN "B" (some "A") 2 (some .right) []]])
    0 (by decide) (by decide) (by decide) (by decide)
  exact h

/-! ### Claim C9 — flatten / rebuild round trip -/

theorem flattenList_nil : flattenList [] = [] := rfl

theorem flattenList_cons (c : MindNode) (cs : List MindNode) :
    flattenList (c :: cs) = flattenNodes c ++ flattenList cs := by
  rw [flattenList]

/-- Every tree heads its own flattening. -/
theorem self_mem_flattenNodes (t : MindNode) : t ∈ flattenNodes t := by
  obtain ⟨d, cs⟩ := t
  rw [flattenNodes_eq]
  exact List.mem_cons_self _ _

/-- Members of a forest appear in its flattening. -/
theorem mem_flattenList_of_mem :
    ∀ (l : List MindNode) (c : MindNode), c ∈ l → c ∈ flattenList l := by
  intro l
  induction l with
  | nil => intro c hc; exact absurd hc (List.not_mem_nil c)
  | cons v vs ih =>
    intro c hc
    rw [flattenList_cons]
    rcases List.mem_cons.1 hc with rfl | hvs
    · exact List.mem_append_left _ (self_mem_flattenNodes c)
    · exact List.mem_append_right _ (ih c hvs)

mutual

/-- The flattening of any subtree occurring in a flattening is contained in it. -/
theorem flatten_sub_tree : ∀ (t u : MindNode),
    u ∈ flattenNodes t → flattenNodes u ⊆ flattenNodes t
  | .mk d cs, u => fun hu => by
    rw [flattenNodes_eq] at hu ⊢
    rcases List.mem_cons.1 hu with rfl | hmem
    · rw [flattenNodes_eq]
      exact fun x hx => hx
    · exact fun x hx => List.mem_cons_of_mem _ (flatten_sub_forest cs u hmem hx)

/-- Forest form of `flatten_sub_tree`. -/
theorem flatten_sub_forest : ∀ (l : List MindNode) (u : MindNode),
    u ∈ flattenList l → flattenNodes u ⊆ flattenList l
  | [], u => fun hu => absurd hu (List.not_mem_nil u)
  | c :: cs, u => fun hu => by
    rw [flattenList_cons] at hu ⊢
    rcases List.mem_append.1 hu with h1 | h2
    · exact fun x hx => List.mem_append_left _ (flatten_sub_tree c u h1 hx)
    · exact fun x hx => List.mem_append_right _ (flatten_sub_forest cs u h2 hx)

end

mutual

/-- In a flattening where no node points to `u.id` (because `u.id` does not occur in the
tree at all and the root's own parent field differs), the parent filter is empty. -/
theorem filter_parent_eq_nil_tree : ∀ (t u : MindNode),
    (∀ w ∈ flattenNodes t, nodeChildOK w) → u.id ∉ treeIds t → t.parent ≠ some u.id →
    (flattenNodes t).filter (fun n => n.parent = some u.id) = []
  | .mk d cs, u => fun hok hid hp => by
    rw [treeIds_eq] at hid
    rw [flattenNodes_eq, List.filter_cons, if_neg (by simpa using hp)]
    have hroot := hok (.mk d cs) (self_mem_flattenNodes _)
    exact filter_parent_eq_nil_forest cs u
      (fun w hw => hok w (by rw [flattenNodes_eq]; exact List.mem_cons_of_mem _ hw))
      (fun hm => hid (List.mem_cons_of_mem _ hm))
      (fun c hc => by
        rw [(hroot c hc).2]
        intro he
        have he' : d.id = u.id := Option.some.inj he
        exact hid (by rw [he']; exact List.mem_cons_self _ _))

/-- Forest form of `filter_parent_eq_nil_tree`; the root parent condition is demanded
for each tree of the forest. -/
theorem filter_parent_eq_nil_forest : ∀ (l : List MindNode) (u : MindNode),
    (∀ w ∈ flattenList l, nodeChildOK w) → u.id ∉ forestIds l →
    (∀ c ∈ l, c.parent ≠ some u.id) →
    (flattenList l).filter (fun n => n.parent = some u.id) = []
  | [], u => fun _ _ _ => rfl
  | c :: cs, u => fun hok hid hp => by
    rw [forestIds_cons] at hid
    rw [flattenList_cons, List.filter_append,
      filter_parent_eq_nil_tree c u
        (fun w hw => hok w (by rw [flattenList_cons]; exact List.mem_append_left _ hw))
        (fun hm => hid (List.mem_append_left _ hm))
        (hp c (List.mem_cons_self _ _)),
      filter_parent_eq_nil_forest cs u
        (fun w hw => hok w (by rw [flattenList_cons]; exact List.mem_append_right _ hw))
        (fun hm => hid (List.mem_append_right _ hm))
        (fun c' hc' => hp c' (List.mem_cons_of_mem _ hc'))]
    rfl

end

/-- When every root of the forest has parent field `u.id` and `u.id` occurs nowhere in
the forest itself, the parent filter over the flattening returns exactly the roots. -/
theorem filter_parent_children :
    ∀ (l : List MindNode) (u : MindNode),
      (∀ w ∈ flattenList l, nodeChildOK w) → u.id ∉ forestIds l →
      (∀ c ∈ l, c.parent = some u.id) →
      (flattenList l).filter (fun n => n.parent = some u.id) = l := by
  intro l
  induction l with
  | nil => intro u _ _ _; rfl
  | cons c cs ih =>
    intro u hok hid hp
    rw [forestIds_cons] at hid
    rw [flattenList_cons, List.filter_append]
    have hcok := hok c (by
      rw [flattenList_cons]
      exact List.mem_append_left _ (self_mem_flattenNodes c))
    have hc : (flattenNodes c).filter (fun n => n.parent = some u.id) = [c] := by
      obtain ⟨d, gs⟩ := c
      rw [treeIds_eq] at hid
      rw [flattenNodes_eq, List.filter_cons,
        if_pos (by simpa using hp _ (List.mem_cons_self _ _)),
        filter_parent_eq_nil_forest gs u
          (fun w hw => hok w (by
            rw [flattenList_cons, flattenNodes_eq]
            exact List.mem_append_left _ (List.mem_cons_of_mem _ hw)))
          (fun hm => hid (List.mem_append_left _ (List.mem_cons_of_mem _ hm)))
          (fun g hg => by
            rw [(hcok g hg).2]
            intro he
            exact hid (List.mem_append_left _
              ((Option.some.inj he) ▸ List.mem_cons_self d.id (forestIds gs))))]
    rw [hc, ih u
      (fun w hw => hok w (by rw [flattenList_cons]; exact List.mem_append_right _ hw))
      (fun hm => hid (List.mem_append_right _ hm))
      (fun c' hc' => hp c' (List.mem_cons_of_mem _ hc'))]
    rfl

mutual

/-- In a duplicate-free, child-consistent flattening containing `u` (and whose root is
not itself a child of `u`), the parent filter returns exactly `u`'s children, in sibling
order. -/
theorem filter_parent_eq_children_tree : ∀ (t u : MindNode),
    (∀ w ∈ flattenNodes t, nodeChildOK w) → (treeIds t).Nodup →
    u ∈ flattenNodes t → t.parent ≠ some u.id →
    (flattenNodes t).filter (fun n => n.parent = some u.id) = u.children
  | .mk d cs, u => fun hok hnd hu hp => by
    rw [treeIds_eq] at hnd
    have hdn := (List.nodup_cons.1 hnd).1
    have hok' : ∀ w ∈ flattenList cs, nodeChildOK w :=
      fun w hw => hok w (by rw [flattenNodes_eq]; exact List.mem_cons_of_mem _ hw)
    have hroot := hok (.mk d cs) (self_mem_flattenNodes _)
    rw [flattenNodes_eq, List.filter_cons, if_neg (by simpa using hp)]
    rw [flattenNodes_eq] at hu
    rcases List.mem_cons.1 hu with rfl | hmem
    · exact filter_parent_children cs (.mk d cs) hok' hdn (fun c hc => (hroot c hc).2)
    · have hune : d.id ≠ u.id := fun he =>
        hdn (he ▸ List.mem_map_of_mem MindNode.id hmem)
      exact filter_parent_eq_children_forest cs u hok' (List.nodup_cons.1 hnd).2 hmem
        (fun c hc => by
          rw [(hroot c hc).2]
          exact fun he => hune (Option.some.inj he))

/-- Forest form of `filter_parent_eq_children_tree`. -/
theorem filter_parent_eq_children_forest : ∀ (l : List MindNode) (u : MindNode),
    (∀ w ∈ flattenList l, nodeChildOK w) → (forestIds l).Nodup →
    u ∈ flattenList l → (∀ c ∈ l, c.parent ≠ some u.id) →
    (flattenList l).filter (fun n => n.parent = some u.id) = u.children
  | [], u => fun _ _ hu _ => absurd hu (List.not_mem_nil u)
  | c :: cs, u => fun hok hnd hu hp => by
    rw [forestIds_cons] at hnd
    have hdisj := List.disjoint_of_nodup_append hnd
    have hok1 : ∀ w ∈ flattenNodes c, nodeChildOK w :=
      fun w hw => hok w (by rw [flattenList_cons]; exact List.mem_append_left _ hw)
    have hok2 : ∀ w ∈ flattenList cs, nodeChildOK w :=
      fun w hw => hok w (by rw [flattenList_cons]; exact List.mem_append_right _ hw)
    rw [flattenList_cons] at hu
    rw [flattenList_cons, List.filter_append]
    rcases List.mem_append.1 hu with h1 | h2
    · rw [filter_parent_eq_children_tree c u hok1 (hnd.of_append_left) h1
        (hp c (List.mem_cons_self _ _)),
        filter_parent_eq_nil_forest cs u hok2
          (fun hm => hdisj (List.mem_map_of_mem MindNode.id h1) hm)
          (fun c' hc' => hp c' (List.mem_cons_of_mem _ hc'))]
      exact List.append_nil _
    · rw [filter_parent_eq_nil_tree c u hok1
        (fun hm => hdisj hm (List.mem_map_of_mem MindNode.id h2))
        (hp c (List.mem_cons_self _ _)),
        filter_parent_eq_children_forest cs u hok2 (hnd.of_append_right) h2
          (fun c' hc' => hp c' (List.mem_cons_of_mem _ hc'))]
      exact List.nil_append _

end

/-- With duplicate-free ids, the id filter of a list containing `u` is exactly `[u]`. -/
theorem filter_id_eq_singleton :
    ∀ (l : List MindNode) (u : MindNode), (l.map MindNode.id).Nodup → u ∈ l →
      l.filter (fun n => n.id = u.id) = [u] := by
  intro l
  induction l with
  | nil => intro u _ hu; exact absurd hu (List.not_mem_nil u)
  | cons v vs ih =>
    intro u hnd hu
    rw [List.map_cons, List.nodup_cons] at hnd
    rw [List.filter_cons]
    rcases List.mem_cons.1 hu with rfl | hmem
    · rw [if_pos (by simp)]
      have hnil : vs.filter (fun n => n.id = u.id) = [] :=
        List.filter_eq_nil_iff.2
          (fun a ha hpa => hnd.1 ((of_decide_eq_true hpa) ▸ List.mem_map_of_mem _ ha))
      rw [hnil]
    · have hne : v.id ≠ u.id := fun he => hnd.1 (he ▸ List.mem_map_of_mem _ hmem)
      rw [if_neg (by simpa using hne), ih u hnd.2 hmem]

/-- The id map built by `rebuildTree` holds the children-stripped copy of each node of
a duplicate-free list. -/
theorem nodeMapGet_flatten (l : List MindNode) (u : MindNode)
    (hnd : (l.map MindNode.id).Nodup) (hu : u ∈ l) :
    nodeMapGet l u.id = some (stripChildren u) := by
  rw [nodeMapGet, filter_id_eq_singleton l u hnd hu]
  rfl

/-- `mapM` over ids succeeds elementwise. -/
theorem mapM_resolve (f : String → Option MindNode) :
    ∀ (l : List MindNode), (∀ c ∈ l, f c.id = some c) →
      List.mapM f (l.map MindNode.id) = some l := by
  intro l
  induction l with
  | nil => intro _; rfl
  | cons c cs ih =>
    intro h
    rw [List.map_cons, List.mapM_cons, h c (List.mem_cons_self _ _),
      ih (fun a ha => h a (List.mem_cons_of_mem _ ha))]
    rfl

/-- Unfolding equation for `height`. -/
theorem height_eq (u : MindNode) : height u = heightList u.children + 1 := by
  obtain ⟨d, cs⟩ := u
  rfl

/-- A forest bounds the height of each member. -/
theorem height_le_of_mem :
    ∀ (l : List MindNode) (c : MindNode), c ∈ l → height c ≤ heightList l := by
  intro l
  induction l with
  | nil => intro c hc; exact absurd hc (List.not_mem_nil c)
  | cons v vs ih =>
    intro c hc
    rw [heightList]
    rcases List.mem_cons.1 hc with rfl | h2
    · exact le_max_left _ _
    · exact le_trans (ih c h2) (le_max_right _ _)

mutual

/-- The height of a tree is at most the size of its flattening. -/
theorem height_le_length_tree : ∀ t : MindNode, height t ≤ (flattenNodes t).length
  | .mk d cs => by
    rw [height, flattenNodes_eq, List.length_cons]
    exact Nat.add_le_add_right (height_le_length_forest cs) 1

/-- Forest form of `height_le_length_tree`. -/
theorem height_le_length_forest : ∀ l : List MindNode, heightList l ≤ (flattenList l).length
  | [] => Nat.le_refl 0
  | c :: cs => by
    rw [heightList, flattenList_cons, List.length_append]
    exact max_le
      (le_trans (height_le_length_tree c) (Nat.le_add_right _ _))
      (le_trans (height_le_length_forest cs) (Nat.le_add_left _ _))

end

/-- Resolving any node of a well-formed tree through the rebuilt id map returns exactly
that node's subtree, once the fuel exceeds its height. -/
theorem resolveNode_flatten (T : MindNode) (hwf : TreeWF T) :
    ∀ (fuel : ℕ) (u : MindNode), u ∈ flattenNodes T → height u < fuel →
      resolveNode fuel (flattenNodes T) u.id = some u := by
  obtain ⟨hlv, hpar, hnd, hok⟩ := hwf
  intro fuel
  induction fuel with
  | zero => intro u _ h; omega
  | succ fuel ih =>
    intro u hu hh
    have hpne : T.parent ≠ some u.id := by rw [hpar]; exact fun h => Option.noConfusion h
    rw [resolveNode, nodeMapGet_flatten _ u hnd hu]
    show (List.mapM (resolveNode fuel (flattenNodes T)) (childIdsOf (flattenNodes T) u.id)).map
        (fun cs => MindNode.mk (stripChildren u).data cs) = some u
    rw [childIdsOf, filter_parent_eq_children_tree T u hok hnd hu hpne,
      mapM_resolve _ u.children (fun c hc => by
        have hcm : c ∈ flattenNodes T :=
          flatten_sub_tree T u hu (by
            obtain ⟨d, cs⟩ := u
            rw [flattenNodes_eq]
            exact List.mem_cons_of_mem _ (mem_flattenList_of_mem cs c hc))
        have h1 : height c ≤ heightList u.children := height_le_of_mem u.children c hc
        have h2 := height_eq u
        exact ih c hcm (by omega))]
    show some (MindNode.mk (stripChildren u).data u.children) = some u
    obtain ⟨d, cs⟩ := u
    rfl

/-- `rebuildTree` inverts `flattenNodes` on well-formed trees. -/
theorem rebuildTree_flatten (T : MindNode) (hwf : TreeWF T) :
    rebuildTree (flattenNodes T) = some T := by
  have hres := resolveNode_flatten T hwf ((flattenNodes T).length + 1) T
    (self_mem_flattenNodes T)
    (Nat.lt_succ_of_le (height_le_length_tree T))
  obtain ⟨hlv, hpar, hnd, hok⟩ := hwf
  obtain ⟨d, cs⟩ := T
  rw [flattenNodes_eq] at hres ⊢
  rw [rebuildTree, if_neg (by simp),
    List.find?_cons_of_pos _ (by simpa using hlv)]
  exact hres

/-- Claim C9: flattening a valid tree, rebuilding the nested tree from the flat list
through parent ids, and flattening again reproduces the original flat list — the two
representations are lossless views of one model, including sibling order. -/
theorem c9_roundtrip (T : MindNode) (hwf : TreeWF T) :
    (rebuildTree (flattenNodes T)).map flattenNodes = some (flattenNodes T) := by
  rw [rebuildTree_flatten T hwf]
  rfl

/-- Witness for `c9_roundtrip` at the concrete three-node chain. -/
theorem c9_roundtrip_witness :
    TreeWF fxChainT ∧
      (rebuildTree (flattenNodes fxChainT)).map flattenNodes =
        some (flattenNodes fxChainT) :=
  ⟨by decide, c9_roundtrip fxChainT (by decide)⟩

/-! ### Claim C1 — undo after a mutating operation -/

/-- Claim C1 (refuted): on the one-node heap store `fxS0H`, `updateNodeContent(root,
"B")` succeeds and pushes the `[...nodes]` snapshot — a copy of the reference array
only, while the node object itself is mutated in place.  The original store reads
content `"A"`; after undo, the store holds the very same reference array as the
original state yet reads content `"B"`, so `undo(op(S)) ≠ S`; and the snapshot sitting
in the undo stack already reads `"B"`, so it is not a deep copy of the pre-operation
state. -/
theorem c1_counterexample :
    (storeUpdateNodeContentH 30 fxS0H "root" "B").isSome = true ∧
    fxS0H.nodes.map (fun r => (readNode fxS0H.heap 3 r).map MindNode.content) = [some "A"] ∧
    (storeUndoH fxS1H).nodes = fxS0H.nodes ∧
    (storeUndoH fxS1H).nodes.map
      (fun r => (readNode (storeUndoH fxS1H).heap 3 r).map MindNode.content) = [some "B"] ∧
    storeUndoH fxS1H ≠ fxS0H ∧
    fxS1H.undoStack.map
      (fun p => p.1.map (fun r => (readNode fxS1H.heap 3 r).map MindNode.content)) =
      [[some "B"]] := by
  have h2 : fxS0H.nodes.map (fun r => (readNode fxS0H.heap 3 r).map MindNode.content) =
      [some "A"] := by decide
  have h4 : (storeUndoH fxS1H).nodes.map
      (fun r => (readNode (storeUndoH fxS1H).heap 3 r).map MindNode.content) = [some "B"] := by
    decide
  refine ⟨by decide, h2, by decide, h4, ?_, by decide⟩
  intro heq
  rw [heq, h2] at h4
  exact absurd h4 (by decide)

/-! ### Claim C4 — the level invariant over all reachable states

The development below establishes that every store state reachable from the
initialized store through the public commands satisfies the level/parent law
(`LevelInv`).  The road is: `Canon` (the flat list agrees, up to the structural view
`eraseP`, with the flattening of a well-formed tree) is preserved by every `Step`,
holds initially, and implies `LevelInv`. -/

theorem erasePList_eq_map : ∀ l : List MindNode, erasePList l = l.map eraseP
  | [] => rfl
  | c :: cs => by rw [erasePList, List.map_cons, erasePList_eq_map cs]

theorem eraseP_id (t : MindNode) : (eraseP t).id = t.id := by
  obtain ⟨d, cs⟩ := t
  rfl

theorem eraseP_level (t : MindNode) : (eraseP t).level = t.level := by
  obtain ⟨d, cs⟩ := t
  rfl

theorem eraseP_parent (t : MindNode) : (eraseP t).parent = t.parent := by
  obtain ⟨d, cs⟩ := t
  rfl

theorem eraseP_children (t : MindNode) : (eraseP t).children = t.children.map eraseP := by
  obtain ⟨d, cs⟩ := t
  rw [show (eraseP (MindNode.mk d cs)).children = erasePList cs from rfl,
    erasePList_eq_map]
  rfl

mutual

/-- Flattening commutes with the structural view. -/
theorem flattenNodes_eraseP : ∀ t : MindNode,
    flattenNodes (eraseP t) = (flattenNodes t).map eraseP
  | .mk d cs => by
    rw [flattenNodes_eq, List.map_cons, show eraseP (.mk d cs) = .mk
        { d with
          position := none
          content := ""
          style := {}
          expanded := true
          direction := none } (erasePList cs) from rfl,
      flattenNodes_eq, flattenList_eraseP cs]

/-- Forest form of `flattenNodes_eraseP`. -/
theorem flattenList_eraseP : ∀ l : List MindNode,
    flattenList (erasePList l) = (flattenList l).map eraseP
  | [] => rfl
  | c :: cs => by
    rw [erasePList, flattenList_cons, flattenList_cons, List.map_append,
      flattenNodes_eraseP c, flattenList_eraseP cs]

end

theorem treeIds_eraseP (t : MindNode) : treeIds (eraseP t) = treeIds t := by
  rw [treeIds, treeIds, flattenNodes_eraseP, List.map_map]
  exact List.map_congr_left (fun u _ => eraseP_id u)

/-- The structural view preserves child consistency in both directions. -/
theorem nodeChildOK_eraseP (u : MindNode) : nodeChildOK (eraseP u) ↔ nodeChildOK u := by
  rw [nodeChildOK, nodeChildOK, eraseP_children]
  constructor
  · intro h c hc
    have := h (eraseP c) (List.mem_map_of_mem eraseP hc)
    rwa [eraseP_level, eraseP_level, eraseP_parent, eraseP_id] at this
  · intro h c' hc'
    obtain ⟨c, hc, rfl⟩ := List.mem_map.1 hc'
    rw [eraseP_level, eraseP_level, eraseP_parent, eraseP_id]
    exact h c hc

/-- Well-formedness is a property of the structural view. -/
theorem TreeWF_eraseP (t : MindNode) : TreeWF (eraseP t) ↔ TreeWF t := by
  rw [TreeWF, TreeWF, eraseP_level, eraseP_parent, treeIds_eraseP, flattenNodes_eraseP]
  refine and_congr Iff.rfl (and_congr Iff.rfl (and_congr Iff.rfl ⟨?_, ?_⟩))
  · intro h u hu
    exact (nodeChildOK_eraseP u).1 (h (eraseP u) (List.mem_map_of_mem eraseP hu))
  · intro h u' hu'
    obtain ⟨u, hu, rfl⟩ := List.mem_map.1 hu'
    exact (nodeChildOK_eraseP u).2 (h u hu)

/-- Two trees with the same structural view are equi-well-formed and share root id,
level and parent. -/
theorem TreeWF_transfer {t1 t2 : MindNode} (h : eraseP t1 = eraseP t2) :
    (TreeWF t1 ↔ TreeWF t2) ∧ t1.id = t2.id ∧ t1.level = t2.level ∧
      t1.parent = t2.parent := by
  refine ⟨(TreeWF_eraseP t1).symm.trans (h ▸ TreeWF_eraseP t2), ?_, ?_, ?_⟩
  · rw [← eraseP_id t1, ← eraseP_id t2, h]
  · rw [← eraseP_level t1, ← eraseP_level t2, h]
  · rw [← eraseP_parent t1, ← eraseP_parent t2, h]

mutual

/-- In a child-consistent tree every node sits at least as deep as the root. -/
theorem level_le_tree : ∀ t : MindNode, (∀ w ∈ flattenNodes t, nodeChildOK w) →
    ∀ u ∈ flattenNodes t, t.level ≤ u.level
  | .mk d cs, hok, u => fun hu => by
    rw [flattenNodes_eq] at hu
    rcases List.mem_cons.1 hu with rfl | hmem
    · exact le_refl _
    · obtain ⟨c, hc, hcu⟩ := level_le_forest cs
        (fun w hw => hok w (by rw [flattenNodes_eq]; exact List.mem_cons_of_mem _ hw))
        u hmem
      have hroot := hok (.mk d cs) (self_mem_flattenNodes _) c hc
      have : (MindNode.mk d cs).level ≤ c.level := by rw [hroot.1]; omega
      exact this.trans hcu

/-- Forest form of `level_le_tree`: every node of the flattening sits at least as deep
as some root of the forest. -/
theorem level_le_forest : ∀ l : List MindNode, (∀ w ∈ flattenList l, nodeChildOK w) →
    ∀ u ∈ flattenList l, ∃ c ∈ l, c.level ≤ u.level
  | [], _, u => fun hu => absurd hu (List.not_mem_nil u)
  | c :: cs, hok, u => fun hu => by
    rw [flattenList_cons] at hu
    rcases List.mem_append.1 hu with h1 | h2
    · exact ⟨c, List.mem_cons_self _ _, level_le_tree c
        (fun w hw => hok w (by rw [flattenList_cons]; exact List.mem_append_left _ hw))
        u h1⟩
    · obtain ⟨c', hc', hle⟩ := level_le_forest cs
        (fun w hw => hok w (by rw [flattenList_cons]; exact List.mem_append_right _ hw))
        u h2
      exact ⟨c', List.mem_cons_of_mem _ hc', hle⟩

end

/-- Below the root of a well-formed tree every node has level strictly above the
root's. -/
theorem level_pos_below (t : MindNode) (hok : ∀ w ∈ flattenNodes t, nodeChildOK w) :
    ∀ u ∈ flattenList t.children, t.level + 1 ≤ u.level := by
  intro u hu
  obtain ⟨c, hc, hle⟩ := level_le_forest t.children
    (fun w hw => hok w (by
      obtain ⟨d, cs⟩ := t
      rw [flattenNodes_eq]
      exact List.mem_cons_of_mem _ hw)) u hu
  have hroot := hok t (self_mem_flattenNodes t) c hc
  omega

mutual

/-- Every member of a flattening is the root or a child of another member. -/
theorem parent_exists_tree : ∀ t u : MindNode, u ∈ flattenNodes t →
    u = t ∨ ∃ w ∈ flattenNodes t, u ∈ w.children
  | .mk d cs, u => fun hu => by
    rw [flattenNodes_eq] at hu
    rcases List.mem_cons.1 hu with rfl | hmem
    · exact Or.inl rfl
    · rcases parent_exists_forest cs u hmem with ⟨c, hc, rfl⟩ | ⟨w, hw, huw⟩
      · exact Or.inr ⟨.mk d cs, self_mem_flattenNodes _, hc⟩
      · exact Or.inr ⟨w, by rw [flattenNodes_eq]; exact List.mem_cons_of_mem _ hw, huw⟩

/-- Forest form of `parent_exists_tree`. -/
theorem parent_exists_forest : ∀ (l : List MindNode) (u : MindNode), u ∈ flattenList l →
    (∃ c ∈ l, u = c) ∨ ∃ w ∈ flattenList l, u ∈ w.children
  | [], u => fun hu => absurd hu (List.not_mem_nil u)
  | c :: cs, u => fun hu => by
    rw [flattenList_cons] at hu
    rcases List.mem_append.1 hu with h1 | h2
    · rcases parent_exists_tree c u h1 with rfl | ⟨w, hw, huw⟩
      · exact Or.inl ⟨u, List.mem_cons_self _ _, rfl⟩
      · exact Or.inr ⟨w, by rw [flattenList_cons]; exact List.mem_append_left _ hw, huw⟩
    · rcases parent_exists_forest cs u h2 with ⟨c', hc', rfl⟩ | ⟨w, hw, huw⟩
      · exact Or.inl ⟨u, List.mem_cons_of_mem _ hc', rfl⟩
      · exact Or.inr ⟨w, by rw [flattenList_cons]; exact List.mem_append_right _ hw, huw⟩

end

/-- The flattening of a well-formed tree satisfies the level/parent law. -/
theorem LevelInv_flatten (t : MindNode) (hwf : TreeWF t) : LevelInv (flattenNodes t) := by
  obtain ⟨hlv, hpar, hnd, hok⟩ := hwf
  have hbelow := level_pos_below t hok
  have hflat : flattenNodes t = t :: flattenList t.children := by
    obtain ⟨d, cs⟩ := t
    rw [flattenNodes_eq]
    rfl
  refine ⟨?_, ?_, ?_⟩
  · rw [hflat, List.filter_cons, if_pos (by simpa using hlv)]
    rw [List.filter_eq_nil_iff.2 (fun u hu hp => by
      have h1 := hbelow u hu
      have h2 : u.level = 0 := by simpa using hp
      omega)]
    rfl
  · intro n hn hn0
    rw [hflat] at hn
    rcases List.mem_cons.1 hn with rfl | hmem
    · exact hpar
    · have := hbelow n hmem
      omega
  · intro n hn hn0
    rcases parent_exists_tree t n hn with rfl | ⟨w, hw, hnw⟩
    · exact absurd hlv hn0
    · have hcw := hok w hw n hnw
      exact ⟨w, hw, hcw.2, hcw.1⟩

/-- The level/parent law is a property of the structural view of the list. -/
theorem LevelInv_transfer {l l' : List MindNode} (h : l.map eraseP = l'.map eraseP)
    (hli : LevelInv l') : LevelInv l := by
  obtain ⟨h1, h2, h3⟩ := hli
  have hmem : ∀ n ∈ l, ∃ u ∈ l', eraseP n = eraseP u := by
    intro n hn
    have : eraseP n ∈ l'.map eraseP := by
      rw [← h]
      exact List.mem_map_of_mem eraseP hn
    obtain ⟨u, hu, he⟩ := List.mem_map.1 this
    exact ⟨u, hu, he.symm⟩
  have hmem' : ∀ u ∈ l', ∃ n ∈ l, eraseP n = eraseP u := by
    intro u hu
    have : eraseP u ∈ l.map eraseP := by
      rw [h]
      exact List.mem_map_of_mem eraseP hu
    obtain ⟨n, hn, he⟩ := List.mem_map.1 this
    exact ⟨n, hn, he⟩
  have hfilter : ∀ m : List MindNode,
      (m.filter (fun n => n.level = 0)).length =
        ((m.map eraseP).filter (fun n => n.level = 0)).length := by
    intro m
    rw [List.filter_map, List.length_map]
    congr 1
    exact List.filter_congr (fun n _ => by
      show decide (n.level = 0) = decide ((eraseP n).level = 0)
      rw [eraseP_level])
  refine ⟨?_, ?_, ?_⟩
  · rw [hfilter l, h, ← hfilter l']
    exact h1
  · intro n hn hn0
    obtain ⟨u, hu, he⟩ := hmem n hn
    obtain ⟨-, -, hlv, hp⟩ := TreeWF_transfer he
    rw [hp]
    exact h2 u hu (by rw [← hlv]; exact hn0)
  · intro n hn hn0
    obtain ⟨u, hu, he⟩ := hmem n hn
    obtain ⟨-, hid, hlv, hp⟩ := TreeWF_transfer he
    obtain ⟨p, hpmem, hpp, hpl⟩ := h3 u hu (by rw [← hlv]; exact hn0)
    obtain ⟨pn, hpn, hpe⟩ := hmem' p hpmem
    obtain ⟨-, hpid, hplv, -⟩ := TreeWF_transfer hpe
    refine ⟨pn, hpn, ?_, ?_⟩
    · rw [hp, hpp, hpid]
    · rw [hlv, hpl, hplv]

/-- A canonical list satisfies the level/parent law. -/
theorem LevelInv_of_Canon {l : List MindNode} (h : Canon l) : LevelInv l := by
  obtain ⟨tr, hwf, hmap⟩ := h
  exact LevelInv_transfer hmap (LevelInv_flatten tr hwf)

theorem erasePList_cons (c : MindNode) (cs : List MindNode) :
    erasePList (c :: cs) = eraseP c :: erasePList cs := rfl

/-- Structural views agree when id, level, parent and the children views agree. -/
theorem eraseP_mk_eq {d1 d2 : NodeData} {cs1 cs2 : List MindNode}
    (hid : d1.id = d2.id) (hlv : d1.level = d2.level) (hp : d1.parent = d2.parent)
    (hcs : erasePList cs1 = erasePList cs2) :
    eraseP (.mk d1 cs1) = eraseP (.mk d2 cs2) := by
  show MindNode.mk
      { d1 with
        position := none
        content := ""
        style := {}
        expanded := true
        direction := none } (erasePList cs1) = MindNode.mk
      { d2 with
        position := none
        content := ""
        style := {}
        expanded := true
        direction := none } (erasePList cs2)
  rw [hcs, hid, hlv, hp]

mutual

/-- The placement pass only writes position fields: the structural view is unchanged. -/
theorem setPositions_eraseP : ∀ (cfg : LayoutConfig) (m : BMap) (t : MindNode) (x y : ℚ),
    eraseP (setPositions cfg m t x y) = eraseP t
  | cfg, m, .mk d cs, x, y => by
    simp only [setPositions]
    split
    · exact eraseP_mk_eq rfl rfl rfl rfl
    · exact eraseP_mk_eq rfl rfl rfl (setPositionsList_eraseP cfg m _ _ cs _)

/-- Forest form of `setPositions_eraseP`. -/
theorem setPositionsList_eraseP : ∀ (cfg : LayoutConfig) (m : BMap) (useLeft : Bool)
    (offsetX : ℚ) (l : List MindNode) (startY : ℚ),
    erasePList (setPositionsList cfg m useLeft offsetX l startY) = erasePList l
  | cfg, m, useLeft, offsetX, [], startY => rfl
  | cfg, m, useLeft, offsetX, c :: cs, startY => by
    simp only [setPositionsList]
    split <;> split <;>
      first
        | rw [erasePList_cons, erasePList_cons, setPositions_eraseP cfg m c _ _,
            setPositionsList_eraseP cfg m useLeft offsetX cs _]
        | rw [erasePList_cons, erasePList_cons,
            setPositionsList_eraseP cfg m useLeft offsetX cs _]

end

/-- The two-pass layout only writes position fields. -/
theorem calculateMindMapLayout_eraseP (t : MindNode) (cfg : LayoutConfig) :
    eraseP (calculateMindMapLayout t cfg) = eraseP t := by
  simp only [calculateMindMapLayout]
  exact setPositions_eraseP cfg _ t 0 0

/-- On a list headed by a well-formed level-0 tree, the relayout step recomputes the
flat list as the flattening of the laid-out head, and the result is canonical. -/
theorem reflatten_canon (t0 : MindNode) (rest : List MindNode)
    (hl : t0.level = 0) (hwf : TreeWF t0) :
    reflatten (t0 :: rest) = flattenNodes (calculateMindMapLayout t0) ∧
      Canon (reflatten (t0 :: rest)) := by
  have hre : reflatten (t0 :: rest) = flattenNodes (calculateMindMapLayout t0) := by
    simp only [reflatten]
    rw [List.find?_cons_of_pos _ (by simpa using hl)]
    show (match findNodeById (t0 :: rest) t0.id with
      | none => t0 :: rest
      | some r => flattenNodes (calculateMindMapLayout r)) = _
    rw [findNodeById, findNodeTree_self t0 t0.id rfl]
  refine ⟨hre, t0, hwf, ?_⟩
  rw [hre, ← flattenNodes_eraseP, ← flattenNodes_eraseP, calculateMindMapLayout_eraseP]

theorem flattenNodes_self_cons (t : MindNode) :
    flattenNodes t = t :: flattenList t.children := by
  obtain ⟨d, cs⟩ := t
  rw [flattenNodes_eq]
  rfl

/-- Decomposition of a canonical list: it is headed by a well-formed level-0 tree, and
its structural image is exactly the flattening of that head. -/
theorem canon_dec {l : List MindNode} (h : Canon l) :
    ∃ h0 rest, l = h0 :: rest ∧ TreeWF h0 ∧ h0.level = 0 ∧
      l.map eraseP = (flattenNodes h0).map eraseP := by
  obtain ⟨tr, hwf, hmap⟩ := h
  rw [flattenNodes_self_cons, List.map_cons] at hmap
  cases l with
  | nil => exact absurd hmap (by simp)
  | cons h0 rest =>
    rw [List.map_cons] at hmap
    obtain ⟨he, h2⟩ := List.cons_eq_cons.1 hmap
    obtain ⟨hiff, -, hlv, -⟩ := TreeWF_transfer he
    refine ⟨h0, rest, rfl, hiff.2 hwf, by rw [hlv, hwf.1], ?_⟩
    rw [List.map_cons, ← flattenNodes_eraseP, he, flattenNodes_eraseP,
      flattenNodes_self_cons, List.map_cons]
    exact List.cons_eq_cons.2 ⟨rfl, h2⟩

/-- A first-match search whose predicate only reads the structural view transfers along
equal images. -/
theorem find?_map_transfer {l l' : List MindNode} (p : MindNode → Bool)
    (q : MindNode → Bool) (hpq : ∀ n, p n = q (eraseP n))
    (h : l.map eraseP = l'.map eraseP) :
    (l.find? p).map eraseP = (l'.find? p).map eraseP := by
  induction l generalizing l' with
  | nil =>
    cases l' with
    | nil => rfl
    | cons b bs => simp at h
  | cons a as ih =>
    cases l' with
    | nil => simp at h
    | cons b bs =>
      rw [List.map_cons, List.map_cons] at h
      obtain ⟨h1, h2⟩ := List.cons_eq_cons.1 h
      cases hq : p a with
      | true =>
        rw [List.find?_cons_of_pos _ hq,
          List.find?_cons_of_pos _ (by rw [hpq, ← h1, ← hpq]; exact hq)]
        show some (eraseP a) = some (eraseP b)
        rw [h1]
      | false =>
        rw [List.find?_cons_of_neg _ (by simp only [hq]; exact fun hc => Bool.noConfusion hc),
          List.find?_cons_of_neg _ (by
            rw [hpq, ← h1, ← hpq]
            simp only [hq]
            exact fun hc => Bool.noConfusion hc)]
        exact ih h2

/-- In a list with duplicate-free ids, the first entry carrying a member's id is that
member. -/
theorem find?_id_unique : ∀ (l : List MindNode) (u : MindNode),
    (l.map MindNode.id).Nodup → u ∈ l → l.find? (fun n => n.id = u.id) = some u := by
  intro l
  induction l with
  | nil => intro u _ hu; exact absurd hu (List.not_mem_nil u)
  | cons v vs ih =>
    intro u hnd hu
    rw [List.map_cons, List.nodup_cons] at hnd
    rcases List.mem_cons.1 hu with rfl | hmem
    · rw [List.find?_cons_of_pos _ (by simp)]
    · rw [List.find?_cons_of_neg _ (by
        simp only [decide_eq_true_eq]
        exact fun he => hnd.1 (he ▸ List.mem_map_of_mem _ hmem)), ih u hnd.2 hmem]

/-- In a list aligned with the flattening of a duplicate-free tree, looking up any
node's id finds an entry with that node's structural view. -/
theorem entry_lookup {l : List MindNode} {h0 : MindNode}
    (hmap : l.map eraseP = (flattenNodes h0).map eraseP)
    (hnd : (treeIds h0).Nodup) {u : MindNode} (hu : u ∈ flattenNodes h0) :
    ∃ e, l.find? (fun n => n.id = u.id) = some e ∧ eraseP e = eraseP u := by
  have hfind : (flattenNodes h0).find? (fun n => n.id = u.id) = some u :=
    find?_id_unique (flattenNodes h0) u hnd hu
  have htr := find?_map_transfer (fun n => n.id = u.id)
    (fun m => decide (m.id = u.id)) (fun n => by simp only [eraseP_id]) hmap
  rw [hfind] at htr
  cases hfe : l.find? (fun n => n.id = u.id) with
  | none => rw [hfe] at htr; exact absurd htr (by simp)
  | some e =>
    rw [hfe] at htr
    exact ⟨e, rfl, by simpa using htr⟩

/-- Equal structural images give equal top-level id sequences. -/
theorem map_id_of_map_eraseP {l l' : List MindNode} (h : l.map eraseP = l'.map eraseP) :
    l.map MindNode.id = l'.map MindNode.id := by
  have hmm : (l.map eraseP).map MindNode.id = (l'.map eraseP).map MindNode.id := by rw [h]
  rw [List.map_map, List.map_map] at hmm
  have hc : ∀ (m : List MindNode), m.map (MindNode.id ∘ eraseP) = m.map MindNode.id :=
    fun m => List.map_congr_left (fun n _ => eraseP_id n)
  rw [hc l, hc l'] at hmm
  exact hmm

mutual

/-- A rewrite that fixes the structural view leaves the view of the find-and-mutate
update unchanged. -/
theorem updateFirstTree_eraseP (i : String) (g : MindNode → MindNode)
    (hg : ∀ n, eraseP (g n) = eraseP n) : ∀ t : MindNode,
    eraseP (updateFirstTree t i g) = eraseP t
  | .mk d cs => by
    rw [updateFirstTree]
    split
    · exact hg _
    · exact eraseP_mk_eq rfl rfl rfl (updateFirstNode_erasePList i g hg cs)

/-- Forest form of `updateFirstTree_eraseP`. -/
theorem updateFirstNode_erasePList (i : String) (g : MindNode → MindNode)
    (hg : ∀ n, eraseP (g n) = eraseP n) : ∀ l : List MindNode,
    erasePList (updateFirstNode l i g) = erasePList l
  | [] => rfl
  | t :: rest => by
    rw [updateFirstNode]
    split
    · rw [erasePList_cons, erasePList_cons, updateFirstTree_eraseP i g hg t]
    · rw [erasePList_cons, erasePList_cons, updateFirstNode_erasePList i g hg rest]

end

theorem updateFirstNode_map_eraseP (l : List MindNode) (i : String)
    (g : MindNode → MindNode) (hg : ∀ n, eraseP (g n) = eraseP n) :
    (updateFirstNode l i g).map eraseP = l.map eraseP := by
  rw [← erasePList_eq_map, ← erasePList_eq_map, updateFirstNode_erasePList i g hg l]

/-- Top-entry form: a view-preserving rewrite of the first matching entry leaves the
list's view unchanged. -/
theorem updateFirstEntry_map_eraseP (i : String) (g : MindNode → MindNode)
    (hg : ∀ n, eraseP (g n) = eraseP n) : ∀ l : List MindNode,
    (updateFirstEntry l i g).map eraseP = l.map eraseP
  | [] => rfl
  | n :: rest => by
    rw [updateFirstEntry]
    split
    · rw [List.map_cons, List.map_cons, hg n]
    · rw [List.map_cons, List.map_cons, updateFirstEntry_map_eraseP i g hg rest]

theorem Canon_of_map_eq {l l' : List MindNode} (h : l'.map eraseP = l.map eraseP)
    (hc : Canon l) : Canon l' := by
  obtain ⟨tr, hwf, hm⟩ := hc
  exact ⟨tr, hwf, h.trans hm⟩

/-- A data rewrite fixing id, level and parent fixes the structural view. -/
theorem eraseP_modData (n : MindNode) (f : NodeData → NodeData)
    (hid : ∀ d : NodeData, (f d).id = d.id) (hlv : ∀ d : NodeData, (f d).level = d.level)
    (hp : ∀ d : NodeData, (f d).parent = d.parent) :
    eraseP (n.modData f) = eraseP n := by
  obtain ⟨d, cs⟩ := n
  exact eraseP_mk_eq (hid d) (hlv d) (hp d) rfl

/-- The relayout at the end of every history-tracked operation restores canonicity from
the head tree alone. -/
theorem reflatten_Canon_of_head {l : List MindNode}
    (h : ∃ t0 rest, l = t0 :: rest ∧ TreeWF t0 ∧ t0.level = 0) :
    Canon (reflatten l) := by
  obtain ⟨t0, rest, rfl, hwf, hl0⟩ := h
  exact (reflatten_canon t0 rest hl0 hwf).2

/-- A canonical list is headed by a well-formed level-0 tree. -/
theorem head_of_Canon {l : List MindNode} (h : Canon l) :
    ∃ t0 rest, l = t0 :: rest ∧ TreeWF t0 ∧ t0.level = 0 := by
  obtain ⟨h0, rest, heq, hwf, hl0, -⟩ := canon_dec h
  exact ⟨h0, rest, heq, hwf, hl0⟩

/-- The state produced by `executeWithHistory` keeps the store invariant as soon as the
mutated list is headed by a well-formed level-0 tree. -/
theorem executeWithHistory_InvS (s : StoreState)
    (op : List MindNode × List Relationship → List MindNode × List Relationship)
    (hi : InvS s)
    (hop : ∃ t0 rest, (op (s.nodes, s.relationships)).1 = t0 :: rest ∧
      TreeWF t0 ∧ t0.level = 0) :
    InvS (executeWithHistory s op) := by
  obtain ⟨hc, hu, hr⟩ := hi
  refine ⟨?_, ?_, ?_⟩
  · show Canon (reflatten (op (s.nodes, s.relationships)).1)
    exact reflatten_Canon_of_head hop
  · intro p hp
    rcases List.mem_append.1 hp with h1 | h2
    · exact hu p h1
    · rw [List.mem_singleton] at h2
      rw [h2]
      exact hc
  · intro p hp
    exact absurd hp (List.not_mem_nil p)

theorem treeIds_self_cons (t : MindNode) : treeIds t = t.id :: forestIds t.children := by
  obtain ⟨d, cs⟩ := t
  rw [treeIds_eq]
  rfl

theorem forestIds_append (a b : List MindNode) :
    forestIds (a ++ b) = forestIds a ++ forestIds b := by
  induction a with
  | nil => rfl
  | cons c cs ih =>
    rw [List.cons_append, forestIds_cons, forestIds_cons, ih, List.append_assoc]

/-- Membership in a flattened forest decomposes through the trees. -/
theorem mem_flattenList_iff : ∀ (l : List MindNode) (u : MindNode),
    u ∈ flattenList l ↔ ∃ c ∈ l, u ∈ flattenNodes c := by
  intro l
  induction l with
  | nil => intro u; rw [flattenList_nil]; simp
  | cons c cs ih =>
    intro u
    rw [flattenList_cons, List.mem_append]
    constructor
    · rintro (h | h)
      · exact ⟨c, List.mem_cons_self _ _, h⟩
      · obtain ⟨c', hc', hu⟩ := (ih u).1 h
        exact ⟨c', List.mem_cons_of_mem _ hc', hu⟩
    · rintro ⟨c', hc', hu⟩
      rcases List.mem_cons.1 hc' with rfl | hmem
      · exact Or.inl hu
      · exact Or.inr ((ih u).2 ⟨c', hmem, hu⟩)

theorem mem_spliceAt {x a : α} : ∀ {n : ℕ} {l : List α},
    x ∈ spliceAt n a l → x = a ∨ x ∈ l := by
  intro n l
  induction l generalizing n with
  | nil =>
    intro h
    rw [spliceAt] at h
    exact Or.inl (List.mem_singleton.1 h)
  | cons y ys ih =>
    intro h
    match n with
    | 0 =>
      rw [spliceAt] at h
      rcases List.mem_cons.1 h with rfl | h2
      · exact Or.inl rfl
      · exact Or.inr h2
    | m + 1 =>
      rw [spliceAt] at h
      rcases List.mem_cons.1 h with rfl | h2
      · exact Or.inr (List.mem_cons_self _ _)
      · rcases ih h2 with h3 | h3
        · exact Or.inl h3
        · exact Or.inr (List.mem_cons_of_mem _ h3)

theorem forestIds_spliceAt (a : MindNode) : ∀ (n : ℕ) (l : List MindNode),
    List.Perm (forestIds (spliceAt n a l)) (treeIds a ++ forestIds l) := by
  intro n l
  induction l generalizing n with
  | nil =>
    rw [spliceAt, forestIds_cons, forestIds_nil]
  | cons y ys ih =>
    match n with
    | 0 =>
      rw [spliceAt, forestIds_cons]
    | m + 1 =>
      rw [spliceAt, forestIds_cons, forestIds_cons]
      refine List.Perm.trans (List.Perm.append_left _ (ih m)) ?_
      rw [← List.append_assoc, ← List.append_assoc]
      exact List.Perm.append_right _ (List.perm_append_comm)

theorem subperm_nodup {l1 l2 : List α} (h : List.Subperm l1 l2) (hn : l2.Nodup) :
    l1.Nodup := by
  obtain ⟨l, hp, hs⟩ := h
  exact hp.nodup_iff.1 (hn.sublist hs)

theorem subperm_cons_both (a : α) {l1 l2 : List α} (h : List.Subperm l1 l2) :
    List.Subperm (a :: l1) (a :: l2) := by
  obtain ⟨l, hp, hs⟩ := h
  exact ⟨a :: l, hp.cons a, hs.cons₂ a⟩

mutual

/-- A present id is found. -/
theorem findNodeTree_isSome_of_mem : ∀ (t : MindNode) (i : String),
    i ∈ treeIds t → (findNodeTree t i).isSome = true
  | .mk d cs, i => fun h => by
    rw [treeIds_eq] at h
    rw [findNodeTree]
    by_cases hd : d.id = i
    · rw [if_pos hd]
      rfl
    · rw [if_neg hd]
      exact findNodeById_isSome_of_mem cs i (by
        rcases List.mem_cons.1 h with h1 | h2
        · exact absurd h1.symm hd
        · exact h2)

/-- Forest form of `findNodeTree_isSome_of_mem`. -/
theorem findNodeById_isSome_of_mem : ∀ (l : List MindNode) (i : String),
    i ∈ forestIds l → (findNodeById l i).isSome = true
  | [], i => fun h => absurd h (List.not_mem_nil i)
  | t :: rest, i => fun h => by
    rw [forestIds_cons] at h
    rw [findNodeById]
    cases hft : findNodeTree t i with
    | some r => rfl
    | none =>
      rcases List.mem_append.1 h with h1 | h2
      · have := findNodeTree_isSome_of_mem t i h1
        rw [hft] at this
        exact absurd this (by simp)
      · exact findNodeById_isSome_of_mem rest i h2

end

/-- An insertion-shaped rewrite keeps the root's identification fields. -/
theorem updateFirstTree_root_fields (i newId : String) (g : MindNode → MindNode)
    (t : MindNode) (hg : ∀ q ∈ flattenNodes t, q.id = i → InsOK i newId g q) :
    (updateFirstTree t i g).id = t.id ∧ (updateFirstTree t i g).level = t.level ∧
      (updateFirstTree t i g).parent = t.parent := by
  obtain ⟨d, cs⟩ := t
  rw [updateFirstTree]
  by_cases hd : d.id = i
  · rw [if_pos hd]
    have hq := hg (.mk d cs) (self_mem_flattenNodes _) hd
    exact ⟨hq.1, hq.2.1, hq.2.2.1⟩
  · rw [if_neg hd]
    exact ⟨rfl, rfl, rfl⟩

/-- An insertion-shaped rewrite of a forest keeps every root's identification fields. -/
theorem updateFirstNode_root_fields (i newId : String) (g : MindNode → MindNode) :
    ∀ l : List MindNode, (∀ q ∈ flattenList l, q.id = i → InsOK i newId g q) →
    ∀ c' ∈ updateFirstNode l i g, ∃ c ∈ l, c'.id = c.id ∧ c'.level = c.level ∧
      c'.parent = c.parent := by
  intro l
  induction l with
  | nil =>
    intro _ c' hc'
    exact absurd hc' (List.not_mem_nil c')
  | cons t rest ih =>
    intro hg c' hc'
    rw [updateFirstNode] at hc'
    split at hc'
    · rcases List.mem_cons.1 hc' with rfl | hmem
      · obtain ⟨h1, h2, h3⟩ := updateFirstTree_root_fields i newId g t
          (fun q hq hqi => hg q (by
            rw [flattenList_cons]
            exact List.mem_append_left _ hq) hqi)
        exact ⟨t, List.mem_cons_self _ _, h1, h2, h3⟩
      · exact ⟨c', List.mem_cons_of_mem _ hmem, rfl, rfl, rfl⟩
    · rcases List.mem_cons.1 hc' with rfl | hmem
      · exact ⟨c', List.mem_cons_self _ _, rfl, rfl, rfl⟩
      · obtain ⟨c, hc, hf⟩ := ih (fun q hq hqi => hg q (by
          rw [flattenList_cons]
          exact List.mem_append_right _ hq) hqi) c' hmem
        exact ⟨c, List.mem_cons_of_mem _ hc, hf⟩

mutual

/-- An insertion-shaped rewrite adds at most the fresh id to the id multiset. -/
theorem updateFirstTree_ids_subperm (i newId : String) (g : MindNode → MindNode) :
    ∀ t : MindNode, (∀ q ∈ flattenNodes t, q.id = i → InsOK i newId g q) →
    List.Subperm (treeIds (updateFirstTree t i g)) (newId :: treeIds t)
  | .mk d cs => fun hg => by
    rw [updateFirstTree]
    by_cases hd : d.id = i
    · rw [if_pos hd]
      have hq := hg (.mk d cs) (self_mem_flattenNodes _) hd
      rw [treeIds_self_cons, hq.1, treeIds_eq]
      exact List.Subperm.trans (subperm_cons_both _ hq.2.2.2.2)
        ((List.Perm.swap newId d.id (forestIds cs)).subperm)
    · rw [if_neg hd, treeIds_eq, treeIds_eq]
      refine List.Subperm.trans (subperm_cons_both d.id
        (updateFirstNode_ids_subperm i newId g cs (fun q hq hqi => hg q (by
          rw [flattenNodes_eq]
          exact List.mem_cons_of_mem _ hq) hqi))) ?_
      exact (List.Perm.swap newId d.id (forestIds cs)).subperm

/-- Forest form of `updateFirstTree_ids_subperm`. -/
theorem updateFirstNode_ids_subperm (i newId : String) (g : MindNode → MindNode) :
    ∀ l : List MindNode, (∀ q ∈ flattenList l, q.id = i → InsOK i newId g q) →
    List.Subperm (forestIds (updateFirstNode l i g)) (newId :: forestIds l)
  | [] => fun _ => (List.nil_sublist _).subperm
  | t :: rest => fun hg => by
    rw [updateFirstNode]
    split
    · rw [forestIds_cons, forestIds_cons]
      have h1 := updateFirstTree_ids_subperm i newId g t (fun q hq hqi => hg q (by
        rw [flattenList_cons]
        exact List.mem_append_left _ hq) hqi)
      exact ((List.subperm_append_right (forestIds rest)).2 h1 :
        List.Subperm _ ((newId :: treeIds t) ++ forestIds rest))
    · rw [forestIds_cons, forestIds_cons]
      have h1 := updateFirstNode_ids_subperm i newId g rest (fun q hq hqi => hg q (by
        rw [flattenList_cons]
        exact List.mem_append_right _ hq) hqi)
      refine List.Subperm.trans ((List.subperm_append_left (treeIds t)).2 h1) ?_
      exact (List.perm_middle).subperm

end

mutual

/-- An insertion-shaped rewrite keeps every node child-consistent. -/
theorem updateFirstTree_ok (i newId : String) (g : MindNode → MindNode) :
    ∀ t : MindNode, (∀ q ∈ flattenNodes t, q.id = i → InsOK i newId g q) →
    (∀ u ∈ flattenNodes t, nodeChildOK u) →
    ∀ u ∈ flattenNodes (updateFirstTree t i g), nodeChildOK u
  | .mk d cs => fun hg hok => by
    rw [updateFirstTree]
    by_cases hd : d.id = i
    · rw [if_pos hd]
      intro u hu
      have hq := hg (.mk d cs) (self_mem_flattenNodes _) hd
      rw [flattenNodes_self_cons] at hu
      rcases List.mem_cons.1 hu with rfl | hmem
      · intro c hc
        rcases hq.2.2.2.1 c hc with hold | hnew
        · have hco := hok (.mk d cs) (self_mem_flattenNodes _) c hold
          rw [hq.2.1, hq.1]
          exact hco
        · rw [hq.2.1, hq.1]
          exact ⟨hnew.2.1, hnew.2.2.1⟩
      · obtain ⟨c, hc, hu2⟩ := (mem_flattenList_iff _ u).1 hmem
        rcases hq.2.2.2.1 c hc with hold | hnew
        · exact hok u (by
            rw [flattenNodes_self_cons]
            exact List.mem_cons_of_mem _ ((mem_flattenList_iff _ u).2 ⟨c, hold, hu2⟩))
        · have hcflat : flattenNodes c = [c] := by
            rw [flattenNodes_self_cons, hnew.1]
            rfl
          rw [hcflat] at hu2
          have hub : u = c := List.mem_singleton.1 hu2
          subst hub
          intro c' hc'
          rw [hnew.1] at hc'
          exact absurd hc' (List.not_mem_nil c')
    · rw [if_neg hd]
      intro u hu
      rw [flattenNodes_eq] at hu
      rcases List.mem_cons.1 hu with rfl | hmem
      · intro c' hc'
        obtain ⟨c, hc, hid2, hlv2, hp2⟩ := updateFirstNode_root_fields i newId g cs
          (fun q hq hqi => hg q (by
            rw [flattenNodes_eq]
            exact List.mem_cons_of_mem _ hq) hqi) c' hc'
        have hco := hok (.mk d cs) (self_mem_flattenNodes _) c hc
        exact ⟨by rw [hlv2]; exact hco.1, by rw [hp2]; exact hco.2⟩
      · exact updateFirstNode_ok i newId g cs
          (fun q hq hqi => hg q (by
            rw [flattenNodes_eq]
            exact List.mem_cons_of_mem _ hq) hqi)
          (fun w hw => hok w (by
            rw [flattenNodes_eq]
            exact List.mem_cons_of_mem _ hw))
          u hmem

/-- Forest form of `updateFirstTree_ok`. -/
theorem updateFirstNode_ok (i newId : String) (g : MindNode → MindNode) :
    ∀ l : List MindNode, (∀ q ∈ flattenList l, q.id = i → InsOK i newId g q) →
    (∀ u ∈ flattenList l, nodeChildOK u) →
    ∀ u ∈ flattenList (updateFirstNode l i g), nodeChildOK u
  | [] => fun _ _ u hu => absurd hu (List.not_mem_nil u)
  | t :: rest => fun hg hok u hu => by
    rw [updateFirstNode] at hu
    split at hu
    · rw [flattenList_cons] at hu
      rcases List.mem_append.1 hu with h1 | h2
      · exact updateFirstTree_ok i newId g t
          (fun q hq hqi => hg q (by
            rw [flattenList_cons]
            exact List.mem_append_left _ hq) hqi)
          (fun w hw => hok w (by
            rw [flattenList_cons]
            exact List.mem_append_left _ hw))
          u h1
      · exact hok u (by
          rw [flattenList_cons]
          exact List.mem_append_right _ h2)
    · rw [flattenList_cons] at hu
      rcases List.mem_append.1 hu with h1 | h2
      · exact hok u (by
          rw [flattenList_cons]
          exact List.mem_append_left _ h1)
      · exact updateFirstNode_ok i newId g rest
          (fun q hq hqi => hg q (by
            rw [flattenList_cons]
            exact List.mem_append_right _ hq) hqi)
          (fun w hw => hok w (by
            rw [flattenList_cons]
            exact List.mem_append_right _ hw))
          u h2

end

/-- An insertion-shaped rewrite of a well-formed tree with a fresh id yields a
well-formed tree with the same root level. -/
theorem updateFirstTree_TreeWF (i newId : String) (g : MindNode → MindNode)
    (t : MindNode) (hg : ∀ q ∈ flattenNodes t, q.id = i → InsOK i newId g q)
    (hwf : TreeWF t) (hfresh : newId ∉ treeIds t) :
    TreeWF (updateFirstTree t i g) ∧ (updateFirstTree t i g).level = t.level := by
  obtain ⟨hlv, hpar, hnd, hok⟩ := hwf
  obtain ⟨hid', hlv', hpar'⟩ := updateFirstTree_root_fields i newId g t hg
  refine ⟨⟨by rw [hlv']; exact hlv, by rw [hpar']; exact hpar, ?_, ?_⟩, hlv'⟩
  · exact subperm_nodup (updateFirstTree_ids_subperm i newId g t hg)
      (List.nodup_cons.2 ⟨hfresh, hnd⟩)
  · exact updateFirstTree_ok i newId g t hg hok

/-- Every id occurring anywhere inside the stale tail entries of a canonical list
already occurs in the head tree. -/
theorem canon_rest_ids {rest : List MindNode} {h0 : MindNode}
    (hmap : rest.map eraseP = (flattenList h0.children).map eraseP) :
    ∀ x ∈ forestIds rest, x ∈ treeIds h0 := by
  intro x hx
  obtain ⟨u, hu, rfl⟩ := List.mem_map.1 hx
  obtain ⟨c, hc, hu2⟩ := (mem_flattenList_iff rest u).1 hu
  have hce : eraseP c ∈ (flattenList h0.children).map eraseP := by
    rw [← hmap]
    exact List.mem_map_of_mem eraseP hc
  obtain ⟨v, hv, hev⟩ := List.mem_map.1 hce
  have hids : treeIds c = treeIds v := by
    rw [← treeIds_eraseP c, ← treeIds_eraseP v, hev]
  have hin : u.id ∈ treeIds c := List.mem_map_of_mem MindNode.id hu2
  rw [hids] at hin
  have hsub : flattenNodes v ⊆ flattenNodes h0 := by
    intro y hy
    rw [flattenNodes_self_cons h0]
    exact List.mem_cons_of_mem _ (flatten_sub_forest h0.children v hv hy)
  obtain ⟨w, hw, hwid⟩ := List.mem_map.1 hin
  exact hwid ▸ List.mem_map_of_mem MindNode.id (hsub hw)

/-- A node whose parent field names `pid` sits one level below every `pid`-named node
of the same well-formed tree. -/
theorem sibling_level {h0 s : MindNode} {pid : String} (hwf : TreeWF h0)
    (hs : s ∈ flattenNodes h0) (hp : s.parent = some pid) :
    ∀ q ∈ flattenNodes h0, q.id = pid → s.level = q.level + 1 := by
  obtain ⟨hlv, hpar, hnd, hok⟩ := hwf
  intro q hq hqi
  rcases parent_exists_tree h0 s hs with rfl | ⟨w, hw, hsw⟩
  · rw [hpar] at hp
    exact Option.noConfusion hp
  · have hcw := hok w hw s hsw
    have hwid : w.id = pid := by
      rw [hcw.2] at hp
      exact Option.some.inj hp
    have hqw : q = w := List.inj_on_of_nodup_map hnd hq hw (by rw [hqi, hwid])
    rw [hqw]
    exact hcw.1

/-- The rewrite performed by `addChildNode` at the parent has the insertion shape. -/
theorem addChild_f_InsOK (parentId content newId : String) (h0 : MindNode) :
    ∀ q ∈ flattenNodes h0, q.id = parentId →
      InsOK parentId newId (fun p =>
        let newNode := createNode content newId (some parentId) (p.level + 1)
          (p.direction.getD .right)
        .mk { p.data with expanded := true } (p.children ++ [newNode])) q := by
  intro q hq hqi
  rw [InsOK]
  refine ⟨rfl, rfl, rfl, ?_, ?_⟩
  · intro c hc
    rcases List.mem_append.1 hc with hold | hnew
    · exact Or.inl hold
    · right
      have hce : c = createNode content newId (some parentId) (q.level + 1)
          (q.direction.getD .right) := List.mem_singleton.1 hnew
      subst hce
      exact ⟨rfl, rfl, by rw [hqi]; rfl, rfl⟩
  · show List.Subperm (forestIds (q.children ++
      [createNode content newId (some parentId) (q.level + 1) (q.direction.getD .right)]))
      (newId :: forestIds q.children)
    rw [forestIds_append, forestIds_cons, forestIds_nil, List.append_nil]
    exact (List.perm_append_singleton newId (forestIds q.children)).subperm

/-- `addChild` on a canonical list with a fresh id keeps a well-formed level-0 head. -/
theorem addChildNode_head {l : List MindNode} (hc : Canon l)
    (pid content newId : String) (hfresh : newId ∉ forestIds l) :
    ∃ t0 rest, addChildNode l pid content newId = t0 :: rest ∧ TreeWF t0 ∧
      t0.level = 0 := by
  obtain ⟨h0, rest0, rfl, hwf, hl0, hmap⟩ := canon_dec hc
  have hfresh0 : newId ∉ treeIds h0 := fun hmem =>
    hfresh (by rw [forestIds_cons]; exact List.mem_append_left _ hmem)
  rw [addChildNode, updateFirstNode]
  split
  · have hres := updateFirstTree_TreeWF pid newId _ h0
      (addChild_f_InsOK pid content newId h0) hwf hfresh0
    exact ⟨_, rest0, rfl, hres.1, by rw [hres.2]; exact hl0⟩
  · exact ⟨h0, _, rfl, hwf, hl0⟩

/-- The rewrite performed by `addSiblingNodeFunc` at the parent has the insertion
shape, provided the located sibling indeed sits one level below each `pid`-named
node. -/
theorem addSibling_f_InsOK (sid content newId pid : String) (s : MindNode)
    (h0 : MindNode)
    (hlev : ∀ q ∈ flattenNodes h0, q.id = pid → s.level = q.level + 1) :
    ∀ q ∈ flattenNodes h0, q.id = pid →
      InsOK pid newId (fun p =>
        let newNode := createNode content newId (some p.id) s.level
          (s.direction.getD .right)
        match p.children.findIdx? (fun c => c.id = sid) with
        | some i => .mk p.data (spliceAt (i + 1) newNode p.children)
        | none => .mk p.data (p.children ++ [newNode])) q := by
  intro q hq hqi
  have hlevq : s.level = q.level + 1 := hlev q hq hqi
  rw [InsOK]
  cases hidx : q.children.findIdx? (fun c => c.id = sid) with
  | some k =>
    refine ⟨rfl, rfl, rfl, ?_, ?_⟩
    · intro c hc
      rcases mem_spliceAt (show c ∈ spliceAt (k + 1) (createNode content newId
        (some q.id) s.level (s.direction.getD .right)) q.children from hc) with hnew | hold
      · right
        subst hnew
        exact ⟨rfl, hlevq, rfl, rfl⟩
      · exact Or.inl hold
    · show List.Subperm (forestIds (spliceAt (k + 1) (createNode content newId
        (some q.id) s.level (s.direction.getD .right)) q.children))
        (newId :: forestIds q.children)
      exact (forestIds_spliceAt _ (k + 1) q.children).subperm
  | none =>
    refine ⟨rfl, rfl, rfl, ?_, ?_⟩
    · intro c hc
      rcases List.mem_append.1 (show c ∈ q.children ++ [createNode content newId
        (some q.id) s.level (s.direction.getD .right)] from hc) with hold | hnew
      · exact Or.inl hold
      · right
        have hce := List.mem_singleton.1 hnew
        subst hce
        exact ⟨rfl, hlevq, rfl, rfl⟩
    · show List.Subperm (forestIds (q.children ++ [createNode content newId
        (some q.id) s.level (s.direction.getD .right)]))
        (newId :: forestIds q.children)
      rw [forestIds_append, forestIds_cons, forestIds_nil, List.append_nil]
      exact (List.perm_append_singleton newId (forestIds q.children)).subperm

/-- `addSibling` on a canonical list with a fresh id keeps a well-formed level-0
head. -/
theorem addSiblingNodeFunc_head {l : List MindNode} (hc : Canon l)
    (sid content newId : String) (hfresh : newId ∉ forestIds l) :
    ∃ t0 rest, addSiblingNodeFunc l sid content newId = t0 :: rest ∧ TreeWF t0 ∧
      t0.level = 0 := by
  obtain ⟨h0, rest0, rfl, hwf, hl0, hmap⟩ := canon_dec hc
  have hfresh0 : newId ∉ treeIds h0 := fun hmem =>
    hfresh (by rw [forestIds_cons]; exact List.mem_append_left _ hmem)
  have hmaprest : rest0.map eraseP = (flattenList h0.children).map eraseP := by
    rw [flattenNodes_self_cons, List.map_cons, List.map_cons] at hmap
    exact (List.cons_eq_cons.1 hmap).2
  rw [addSiblingNodeFunc]
  split
  · exact ⟨h0, rest0, rfl, hwf, hl0⟩
  · rename_i s hfind
    have hsh0 : s ∈ flattenNodes h0 := by
      rw [findNodeById] at hfind
      cases hft : findNodeTree h0 sid with
      | some r =>
        rw [hft] at hfind
        obtain rfl : r = s := Option.some.inj hfind
        exact (findNodeTree_mem_flatten h0 sid r hft).2.1
      | none =>
        rw [hft] at hfind
        obtain ⟨hid2, hmem2, -⟩ := findNodeById_mem_flatten rest0 sid s hfind
        have hmemid : sid ∈ treeIds h0 := canon_rest_ids hmaprest sid
          (hid2 ▸ List.mem_map_of_mem MindNode.id hmem2)
        have hsome := findNodeTree_isSome_of_mem h0 sid hmemid
        rw [hft] at hsome
        exact absurd hsome (by simp)
    split
    · exact ⟨h0, rest0, rfl, hwf, hl0⟩
    · rename_i pid hsp
      rw [updateFirstNode]
      split
      · have hres := updateFirstTree_TreeWF pid newId _ h0
          (addSibling_f_InsOK sid content newId pid s h0
            (sibling_level hwf hsh0 hsp)) hwf hfresh0
        exact ⟨_, rest0, rfl, hres.1, by rw [hres.2]; exact hl0⟩
      · exact ⟨h0, _, rfl, hwf, hl0⟩

mutual

/-- Removing a subtree keeps the root data, drops ids, and keeps child consistency. -/
theorem deleteNodeTree_pres (i : String) : ∀ t : MindNode,
    (∀ u ∈ flattenNodes t, nodeChildOK u) →
    (deleteNodeTree t i).1.data = t.data ∧
      List.Sublist (treeIds (deleteNodeTree t i).1) (treeIds t) ∧
      ∀ u ∈ flattenNodes (deleteNodeTree t i).1, nodeChildOK u
  | .mk d cs => fun hok => by
    have hoklist : ∀ u ∈ flattenList cs, nodeChildOK u :=
      fun u hu => hok u (by rw [flattenNodes_eq]; exact List.mem_cons_of_mem _ hu)
    have hrec := deleteNodeRecursive_pres i cs hoklist
    simp only [deleteNodeTree]
    refine ⟨rfl, ?_, ?_⟩
    · rw [treeIds_eq, treeIds_eq]
      exact hrec.2.1.cons₂ d.id
    · intro u hu
      rw [flattenNodes_eq] at hu
      rcases List.mem_cons.1 hu with rfl | hmem
      · intro c' hc'
        obtain ⟨c, hc, hdat⟩ := hrec.1 c' hc'
        have hco := hok (.mk d cs) (self_mem_flattenNodes _) c hc
        refine ⟨?_, ?_⟩
        · show c'.data.level = _
          rw [hdat]
          exact hco.1
        · show c'.data.parent = _
          rw [hdat]
          exact hco.2
      · exact hrec.2.2 u hmem

/-- Forest form of `deleteNodeTree_pres`. -/
theorem deleteNodeRecursive_pres (i : String) : ∀ l : List MindNode,
    (∀ u ∈ flattenList l, nodeChildOK u) →
    (∀ c' ∈ (deleteNodeRecursive l i).1, ∃ c ∈ l, c'.data = c.data) ∧
      List.Sublist (forestIds (deleteNodeRecursive l i).1) (forestIds l) ∧
      ∀ u ∈ flattenList (deleteNodeRecursive l i).1, nodeChildOK u
  | [] => fun _ => ⟨fun c' hc' => absurd hc' (List.not_mem_nil c'),
      List.Sublist.refl _, fun u hu => absurd hu (List.not_mem_nil u)⟩
  | t :: rest => fun hok => by
    have hokt : ∀ u ∈ flattenNodes t, nodeChildOK u :=
      fun u hu => hok u (by rw [flattenList_cons]; exact List.mem_append_left _ hu)
    have hokr : ∀ u ∈ flattenList rest, nodeChildOK u :=
      fun u hu => hok u (by rw [flattenList_cons]; exact List.mem_append_right _ hu)
    rw [deleteNodeRecursive]
    split
    · refine ⟨fun c' hc' => ⟨c', List.mem_cons_of_mem _ hc', rfl⟩, ?_, ?_⟩
      · rw [forestIds_cons]
        exact List.sublist_append_right _ _
      · exact hokr
    · have htree := deleteNodeTree_pres i t hokt
      split
      · rename_i t' heq
        rw [heq] at htree
        refine ⟨?_, ?_, ?_⟩
        · intro c' hc'
          rcases List.mem_cons.1 hc' with rfl | hmem
          · exact ⟨t, List.mem_cons_self _ _, htree.1⟩
          · exact ⟨c', List.mem_cons_of_mem _ hmem, rfl⟩
        · rw [forestIds_cons, forestIds_cons]
          exact htree.2.1.append (List.Sublist.refl _)
        · intro u hu
          rw [flattenList_cons] at hu
          rcases List.mem_append.1 hu with h1 | h2
          · exact htree.2.2 u h1
          · exact hokr u h2
      · have hrec := deleteNodeRecursive_pres i rest hokr
        refine ⟨?_, ?_, ?_⟩
        · intro c' hc'
          rcases List.mem_cons.1 hc' with rfl | hmem
          · exact ⟨c', List.mem_cons_self _ _, rfl⟩
          · obtain ⟨c, hc, hdat⟩ := hrec.1 c' hmem
            exact ⟨c, List.mem_cons_of_mem _ hc, hdat⟩
        · rw [forestIds_cons, forestIds_cons]
          exact (List.Sublist.refl _).append hrec.2.1
        · intro u hu
          rw [flattenList_cons] at hu
          rcases List.mem_append.1 hu with h1 | h2
          · exact hokt u h1
          · exact hrec.2.2 u h2

end

/-- `deleteNode` on a canonical list keeps a well-formed level-0 head.  (The guard
refuses to delete the root; deleting anything else removes a subtree from the head.) -/
theorem deleteNodeFunc_head {l : List MindNode} (hc : Canon l) (nodeId : String) :
    ∃ t0 rest, deleteNodeFunc l nodeId = t0 :: rest ∧ TreeWF t0 ∧ t0.level = 0 := by
  obtain ⟨h0, rest0, rfl, hwf, hl0, hmap⟩ := canon_dec hc
  by_cases hid : h0.id = nodeId
  · refine ⟨h0, rest0, ?_, hwf, hl0⟩
    rw [deleteNodeFunc, List.find?_cons_of_pos _ (by simpa using hl0)]
    show (if h0.id = nodeId then h0 :: rest0
      else (deleteNodeRecursive (h0 :: rest0) nodeId).1) = h0 :: rest0
    rw [if_pos hid]
  · have hres : deleteNodeFunc (h0 :: rest0) nodeId =
        (deleteNodeRecursive (h0 :: rest0) nodeId).1 := by
      rw [deleteNodeFunc, List.find?_cons_of_pos _ (by simpa using hl0)]
      show (if h0.id = nodeId then h0 :: rest0
        else (deleteNodeRecursive (h0 :: rest0) nodeId).1) = _
      rw [if_neg hid]
    cases hdel : deleteNodeTree h0 nodeId with
    | mk t' flag =>
      have hpres := deleteNodeTree_pres nodeId h0 hwf.2.2.2
      rw [hdel] at hpres
      have hrec : deleteNodeRecursive (h0 :: rest0) nodeId =
          (if flag then (t' :: rest0, true)
           else (h0 :: (deleteNodeRecursive rest0 nodeId).1,
                 (deleteNodeRecursive rest0 nodeId).2)) := by
        rw [deleteNodeRecursive, if_neg hid, hdel]
        cases flag <;> rfl
      cases flag with
      | true =>
        rw [hrec] at hres
        refine ⟨t', rest0, hres, ⟨?_, ?_, ?_, hpres.2.2⟩, ?_⟩
        · show t'.data.level = 0
          rw [hpres.1]
          exact hl0
        · show t'.data.parent = none
          rw [hpres.1]
          exact hwf.2.1
        · exact hwf.2.2.1.sublist hpres.2.1
        · show t'.data.level = 0
          rw [hpres.1]
          exact hl0
      | false =>
        rw [hrec] at hres
        exact ⟨h0, _, hres, hwf, hl0⟩

theorem updateFirstEntry_cons (x : MindNode) (xs : List MindNode) (j : String)
    (g : MindNode → MindNode) :
    updateFirstEntry (x :: xs) j g =
      if x.id = j then g x :: xs else x :: updateFirstEntry xs j g := by
  rw [updateFirstEntry]

/-- An entry whose id differs from the rewritten one survives untouched. -/
theorem mem_updateFirstEntry_of_ne {n : MindNode} {j : String}
    (g : MindNode → MindNode) : ∀ {l : List MindNode}, n ∈ l → n.id ≠ j →
    n ∈ updateFirstEntry l j g := by
  intro l
  induction l with
  | nil =>
    intro h _
    exact absurd h (List.not_mem_nil n)
  | cons x xs ih =>
    intro h hne
    rw [updateFirstEntry_cons]
    split
    · rename_i hx
      rcases List.mem_cons.1 h with rfl | hmem
      · exact absurd hx hne
      · exact List.mem_cons_of_mem _ hmem
    · rcases List.mem_cons.1 h with rfl | hmem
      · exact List.mem_cons_self _ _
      · exact List.mem_cons_of_mem _ (ih hmem hne)

/-- The first matching entry appears rewritten in the result. -/
theorem updateFirstEntry_found {j : String} (g : MindNode → MindNode) :
    ∀ {l : List MindNode} {e : MindNode}, l.find? (fun n => n.id = j) = some e →
    g e ∈ updateFirstEntry l j g := by
  intro l
  induction l with
  | nil =>
    intro e h
    exact absurd h (by simp)
  | cons x xs ih =>
    intro e h
    rw [updateFirstEntry_cons]
    by_cases hx : x.id = j
    · rw [List.find?_cons_of_pos _ (by simpa using hx)] at h
      obtain rfl : x = e := Option.some.inj h
      rw [if_pos hx]
      exact List.mem_cons_self _ _
    · rw [List.find?_cons_of_neg _ (by simpa using hx)] at h
      rw [if_neg hx]
      exact List.mem_cons_of_mem _ (ih h)

/-- An id-and-parent-preserving entry rewrite keeps every id/parent witness. -/
theorem mem_entry_pres (g : MindNode → MindNode) (j : String)
    (hg : ∀ m, (g m).id = m.id ∧ (g m).parent = m.parent) :
    ∀ {l : List MindNode} {idv : String} {pav : Option String},
    (∃ n ∈ l, n.id = idv ∧ n.parent = pav) →
    ∃ n ∈ updateFirstEntry l j g, n.id = idv ∧ n.parent = pav := by
  intro l
  induction l with
  | nil =>
    intro _ _ h
    obtain ⟨n, hn, -⟩ := h
    exact absurd hn (List.not_mem_nil n)
  | cons x xs ih =>
    intro idv pav h
    obtain ⟨n, hn, hid, hpar⟩ := h
    rw [updateFirstEntry_cons]
    split
    · rcases List.mem_cons.1 hn with rfl | hmem
      · exact ⟨g n, List.mem_cons_self _ _, by rw [(hg n).1]; exact hid,
          by rw [(hg n).2]; exact hpar⟩
      · exact ⟨n, List.mem_cons_of_mem _ hmem, hid, hpar⟩
    · rcases List.mem_cons.1 hn with rfl | hmem
      · exact ⟨n, List.mem_cons_self _ _, hid, hpar⟩
      · obtain ⟨n', hn', h1, h2⟩ := ih ⟨n, hmem, hid, hpar⟩
        exact ⟨n', List.mem_cons_of_mem _ hn', h1, h2⟩

/-- Any entry rewrite keeps an id/parent witness for a different id. -/
theorem mem_entry_pres_ne (g : MindNode → MindNode) (j : String)
    {l : List MindNode} {idv : String} {pav : Option String} (hne : idv ≠ j)
    (h : ∃ n ∈ l, n.id = idv ∧ n.parent = pav) :
    ∃ n ∈ updateFirstEntry l j g, n.id = idv ∧ n.parent = pav := by
  obtain ⟨n, hn, hid, hpar⟩ := h
  exact ⟨n, mem_updateFirstEntry_of_ne g hn (by rw [hid]; exact hne), hid, hpar⟩

/-- Chain of parent-field edges from the root down to any non-root node, against any
list that carries an entry witnessing each node's id and parent field. -/
theorem parent_chain {h0 : MindNode} (hwf : TreeWF h0) (L : List MindNode)
    (hH : ∀ u ∈ flattenNodes h0, ∀ pa, u.parent = some pa →
      ∃ n ∈ L, n.id = u.id ∧ n.parent = some pa) :
    ∀ u ∈ flattenNodes h0, u ≠ h0 → Relation.TransGen (parentEdge L) h0.id u.id := by
  obtain ⟨hlv, hpar, hnd, hok⟩ := hwf
  have key : ∀ (n : ℕ) (u : MindNode), u ∈ flattenNodes h0 → u ≠ h0 →
      u.level.toNat ≤ n → Relation.TransGen (parentEdge L) h0.id u.id := by
    intro n
    induction n with
    | zero =>
      intro u hu hne hlev
      rcases parent_exists_tree h0 u hu with rfl | ⟨w, hw, huw⟩
      · exact absurd rfl hne
      · have hcw := hok w hw u huw
        have h1 := level_le_tree h0 hok w hw
        omega
    | succ n ih =>
      intro u hu hne hlev
      rcases parent_exists_tree h0 u hu with rfl | ⟨w, hw, huw⟩
      · exact absurd rfl hne
      · have hcw := hok w hw u huw
        have hedge : parentEdge L w.id u.id := by
          obtain ⟨m, hm, h1, h2⟩ := hH u hu w.id hcw.2
          exact ⟨m, hm, h1, h2⟩
        by_cases hwroot : w = h0
        · rw [hwroot] at hedge
          exact Relation.TransGen.single hedge
        · have h1 := level_le_tree h0 hok w hw
          exact Relation.TransGen.tail (ih w hw hwroot (by omega)) hedge
  intro u hu hne
  exact key u.level.toNat u hu hne (le_refl _)

/-- Chain of id-resolved child edges from the root to any node, over any list aligned
with the tree's flattening. -/
theorem child_chain {h0 : MindNode} (hwf : TreeWF h0) {ns : List MindNode}
    (hmap : ns.map eraseP = (flattenNodes h0).map eraseP) :
    ∀ u ∈ flattenNodes h0, Relation.ReflTransGen (childEdge ns) h0.id u.id := by
  obtain ⟨hlv, hpar, hnd, hok⟩ := hwf
  have hedge : ∀ w ∈ flattenNodes h0, ∀ u ∈ w.children, childEdge ns w.id u.id := by
    intro w hw u hu
    obtain ⟨e, hfe, hee⟩ := entry_lookup hmap hnd hw
    refine ⟨e, hfe, ?_⟩
    have hcid : e.children.map MindNode.id = w.children.map MindNode.id := by
      apply map_id_of_map_eraseP
      rw [← eraseP_children, ← eraseP_children, hee]
    rw [hcid]
    exact List.mem_map_of_mem MindNode.id hu
  have key : ∀ (n : ℕ) (u : MindNode), u ∈ flattenNodes h0 →
      u.level.toNat ≤ n → Relation.ReflTransGen (childEdge ns) h0.id u.id := by
    intro n
    induction n with
    | zero =>
      intro u hu hlev
      rcases parent_exists_tree h0 u hu with rfl | ⟨w, hw, huw⟩
      · exact Relation.ReflTransGen.refl
      · have hcw := hok w hw u huw
        have h1 := level_le_tree h0 hok w hw
        omega
    | succ n ih =>
      intro u hu hlev
      rcases parent_exists_tree h0 u hu with rfl | ⟨w, hw, huw⟩
      · exact Relation.ReflTransGen.refl
      · have hcw := hok w hw u huw
        have h1 := level_le_tree h0 hok w hw
        exact Relation.ReflTransGen.tail (ih w hw (by omega)) (hedge w hw u huw)
  intro u hu
  exact key u.level.toNat u hu (le_refl _)

/-- A completed guard walk that answers `false` proves the dragged id unreachable from
every stacked id through child edges (given the dragged entry exists). -/
theorem guard_false_not_reach (d : String) (ns : List MindNode) :
    ∀ (fuel : ℕ) (stack : List String),
      isChildOfDraggedW d ns fuel stack = some false →
      (ns.find? (fun n => n.id = d)).isSome = true →
      ∀ x ∈ stack, ¬ Relation.ReflTransGen (childEdge ns) x d := by
  intro fuel
  induction fuel with
  | zero =>
    intro stack h
    rw [isChildOfDraggedW] at h
    exact absurd h (by simp)
  | succ fuel ih =>
    intro stack h hd x hx hre
    cases stack with
    | nil => exact absurd hx (List.not_mem_nil x)
    | cons y ys =>
      rw [isChildOfDraggedW] at h
      cases hfind : ns.find? (fun n => n.id = y) with
      | none =>
        rw [hfind] at h
        rcases List.mem_cons.1 hx with rfl | hmem
        · rcases Relation.ReflTransGen.cases_head hre with rfl | ⟨b, hxb, hbd⟩
          · rw [hfind] at hd
            exact absurd hd (by simp)
          · obtain ⟨n, hn, -⟩ := hxb
            rw [hfind] at hn
            exact Option.noConfusion hn
        · exact ih ys h hd x hmem hre
      | some n =>
        rw [hfind] at h
        have h2 : (if n.id = d then some true
            else isChildOfDraggedW d ns fuel (List.map MindNode.id n.children ++ ys)) =
            some false := h
        by_cases hnd2 : n.id = d
        · rw [if_pos hnd2] at h2
          exact absurd h2 (by simp)
        · rw [if_neg hnd2] at h2
          rcases List.mem_cons.1 hx with rfl | hmem
          · rcases Relation.ReflTransGen.cases_head hre with rfl | ⟨b, hxb, hbd⟩
            · have := List.find?_some hfind
              rw [decide_eq_true_eq] at this
              exact hnd2 this
            · obtain ⟨n', hn', hb⟩ := hxb
              have hnn : n' = n := Option.some.inj (hn'.symm.trans hfind)
              subst hnn
              exact ih _ h2 hd b (List.mem_append.2 (Or.inl hb)) hbd
          · exact ih _ h2 hd x (List.mem_append.2 (Or.inr hmem)) hre

/-- The level-fixing walk never touches an entry without parent: the head survives. -/
theorem updateChildLevelsW_head : ∀ (fuel : ℕ) (stack : List (String × Int))
    (x : MindNode) (xs out : List MindNode), x.parent = none →
    updateChildLevelsW fuel stack (x :: xs) = some out →
    ∃ xs', out = x :: xs' := by
  intro fuel
  induction fuel with
  | zero =>
    intro stack x xs out _ h
    rw [updateChildLevelsW] at h
    exact absurd h (by simp)
  | succ fuel ih =>
    intro stack x xs out hpar h
    cases stack with
    | nil =>
      rw [updateChildLevelsW] at h
      exact ⟨xs, (Option.some.inj h).symm⟩
    | cons p ps =>
      obtain ⟨pid, plvl⟩ := p
      simp only [updateChildLevelsW] at h
      have hslc : setLevelOfChildren (x :: xs) pid (plvl + 1) =
          x :: setLevelOfChildren xs pid (plvl + 1) := by
        rw [setLevelOfChildren, List.map_cons,
          if_neg (by rw [hpar]; exact fun hc => Option.noConfusion hc)]
        rfl
      rw [hslc] at h
      exact ih _ x _ out hpar h

theorem forestIds_sublist_mono : ∀ {l1 l2 : List MindNode}, List.Sublist l1 l2 →
    List.Sublist (forestIds l1) (forestIds l2) := by
  intro l1 l2 h
  induction h with
  | slnil => exact List.Sublist.refl _
  | cons t h ih =>
    rw [forestIds_cons]
    exact ih.trans (List.sublist_append_right _ _)
  | cons₂ t h ih =>
    rw [forestIds_cons, forestIds_cons]
    exact (List.Sublist.refl _).append ih

/-- Dropping some children wholesale keeps a tree well-formed. -/
theorem modChildren_filter_TreeWF (t : MindNode) (q : MindNode → Bool)
    (hwf : TreeWF t) :
    TreeWF (t.modChildren (fun cs => cs.filter q)) ∧
      (t.modChildren (fun cs => cs.filter q)).level = t.level ∧
      (t.modChildren (fun cs => cs.filter q)).parent = t.parent := by
  obtain ⟨hlv, hpar, hnd, hok⟩ := hwf
  obtain ⟨d, cs⟩ := t
  refine ⟨⟨hlv, hpar, ?_, ?_⟩, rfl, rfl⟩
  · show (treeIds (.mk d (cs.filter q))).Nodup
    rw [treeIds_eq]
    rw [treeIds_eq] at hnd
    exact hnd.sublist ((forestIds_sublist_mono (List.filter_sublist cs)).cons₂ d.id)
  · intro u hu
    show nodeChildOK u
    have hfl : flattenNodes ((MindNode.mk d cs).modChildren (fun cs => cs.filter q))
        = MindNode.mk d (cs.filter q) :: flattenList (cs.filter q) := by
      show flattenNodes (.mk d (cs.filter q)) = _
      rw [flattenNodes_eq]
    rw [hfl] at hu
    rcases List.mem_cons.1 hu with rfl | hmem
    · intro c hc
      have hcm : c ∈ cs := List.mem_of_mem_filter (show c ∈ cs.filter q from hc)
      have hco := hok (.mk d cs) (self_mem_flattenNodes _) c hcm
      exact hco
    · obtain ⟨c, hc, hu2⟩ := (mem_flattenList_iff _ u).1 hmem
      exact hok u (by
        rw [flattenNodes_eq]
        exact List.mem_cons_of_mem _
          ((mem_flattenList_iff _ u).2 ⟨c, List.mem_of_mem_filter hc, hu2⟩))

/-- Decomposition of a list aligned with a tree's flattening. -/
theorem aligned_dec {ns : List MindNode} {h0 : MindNode}
    (hmap : ns.map eraseP = (flattenNodes h0).map eraseP) :
    ∃ hN restN, ns = hN :: restN ∧ eraseP hN = eraseP h0 ∧
      restN.map eraseP = (flattenList h0.children).map eraseP := by
  rw [flattenNodes_self_cons, List.map_cons] at hmap
  cases ns with
  | nil => exact absurd hmap (by simp)
  | cons hN restN =>
    rw [List.map_cons] at hmap
    obtain ⟨h1, h2⟩ := List.cons_eq_cons.1 hmap
    exact ⟨hN, restN, rfl, h1, h2⟩

/-- A terminating snap-commit run on a canonical store list produces a list headed by
a well-formed level-0 tree.  (A run that would break the structure — reparenting onto
a descendant, or dragging the root — never terminates, so it never commits.) -/
theorem dragCommit_head {snodes : List MindNode} (hc : Canon snodes)
    (d t : String) (tpos : NodePosition) (fuel : ℕ) (out : List MindNode)
    (hrun : updateNodeRelationshipF fuel (setEntryPosition snodes d tpos) d t
      = some out) :
    ∃ t0 rest, out = t0 :: rest ∧ TreeWF t0 ∧ t0.level = 0 := by
  obtain ⟨h0, rest0, hsn, hwf, hl0, hmap0⟩ := canon_dec hc
  set ns := setEntryPosition snodes d tpos with hns
  have hmap : ns.map eraseP = (flattenNodes h0).map eraseP := by
    rw [hns, setEntryPosition, updateFirstEntry_map_eraseP d
      (fun n => n.modData (fun dd => { dd with position := some tpos }))
      (fun n => eraseP_modData n (fun dd => { dd with position := some tpos })
        (fun dd => rfl) (fun dd => rfl) (fun dd => rfl)) snodes]
    exact hmap0
  obtain ⟨hN, restN, hnsdec, heN, hmaprest⟩ := aligned_dec hmap
  have hnd := hwf.2.2.1
  obtain ⟨hNiff, hNid, hNlv, hNpar⟩ := TreeWF_transfer heN
  have hNwf : TreeWF hN := hNiff.2 hwf
  have hNl0 : hN.level = 0 := by rw [hNlv]; exact hl0
  have hEarly : ns = out → ∃ t0 rest, out = t0 :: rest ∧ TreeWF t0 ∧ t0.level = 0 :=
    fun hout => ⟨hN, restN, by rw [← hout]; exact hnsdec, hNwf, hNl0⟩
  rw [updateNodeRelationshipF] at hrun
  cases hfd : ns.find? (fun n => n.id = d) with
  | none =>
    rw [hfd] at hrun
    exact hEarly (Option.some.inj hrun)
  | some dn =>
    rw [hfd] at hrun
    cases hft : ns.find? (fun n => n.id = t) with
    | none =>
      rw [hft] at hrun
      exact hEarly (Option.some.inj hrun)
    | some tn =>
      rw [hft] at hrun
      have hrun1 : (if dn.parent = some t then some ns
          else match isChildOfDraggedW d ns fuel [t] with
          | none => none
          | some true => some ns
          | some false =>
            updateChildLevelsW fuel [(d, tn.level + 1)]
              (updateFirstEntry (updateFirstEntry (match dn.parent with
                  | some oldPid => updateFirstEntry ns oldPid (fun p =>
                      p.modChildren (fun cs => cs.filter (fun c => c.id ≠ d)))
                  | none => ns) d (fun dcur => dcur.modData (fun dd =>
                    { dd with parent := some t, level := tn.level + 1,
                              direction := if tn.direction.isSome then tn.direction
                                           else dd.direction })))
                t (fun tcur => MindNode.mk { tcur.data with expanded := true }
                  (if tcur.children.any (fun c => c.id = d) then tcur.children
                   else tcur.children ++
                     [((updateFirstEntry (match dn.parent with
                         | some oldPid => updateFirstEntry ns oldPid (fun p =>
                             p.modChildren (fun cs => cs.filter (fun c => c.id ≠ d)))
                         | none => ns) d (fun dcur => dcur.modData (fun dd =>
                           { dd with parent := some t, level := tn.level + 1,
                                     direction := if tn.direction.isSome
                                                  then tn.direction
                                                  else dd.direction }))).find?
                        (fun n => n.id = d)).getD dn])))) = some out := hrun
      clear hrun
      have hdnid : dn.id = d := by
        have := List.find?_some hfd
        rwa [decide_eq_true_eq] at this
      have htnid : tn.id = t := by
        have := List.find?_some hft
        rwa [decide_eq_true_eq] at this
      have hids : ns.map MindNode.id = treeIds h0 := map_id_of_map_eraseP hmap
      have hdmem : d ∈ treeIds h0 := by
        rw [← hids, ← hdnid]
        exact List.mem_map_of_mem MindNode.id (List.mem_of_find?_eq_some hfd)
      have htmem : t ∈ treeIds h0 := by
        rw [← hids, ← htnid]
        exact List.mem_map_of_mem MindNode.id (List.mem_of_find?_eq_some hft)
      obtain ⟨ud, hud, hudid⟩ := List.mem_map.1 hdmem
      obtain ⟨ut, hut, hutid⟩ := List.mem_map.1 htmem
      have hedn : eraseP dn = eraseP ud := by
        obtain ⟨e, hfe, hee⟩ := entry_lookup hmap hnd hud
        rw [hudid] at hfe
        obtain rfl : e = dn := Option.some.inj (hfe.symm.trans hfd)
        exact hee
      have hetn : eraseP tn = eraseP ut := by
        obtain ⟨e, hfe, hee⟩ := entry_lookup hmap hnd hut
        rw [hutid] at hfe
        obtain rfl : e = tn := Option.some.inj (hfe.symm.trans hft)
        exact hee
      by_cases hpar : dn.parent = some t
      · rw [if_pos hpar] at hrun1
        exact hEarly (Option.some.inj hrun1)
      rw [if_neg hpar] at hrun1
      cases hguard : isChildOfDraggedW d ns fuel [t] with
      | none =>
        rw [hguard] at hrun1
        exact absurd hrun1 (by simp)
      | some b =>
        cases b with
        | true =>
          rw [hguard] at hrun1
          exact hEarly (Option.some.inj hrun1)
        | false =>
          rw [hguard] at hrun1
          have hdsome : (ns.find? (fun n => n.id = d)).isSome = true := by
            rw [hfd]
            rfl
          have hnotreach := guard_false_not_reach d ns fuel [t] hguard hdsome t
            (List.mem_singleton.2 rfl)
          have htd : t ≠ d := by
            intro he
            exact hnotreach (by rw [he])
          have hth : t ≠ h0.id := by
            intro he
            refine hnotreach ?_
            rw [he, ← hudid]
            exact child_chain hwf hmap ud hud
          by_cases hdh : d = h0.id
          · -- dragging the root: the level walk cycles, contradicting termination
            have hudh0 : ud = h0 :=
              List.inj_on_of_nodup_map hnd hud (self_mem_flattenNodes h0)
                (by rw [hudid, hdh])
            have hdnp : dn.parent = none := by
              rw [(TreeWF_transfer hedn).2.2.2, hudh0]
              exact hwf.2.1
            rw [hdnp] at hrun1
            have hrunX : updateChildLevelsW fuel [(d, tn.level + 1)]
                (updateFirstEntry (updateFirstEntry ns d (fun dcur =>
                    dcur.modData (fun dd =>
                      { dd with parent := some t, level := tn.level + 1,
                                direction := if tn.direction.isSome then tn.direction
                                             else dd.direction })))
                  t (fun tcur => MindNode.mk { tcur.data with expanded := true }
                    (if tcur.children.any (fun c => c.id = d) then tcur.children
                     else tcur.children ++
                       [((updateFirstEntry ns d (fun dcur => dcur.modData (fun dd =>
                           { dd with parent := some t, level := tn.level + 1,
                                     direction := if tn.direction.isSome
                                                  then tn.direction
                                                  else dd.direction }))).find?
                          (fun n => n.id = d)).getD dn]))) = some out := hrun1
            have hH : ∀ u ∈ flattenNodes h0, ∀ pa, u.parent = some pa →
                ∃ n ∈ updateFirstEntry (updateFirstEntry ns d (fun dcur =>
                    dcur.modData (fun dd =>
                      { dd with parent := some t, level := tn.level + 1,
                                direction := if tn.direction.isSome then tn.direction
                                             else dd.direction })))
                  t (fun tcur => MindNode.mk { tcur.data with expanded := true }
                    (if tcur.children.any (fun c => c.id = d) then tcur.children
                     else tcur.children ++
                       [((updateFirstEntry ns d (fun dcur => dcur.modData (fun dd =>
                           { dd with parent := some t, level := tn.level + 1,
                                     direction := if tn.direction.isSome
                                                  then tn.direction
                                                  else dd.direction }))).find?
                          (fun n => n.id = d)).getD dn])),
                  n.id = u.id ∧ n.parent = some pa := by
              intro u hu pa hpa
              have hbase : ∃ n ∈ ns, n.id = u.id ∧ n.parent = some pa := by
                obtain ⟨e, hfe, hee⟩ := entry_lookup hmap hnd hu
                exact ⟨e, List.mem_of_find?_eq_some hfe, (TreeWF_transfer hee).2.1,
                  by rw [(TreeWF_transfer hee).2.2.2, hpa]⟩
              have hune : u.id ≠ d := by
                intro he
                have huh : u = h0 := List.inj_on_of_nodup_map hnd hu
                  (self_mem_flattenNodes h0) (by rw [he, hdh])
                rw [huh, hwf.2.1] at hpa
                exact Option.noConfusion hpa
              refine mem_entry_pres _ t ?_ ?_
              · exact fun m => ⟨rfl, rfl⟩
              · exact mem_entry_pres_ne _ d hune hbase
            have hutne : ut ≠ h0 := by
              intro he
              exact hth (by rw [← hutid, he])
            have hchain := parent_chain hwf _ hH ut hut hutne
            rw [hutid] at hchain
            have hmem2 := updateFirstEntry_found (fun dcur =>
              dcur.modData (fun dd =>
                { dd with parent := some t, level := tn.level + 1,
                          direction := if tn.direction.isSome then tn.direction
                                       else dd.direction })) hfd
            have hedge : parentEdge (updateFirstEntry (updateFirstEntry ns d
                (fun dcur => dcur.modData (fun dd =>
                  { dd with parent := some t, level := tn.level + 1,
                            direction := if tn.direction.isSome then tn.direction
                                         else dd.direction })))
                t (fun tcur => MindNode.mk { tcur.data with expanded := true }
                  (if tcur.children.any (fun c => c.id = d) then tcur.children
                   else tcur.children ++
                     [((updateFirstEntry ns d (fun dcur => dcur.modData (fun dd =>
                         { dd with parent := some t, level := tn.level + 1,
                                   direction := if tn.direction.isSome
                                                then tn.direction
                                                else dd.direction }))).find?
                        (fun n => n.id = d)).getD dn]))) t d := by
              refine ⟨_, mem_updateFirstEntry_of_ne _ hmem2 ?_, hdnid, rfl⟩
              show dn.id ≠ t
              rw [hdnid]
              exact fun he => htd he.symm
            have hcyc : ∃ pl ∈ [(d, tn.level + 1)],
                Relation.TransGen (parentEdge (updateFirstEntry (updateFirstEntry ns d
                  (fun dcur => dcur.modData (fun dd =>
                    { dd with parent := some t, level := tn.level + 1,
                              direction := if tn.direction.isSome then tn.direction
                                           else dd.direction })))
                  t (fun tcur => MindNode.mk { tcur.data with expanded := true }
                    (if tcur.children.any (fun c => c.id = d) then tcur.children
                     else tcur.children ++
                       [((updateFirstEntry ns d (fun dcur => dcur.modData (fun dd =>
                           { dd with parent := some t, level := tn.level + 1,
                                     direction := if tn.direction.isSome
                                                  then tn.direction
                                                  else dd.direction }))).find?
                          (fun n => n.id = d)).getD dn]))))
                  pl.1 pl.1 := by
              refine ⟨(d, tn.level + 1), List.mem_singleton.2 rfl, ?_⟩
              show Relation.TransGen _ d d
              refine Relation.TransGen.tail ?_ hedge
              rw [← hdh] at hchain
              exact hchain
            rw [updateChildLevels_cycle fuel _ _ hcyc] at hrunX
            exact absurd hrunX (by simp)
          · -- ordinary drag: the head tree is touched at most by the old-parent
            -- children filter
            have hudne : ud ≠ h0 := by
              intro he
              exact hdh (by rw [← hudid, he])
            obtain ⟨w, hw, hudw⟩ := (by
              rcases parent_exists_tree h0 ud hud with rfl | hx
              · exact absurd rfl hudne
              · exact hx :
                ∃ w ∈ flattenNodes h0, ud ∈ w.children)
            have hcw := (hwf.2.2.2 w hw) ud hudw
            have hdnp : dn.parent = some w.id := by
              rw [(TreeWF_transfer hedn).2.2.2]
              exact hcw.2
            rw [hdnp] at hrun1
            have hrunX : updateChildLevelsW fuel [(d, tn.level + 1)]
                (updateFirstEntry (updateFirstEntry (updateFirstEntry ns w.id (fun p =>
                    p.modChildren (fun cs => cs.filter (fun c => c.id ≠ d))))
                  d (fun dcur => dcur.modData (fun dd =>
                    { dd with parent := some t, level := tn.level + 1,
                              direction := if tn.direction.isSome then tn.direction
                                           else dd.direction })))
                  t (fun tcur => MindNode.mk { tcur.data with expanded := true }
                    (if tcur.children.any (fun c => c.id = d) then tcur.children
                     else tcur.children ++
                       [((updateFirstEntry (updateFirstEntry ns w.id (fun p =>
                             p.modChildren (fun cs => cs.filter (fun c => c.id ≠ d))))
                           d (fun dcur => dcur.modData (fun dd =>
                             { dd with parent := some t, level := tn.level + 1,
                                       direction := if tn.direction.isSome
                                                    then tn.direction
                                                    else dd.direction }))).find?
                          (fun n => n.id = d)).getD dn]))) = some out := hrun1
            by_cases hNw : hN.id = w.id
            · -- the dragged entry leaves the root's own child list
              have hstage1 : updateFirstEntry ns w.id (fun p =>
                  p.modChildren (fun cs => cs.filter (fun c => c.id ≠ d))) =
                  hN.modChildren (fun cs => cs.filter (fun c => c.id ≠ d)) :: restN := by
                rw [hnsdec, updateFirstEntry_cons, if_pos hNw]
              obtain ⟨hwfF, hlvF, hparF⟩ := modChildren_filter_TreeWF hN
                (fun c => c.id ≠ d) hNwf
              have hidF : (hN.modChildren (fun cs =>
                  cs.filter (fun c => c.id ≠ d))).id = hN.id := rfl
              have hstage2 : updateFirstEntry (hN.modChildren (fun cs =>
                  cs.filter (fun c => c.id ≠ d)) :: restN) d (fun dcur =>
                    dcur.modData (fun dd =>
                      { dd with parent := some t, level := tn.level + 1,
                                direction := if tn.direction.isSome then tn.direction
                                             else dd.direction })) =
                  hN.modChildren (fun cs => cs.filter (fun c => c.id ≠ d)) ::
                    updateFirstEntry restN d (fun dcur =>
                      dcur.modData (fun dd =>
                        { dd with parent := some t, level := tn.level + 1,
                                  direction := if tn.direction.isSome then tn.direction
                                               else dd.direction })) := by
                rw [updateFirstEntry_cons, if_neg (by
                  rw [hidF, hNid]
                  exact fun he => hdh he.symm)]
              rw [hstage1, hstage2] at hrunX
              rw [updateFirstEntry_cons, if_neg (by
                rw [hidF, hNid]
                exact fun he => hth he.symm)] at hrunX
              obtain ⟨xs', hout⟩ := updateChildLevelsW_head fuel _ _ _ out
                (by rw [hparF, hNpar]; exact hwf.2.1) hrunX
              exact ⟨_, xs', hout, hwfF, by rw [hlvF]; exact hNl0⟩
            · -- the head is untouched
              have hstage1 : updateFirstEntry ns w.id (fun p =>
                  p.modChildren (fun cs => cs.filter (fun c => c.id ≠ d))) =
                  hN :: updateFirstEntry restN w.id (fun p =>
                    p.modChildren (fun cs => cs.filter (fun c => c.id ≠ d))) := by
                rw [hnsdec, updateFirstEntry_cons, if_neg hNw]
              rw [hstage1] at hrunX
              rw [updateFirstEntry_cons, if_neg (by
                rw [hNid]
                exact fun he => hdh he.symm)] at hrunX
              rw [updateFirstEntry_cons, if_neg (by
                rw [hNid]
                exact fun he => hth he.symm)] at hrunX
              obtain ⟨xs', hout⟩ := updateChildLevelsW_head fuel _ _ _ out
                (by rw [hNpar]; exact hwf.2.1) hrunX
              exact ⟨hN, xs', hout, hNwf, hNl0⟩

theorem updateContent_head {l : List MindNode} (hc : Canon l) (i c : String) :
    ∃ t0 rest, updateNodeContentFunc l i c = t0 :: rest ∧ TreeWF t0 ∧ t0.level = 0 :=
  head_of_Canon (Canon_of_map_eq (updateFirstNode_map_eraseP l i
    (fun n => n.modData (fun d0 => { d0 with content := c }))
    (fun n => eraseP_modData n (fun d0 => { d0 with content := c })
      (fun d0 => rfl) (fun d0 => rfl) (fun d0 => rfl))) hc)

theorem updateStyle_head {l : List MindNode} (hc : Canon l) (i : String)
    (st : NodeStyle) :
    ∃ t0 rest, updateNodeStyleFunc l i st = t0 :: rest ∧ TreeWF t0 ∧ t0.level = 0 :=
  head_of_Canon (Canon_of_map_eq (updateFirstNode_map_eraseP l i
    (fun n => n.modData (fun d0 => { d0 with style := mergeStyle d0.style st }))
    (fun n => eraseP_modData n (fun d0 => { d0 with style := mergeStyle d0.style st })
      (fun d0 => rfl) (fun d0 => rfl) (fun d0 => rfl))) hc)

theorem toggleExpanded_head {l : List MindNode} (hc : Canon l) (i : String) :
    ∃ t0 rest, toggleNodeExpandedFunc l i = t0 :: rest ∧ TreeWF t0 ∧ t0.level = 0 :=
  head_of_Canon (Canon_of_map_eq (updateFirstNode_map_eraseP l i
    (fun n => n.modData (fun d0 => { d0 with expanded := !d0.expanded }))
    (fun n => eraseP_modData n (fun d0 => { d0 with expanded := !d0.expanded })
      (fun d0 => rfl) (fun d0 => rfl) (fun d0 => rfl))) hc)

theorem setEntryPosition_Canon {l : List MindNode} (hc : Canon l) (i : String)
    (pos : NodePosition) : Canon (setEntryPosition l i pos) :=
  Canon_of_map_eq (by
    rw [setEntryPosition, updateFirstEntry_map_eraseP i
      (fun n => n.modData (fun d0 => { d0 with position := some pos }))
      (fun n => eraseP_modData n (fun d0 => { d0 with position := some pos })
        (fun d0 => rfl) (fun d0 => rfl) (fun d0 => rfl)) l]) hc

/-- Every public command preserves the store invariant. -/
theorem step_InvS {s s' : StoreState} (h : Step s s') (hi : InvS s) : InvS s' := by
  cases h with
  | addChild pid content newId hfresh =>
    exact executeWithHistory_InvS s _ hi
      (addChildNode_head hi.1 pid content newId hfresh)
  | addSibling sid content newId hfresh =>
    exact executeWithHistory_InvS s _ hi
      (addSiblingNodeFunc_head hi.1 sid content newId hfresh)
  | deleteNode nodeId =>
    exact executeWithHistory_InvS s _ hi (deleteNodeFunc_head hi.1 nodeId)
  | updateContent nodeId content =>
    exact executeWithHistory_InvS s _ hi (updateContent_head hi.1 nodeId content)
  | updateStyle nodeId st =>
    exact executeWithHistory_InvS s _ hi (updateStyle_head hi.1 nodeId st)
  | toggleExpanded nodeId =>
    exact executeWithHistory_InvS s _ hi (toggleExpanded_head hi.1 nodeId)
  | savePosition nodeId pos =>
    exact executeWithHistory_InvS s _ hi
      (head_of_Canon (setEntryPosition_Canon hi.1 nodeId pos))
  | visualMove nodeId pos =>
    exact ⟨setEntryPosition_Canon hi.1 nodeId pos, hi.2.1, hi.2.2⟩
  | dragCommit d t tpos fuel out hrun =>
    refine ⟨?_, ?_, ?_⟩
    · show Canon (reflatten out)
      exact reflatten_Canon_of_head (dragCommit_head hi.1 d t tpos fuel out hrun)
    · intro p hp
      rcases List.mem_append.1 hp with h1 | h2
      · exact hi.2.1 p h1
      · rw [List.mem_singleton] at h2
        rw [h2]
        exact hi.1
    · intro p hp
      exact absurd hp (List.not_mem_nil p)
  | addRelationship sourceId targetId label newId =>
    refine executeWithHistory_InvS s _ hi ?_
    obtain ⟨t0, rest, heq, hwf, hl0⟩ := head_of_Canon hi.1
    refine ⟨t0, rest, ?_, hwf, hl0⟩
    show (if ((s.relationships.find? (fun r => r.sourceId = sourceId ∧
        r.targetId = targetId)).isSome) = true then (s.nodes, s.relationships)
      else ((s.nodes, s.relationships).1, (s.nodes, s.relationships).2 ++
        [{ id := newId, sourceId := sourceId, targetId := targetId,
           label := label, style := DEFAULT_CONNECTION_STYLE }])).1 = t0 :: rest
    split
    · exact heq
    · exact heq
  | updateRelationship rid u =>
    refine executeWithHistory_InvS s _ hi ?_
    obtain ⟨t0, rest, heq, hwf, hl0⟩ := head_of_Canon hi.1
    exact ⟨t0, rest, heq, hwf, hl0⟩
  | deleteRelationship rid =>
    refine executeWithHistory_InvS s _ hi ?_
    obtain ⟨t0, rest, heq, hwf, hl0⟩ := head_of_Canon hi.1
    exact ⟨t0, rest, heq, hwf, hl0⟩
  | undoStep =>
    cases hg : s.undoStack.getLast? with
    | none =>
      have he : storeUndo s = s := by
        rw [storeUndo, hg]
      rw [he]
      exact hi
    | some prev =>
      have he : storeUndo s =
          { nodes := prev.1, relationships := prev.2,
            undoStack := s.undoStack.dropLast,
            redoStack := s.redoStack ++ [(s.nodes, s.relationships)] } := by
        rw [storeUndo, hg]
      rw [he]
      refine ⟨hi.2.1 prev (List.mem_of_mem_getLast? hg),
        fun p hp => hi.2.1 p (List.dropLast_subset _ hp), fun p hp => ?_⟩
      rcases List.mem_append.1 hp with h1 | h2
      · exact hi.2.2 p h1
      · rw [List.mem_singleton] at h2
        rw [h2]
        exact hi.1
  | redoStep =>
    cases hg : s.redoStack.getLast? with
    | none =>
      have he : storeRedo s = s := by
        rw [storeRedo, hg]
      rw [he]
      exact hi
    | some next =>
      have he : storeRedo s =
          { nodes := next.1, relationships := next.2,
            undoStack := s.undoStack ++ [(s.nodes, s.relationships)],
            redoStack := s.redoStack.dropLast } := by
        rw [storeRedo, hg]
      rw [he]
      refine ⟨hi.2.2 next (List.mem_of_mem_getLast? hg), fun p hp => ?_,
        fun p hp => hi.2.2 p (List.dropLast_subset _ hp)⟩
      rcases List.mem_append.1 hp with h1 | h2
      · exact hi.2.1 p h1
      · rw [List.mem_singleton] at h2
        rw [h2]
        exact hi.1

/-- The invariant propagates along any command sequence. -/
theorem reach_InvS {s0 s : StoreState} (h0 : InvS s0) (hr : Reachable s0 s) :
    InvS s := by
  induction hr with
  | refl => exact h0
  | tail hs hstep ih => exact step_InvS hstep ih

/-- The initialized store satisfies the invariant (given globally distinct initial
ids, expressed as well-formedness of the initial tree). -/
theorem initial_InvS (rId rc1 rc2 lc1 lc2 g1 g2 g3 : String)
    (hwf : TreeWF (createInitialMindMap rId rc1 rc2 lc1 lc2 g1 g2 g3)) :
    InvS (initialStoreState rId rc1 rc2 lc1 lc2 g1 g2 g3) := by
  refine ⟨⟨createInitialMindMap rId rc1 rc2 lc1 lc2 g1 g2 g3, hwf, ?_⟩,
    fun p hp => absurd hp (List.not_mem_nil p),
    fun p hp => absurd hp (List.not_mem_nil p)⟩
  show (flattenNodes (calculateMindMapLayout
    (createInitialMindMap rId rc1 rc2 lc1 lc2 g1 g2 g3))).map eraseP = _
  rw [← flattenNodes_eraseP, ← flattenNodes_eraseP, calculateMindMapLayout_eraseP]

/-- Claim C4: in every store state reachable from the initialized store by any
sequence of the public commands — node creation and edits, deletion, pointer-drag
reparenting, relationship edits, undo and redo — exactly one node has level `0`, that
node has no parent, and every other node's level is its parent's level plus one. -/
theorem c4_level_invariant (rId rc1 rc2 lc1 lc2 g1 g2 g3 : String)
    (hwf : TreeWF (createInitialMindMap rId rc1 rc2 lc1 lc2 g1 g2 g3))
    (s : StoreState)
    (hr : Reachable (initialStoreState rId rc1 rc2 lc1 lc2 g1 g2 g3) s) :
    LevelInv s.nodes :=
  LevelInv_of_Canon (reach_InvS (initial_InvS rId rc1 rc2 lc1 lc2 g1 g2 g3 hwf) hr).1

/-- Witness for `c4_level_invariant` at concrete distinct ids and the empty command
sequence. -/
theorem c4_level_invariant_witness :
    TreeWF (createInitialMindMap "r" "a" "b" "c" "d" "e" "f" "g") ∧
      LevelInv (initialStoreState "r" "a" "b" "c" "d" "e" "f" "g").nodes :=
  ⟨by decide, c4_level_invariant "r" "a" "b" "c" "d" "e" "f" "g" (by decide) _
    Relation.ReflTransGen.refl⟩

end WebMind
